import Mathlib

/-!
# One-time-pad service (otp_enc, otp_enc_d, otp_dec, otp_dec_d)

A shallow embedding of the C sources and the properties proved about them.

Conventions of the embedding:
* a C `char` is an integer (`Int`); a `char` array is a `List Int`;
* a C string is the part of an array before its first NUL byte; reading a list
  past its end yields the NUL byte;
* `int` arithmetic is done in `Int`; `%` of C is `Int.tmod` (truncating);
* a `size_t` or `ssize_t` value stored in an `int` is converted with `toInt`
  (reduction modulo 2^32 into the range of `int`);
* a run that reaches a store past the end of an array has no further
  behaviour: it ends as `Result.undefined`.
-/

namespace Otp

/-! ## C strings -/

/-- The C-string content of a `char` array: the bytes before the first NUL. -/
def cstr (s : List Int) : List Int := s.takeWhile (fun c => decide (c ≠ 0))

/-- Model of `strlen`: the number of bytes before the first NUL. -/
def strlen (s : List Int) : Nat := (cstr s).length

/-- Model of `s[i]` for a `char` array; past the end of the list the byte read is NUL. -/
def charAt (s : List Int) (i : Nat) : Int := s.getD i 0

/-- The conversion `(char)c` of an `int` to a signed 8-bit `char`. -/
def toChar (c : Int) : Int := (c + 128) % 256 - 128

/-- Membership in the 27-symbol alphabet: `'A'..'Z'` (65..90) or space (32). -/
def inAlphabet (c : Int) : Prop := (65 ≤ c ∧ c ≤ 90) ∨ c = 32

instance (c : Int) : Decidable (inAlphabet c) := by
  unfold inAlphabet; infer_instance

/-! ## Cipher transform: `encode` (otp_enc_d.c) and `decode` (otp_dec_d.c) -/

/-- Body of the loop of `encode` for one position: the character written to
`ciphertext[i]` from `plaintext[i]` and `key[i]`. -/
def encodeChar (pc kc : Int) : Int :=
  let p := pc - 65
  let p := if p < 0 then 26 else p
  let k := kc - 65
  let k := if k < 0 then 26 else k
  let c := Int.tmod (p + k) 27 + 65
  let c := if c > 90 then 32 else c
  toChar c

/-- Body of the loop of `decode` for one position: the character written to
`decodedMsg[i]` from `ciphertext[i]` and `key[i]`. -/
def decodeChar (cc kc : Int) : Int :=
  let c := cc - 65
  let c := if c < 0 then 26 else c
  let k := kc - 65
  let k := if k < 0 then 26 else k
  let d := Int.tmod (c - k + 27) 27 + 65
  let d := if d > 90 then 32 else d
  toChar d

/-- The `for (i = ...; i < lenPlaintext; i++)` loop of `encode`, with `n`
iterations left to run from index `i`. -/
def encodeLoop (plaintext key : List Int) : Nat → Nat → List Int → List Int
  | 0, _, ciphertext => ciphertext
  | n + 1, i, ciphertext =>
    encodeLoop plaintext key n (i + 1)
      (ciphertext.set i (encodeChar (charAt plaintext i) (charAt key i)))

/-- Model of `encode(plaintext, key, ciphertext)`: returns the array `ciphertext` after
the call. -/
def encode (plaintext key ciphertext : List Int) : List Int :=
  encodeLoop plaintext key (strlen plaintext) 0 ciphertext

/-- The `for (i = ...; i < lenCiphertext; i++)` loop of `decode`, with `n`
iterations left to run from index `i`. -/
def decodeLoop (ciphertext key : List Int) : Nat → Nat → List Int → List Int
  | 0, _, decodedMsg => decodedMsg
  | n + 1, i, decodedMsg =>
    decodeLoop ciphertext key n (i + 1)
      (decodedMsg.set i (decodeChar (charAt ciphertext i) (charAt key i)))

/-- Model of `decode(ciphertext, key, decodedMsg)`: returns the array `decodedMsg` after
the call. -/
def decode (ciphertext key decodedMsg : List Int) : List Int :=
  decodeLoop ciphertext key (strlen ciphertext) 0 decodedMsg

/-- The buffer `calloc(m, sizeof(char))`: `m` NUL bytes. -/
def calloc (m : Nat) : List Int := List.replicate m 0

/-! ### Reference definitions of the specification (section 4.1) -/

/-- Specification side: `alphabetIndex` maps `'A'..'Z'` to 0..25 and space to 26. -/
def specAlphabetIndex (c : Int) : Int := if c = 32 then 26 else c - 65

/-- Specification side: `alphabetChar`, the inverse mapping (0..25 to
`'A'..'Z'`, 26 to space). -/
def specAlphabetChar (v : Int) : Int := if v = 26 then 32 else v + 65

/-! ## Client input validation: `checkTexts` (otp_enc.c, otp_dec.c) -/

/-- Conversion of an integer to `int` (32 bits, two's complement), as done when
a `size_t` or `ssize_t` value is stored in an `int` (`int lenText = strlen(text)`,
`(int)nplaintext`) and by `atoi`. -/
def toInt (x : Int) : Int := (x + 2147483648) % 4294967296 - 2147483648

/-- The condition of the `if` inside both loops of `checkTexts`:
`(c < 'A' && c != ' ') || c > 'Z'`. -/
def invalidChar (c : Int) : Bool :=
  (decide (c < 65) && decide (c ≠ 32)) || decide (c > 90)

/-- A `for (i = ...; i < len; i++) if (invalid(s[i])) return ...;` loop of
`checkTexts` with `n` iterations left from index `i`: `true` when the loop takes
its `return`, `false` when it runs to its end. -/
def scanInvalid (s : List Int) : Nat → Nat → Bool
  | 0, _ => false
  | n + 1, i => if invalidChar (charAt s i) then true else scanInvalid s n (i + 1)

/-- Model of `checkTexts(text, key)`. The two lengths are stored in `int`
variables (`int lenText = strlen(text)`), so they are the values of `strlen`
converted to `int`; a loop `for (i = 0; i < len; i++)` with a negative `len` does
not run. -/
def checkTexts (text key : List Int) : Int :=
  let lenText := toInt (strlen text)
  let lenKey := toInt (strlen key)
  if lenText > lenKey then -1
  else if scanInvalid text lenText.toNat 0 then -2
  else if scanInvalid key lenKey.toNat 0 then -3
  else 1

/-! ## Transport model

The programs talk to the network through `send`, `recv`, `socket`, `connect`
and `close`. The environment is a `Transport`: it fixes the value every system
call returns and the bytes the peer delivers. A `Conn` records what the process
has done on its connection so far. -/

/-- One system call of the process, as recorded in its trace: the requested
length (for `send`/`recv`) and the value the call returned. -/
inductive Call where
  | socket (ret : Int)
  | connect (ret : Int)
  | send (len : Int) (ret : Int)
  | recv (len : Int) (ret : Int)
  | close
  deriving DecidableEq

/-- The value a recorded call returned (`close` is recorded with 0). -/
def Call.ret : Call → Int
  | .socket r => r
  | .connect r => r
  | .send _ r => r
  | .recv _ r => r
  | .close => 0

/-- The length a recorded `send`/`recv` asked for (0 for the other calls). -/
def Call.len : Call → Int
  | .send l _ => l
  | .recv l _ => l
  | _ => 0

/-- The environment of one process: `ret k len` is the value returned by the
system call number `k` of the trace when it asks for `len` bytes, `input i` is
byte number `i` of the stream the peer delivers. -/
structure Transport where
  ret : Nat → Int → Int
  input : Nat → Int

/-- What the process has done so far: the trace of its system calls (oldest
first), the bytes it has handed to the transport, and how many bytes of the
incoming stream it has taken. -/
structure Conn where
  calls : List Call
  sent : List Int
  rcvd : Nat
  deriving DecidableEq

/-- The state before any system call. -/
def Conn.init : Conn := { calls := [], sent := [], rcvd := 0 }

/-- How a (fuel-bounded) run of a function ends: it returned a value, the
process exited (`exit(code)`), the iteration bound was reached while a loop
was still running, or the run reached a statement whose behaviour C leaves
undefined (a store past the end of an array). -/
inductive Result (α : Type) where
  | returned (v : α) (c : Conn)
  | exited (code : Int) (c : Conn)
  | outOfFuel (c : Conn)
  | undefined (c : Conn)
  deriving DecidableEq

/-- The connection state at the end of a run. -/
def Result.conn {α : Type} : Result α → Conn
  | .returned _ c => c
  | .exited _ c => c
  | .outOfFuel c => c
  | .undefined c => c

/-- The exit status, when the run ended in `exit`. -/
def Result.exitCode {α : Type} : Result α → Option Int
  | .exited code _ => some code
  | _ => none

/-- Storing `data` into the array `buf` from index `pos` on (what `recv`,
`sprintf` and `strcpy` do); a store past the end of the array is not recorded. -/
def writeAt (buf : List Int) : Nat → List Int → List Int
  | _, [] => buf
  | pos, x :: xs => writeAt (buf.set pos x) (pos + 1) xs

/-- The `len` bytes of the incoming stream from byte number `start` on. -/
def Transport.next (tr : Transport) (start len : Nat) : List Int :=
  (List.range len).map (fun i => tr.input (start + i))

/-- Model of `send(fd, text + pos, len, 0)`: returns the count reported by the transport;
when it is not negative, that many bytes from `text + pos` have been handed to
the transport. -/
def send (tr : Transport) (c : Conn) (text : List Int) (pos : Nat) (len : Int) :
    Int × Conn :=
  let r := tr.ret c.calls.length len
  (r, { calls := c.calls ++ [Call.send len r],
        sent := c.sent ++ (text.drop pos).take r.toNat,
        rcvd := c.rcvd })

/-- Model of `recv(fd, text + pos, len, 0)`: returns the count reported by the transport
and the array after the call; when the count is not negative, that many bytes,
the next ones of the incoming stream, have been stored from `text + pos` on. -/
def recv (tr : Transport) (c : Conn) (text : List Int) (pos : Nat) (len : Int) :
    Int × List Int × Conn :=
  let r := tr.ret c.calls.length len
  (r, writeAt text pos (tr.next c.rcvd r.toNat),
    { calls := c.calls ++ [Call.recv len r],
      sent := c.sent,
      rcvd := c.rcvd + r.toNat })

/-- Model of `close(fd)`. -/
def close (c : Conn) : Conn := { c with calls := c.calls ++ [Call.close] }

/-! ## Frame codec: `writeToSocket` and `readFromSocket` -/

/-- The `do { ... } while (leftBehind > 0)` loop of `writeToSocket`; `fuel`
bounds the number of iterations. Returns the advanced `text` pointer. -/
def sendLoop (tr : Transport) (text : List Int) :
    Nat → Int → Nat → Conn → Result Nat
  | 0, _, _, c => .outOfFuel c
  | fuel + 1, leftBehind, pos, c =>
    let r := send tr c text pos leftBehind
    let charsWritten := r.1
    if charsWritten < 0 then .exited 1 r.2
    else
      let leftBehind := leftBehind - charsWritten
      let pos := pos + charsWritten.toNat
      if leftBehind > 0 then sendLoop tr text fuel leftBehind pos r.2
      else .returned pos r.2

/-- The `while (ntext > 0)` loop of `writeToSocket`; `fuel` bounds its
iterations and `inner` those of each run of the inner loop. -/
def writeLoop (tr : Transport) (text : List Int) (inner : Nat) :
    Nat → Int → Nat → Conn → Result Unit
  | 0, _, _, c => .outOfFuel c
  | fuel + 1, ntext, pos, c =>
    if ntext > 0 then
      let leftBehind := if ntext ≥ 1024 then 1024 else ntext
      let ntext := ntext - leftBehind
      match sendLoop tr text inner leftBehind pos c with
      | .returned pos c => writeLoop tr text inner fuel ntext pos c
      | .exited code c => .exited code c
      | .outOfFuel c => .outOfFuel c
      | .undefined c => .undefined c
    else .returned () c

/-- Model of `writeToSocket(socketFD, text, ntext)`, with every loop bounded by `fuel`
iterations. -/
def writeToSocket (tr : Transport) (fuel : Nat) (c : Conn) (text : List Int)
    (ntext : Int) : Result Unit :=
  writeLoop tr text fuel fuel ntext 0 c

/-- The `do { ... } while (leftBehind > 0)` loop of `readFromSocket`; `fuel`
bounds the number of iterations. Returns the advanced `text` pointer and the
array. -/
def recvLoop (tr : Transport) :
    Nat → Int → Nat → List Int → Conn → Result (Nat × List Int)
  | 0, _, _, _, c => .outOfFuel c
  | fuel + 1, leftBehind, pos, text, c =>
    let r := recv tr c text pos leftBehind
    let charsRead := r.1
    if charsRead < 0 then .exited 1 r.2.2
    else
      let leftBehind := leftBehind - charsRead
      let pos := pos + charsRead.toNat
      if leftBehind > 0 then recvLoop tr fuel leftBehind pos r.2.1 r.2.2
      else .returned (pos, r.2.1) r.2.2

/-- The `while (ntext > 0)` loop of `readFromSocket`; `fuel` bounds its
iterations and `inner` those of each run of the inner loop. -/
def readLoop (tr : Transport) (inner : Nat) :
    Nat → Int → Nat → List Int → Conn → Result (List Int)
  | 0, _, _, _, c => .outOfFuel c
  | fuel + 1, ntext, pos, text, c =>
    if ntext > 0 then
      let leftBehind := if ntext ≥ 1024 then 1024 else ntext
      let ntext := ntext - leftBehind
      match recvLoop tr inner leftBehind pos text c with
      | .returned p c => readLoop tr inner fuel ntext p.1 p.2 c
      | .exited code c => .exited code c
      | .outOfFuel c => .outOfFuel c
      | .undefined c => .undefined c
    else .returned text c

/-- Model of `readFromSocket(socketFD, text, ntext)`, with every loop bounded by `fuel`
iterations. Returns the array `text` after the call. -/
def readFromSocket (tr : Transport) (fuel : Nat) (c : Conn) (text : List Int)
    (ntext : Int) : Result (List Int) :=
  readLoop tr fuel fuel ntext 0 text c

/-- A transport on which every `send`/`recv` that asks for `len > 0` bytes
transfers at least one and at most `len` bytes. -/
def Transport.Progresses (tr : Transport) : Prop :=
  ∀ (k : Nat) (len : Int), 0 < len → 1 ≤ tr.ret k len ∧ tr.ret k len ≤ len

/-- The calls `new`, made after the calls `old`, returned what the transport
dictates: call number `k` of the whole trace returned `tr.ret k len`. -/
def Transport.Dictates (tr : Transport) (old new : List Call) : Prop :=
  ∀ (i : Nat) (h : i < new.length),
    (new.get ⟨i, h⟩).ret = tr.ret (old.length + i) (new.get ⟨i, h⟩).len

/-- A run that started after the calls `old` fails at the first error only:
its trace extends `old` by calls `new` whose results are those of the
transport, and either the run did not exit and no call of `new` returned a
negative count, or it exited with status 1 and the last call of `new` is the
only one that returned a negative count. -/
def FailsAtFirstError {α : Type} (tr : Transport) (old : List Call) (r : Result α) :
    Prop :=
  ∃ new, r.conn.calls = old ++ new ∧ tr.Dictates old new ∧
    ((r.exitCode = none ∧ ∀ x ∈ new, 0 ≤ x.ret)
      ∨ (r.exitCode = some 1 ∧ ∃ pre last, new = pre ++ [last] ∧ last.ret < 0
          ∧ ∀ x ∈ pre, 0 ≤ x.ret))

/-! ## Length field: `sprintf("%d")` on the client, `atoi` on the server -/

/-- Decimal digits of `n`, most significant first, in front of `acc`; `fuel`
bounds the number of digits. -/
def decDigits : Nat → Nat → List Int → List Int
  | 0, _, acc => acc
  | fuel + 1, n, acc =>
    if n < 10 then (48 + (n : Int)) :: acc
    else decDigits fuel (n / 10) ((48 + ((n % 10 : Nat) : Int)) :: acc)

/-- The characters `sprintf(buf, "%d", v)` produces (without the terminating
NUL): a minus sign for a negative value, then the decimal digits. -/
def sprintfInt (v : Int) : List Int :=
  if v < 0 then 45 :: decDigits (v.natAbs + 1) v.natAbs []
  else decDigits (v.natAbs + 1) v.natAbs []

/-- Whether `sprintf(textLength, "%d", (int)nplaintext)` stays inside the
10-byte array: the characters and the terminating NUL take at most 10 bytes. -/
def sprintfInBounds (nplaintext : Int) : Bool :=
  decide ((sprintfInt (toInt nplaintext)).length + 1 ≤ 10)

/-- The 10 bytes of `char textLength[10]` that the client sends, after
`memset(textLength, 0, 10)` and `sprintf(textLength, "%d", (int)nplaintext)`.
There is no value when the `sprintf` would store past the end of the array
(11 characters or more with the terminating NUL): the behaviour of the code is
then undefined. -/
def textLengthField (nplaintext : Int) : Option (List Int) :=
  if sprintfInBounds nplaintext then
    some (writeAt (calloc 10) 0 (sprintfInt (toInt nplaintext) ++ [0]))
  else none

/-- Model of `isspace` in the C locale. -/
def isspace (c : Int) : Bool := decide (c = 32) || (decide (9 ≤ c) && decide (c ≤ 13))

/-- Model of `isdigit`. -/
def isdigit (c : Int) : Bool := decide (48 ≤ c) && decide (c ≤ 57)

/-- The value of a run of decimal digit characters. -/
def digitsValue (ds : List Int) : Int := ds.foldl (fun acc d => acc * 10 + (d - 48)) 0

/-- Model of `strtol(s, NULL, 10)`: optional white space, optional sign, decimal digits;
the value is clamped to the range of `long` (64 bits). -/
def strtol (s : List Int) : Int :=
  let s := (cstr s).dropWhile isspace
  let neg := s.head? == some 45
  let s := if s.head? == some 45 || s.head? == some 43 then s.tail else s
  let v := digitsValue (s.takeWhile isdigit)
  let v := if neg then -v else v
  max (-9223372036854775808) (min 9223372036854775807 v)

/-- Model of `atoi(s)`, which is `(int)strtol(s, NULL, 10)`. -/
def atoi (s : List Int) : Int := toInt (strtol s)

/-! ## Session protocol: the server worker -/

/-- The two server programs; their loops differ only in where `toBlock` is
set up (inside the loop in otp_enc_d.c, before it in otp_dec_d.c). -/
inductive Server where
  | encD
  | decD
  deriving DecidableEq

/-- The role tag `"enc"`. -/
def encTag : List Int := [101, 110, 99]

/-- The role tag `"dec"`. -/
def decTag : List Int := [100, 101, 99]

/-- Model of `strcmp(a, b) != 0`: the two C strings differ. -/
def strcmpNe (a b : List Int) : Bool := decide (cstr a ≠ cstr b)

/-- The common body of `checkAndEncode` (otp_enc_d.c: `ownTag = "enc"`,
`transform = encode`) and `checkAndDecode` (otp_dec_d.c: `ownTag = "dec"`,
`transform = decode`). `calloc` of a negative `int` count (a huge `size_t`)
returns NULL, which the code answers with `error(...)`; `calloc` of a
non-negative count is taken to succeed. -/
def serverSession (ownTag : List Int)
    (transform : List Int → List Int → List Int → List Int)
    (tr : Transport) (fuel : Nat) (c : Conn) : Result Unit :=
  -- char buffer[64]; memset(buffer, 0, 64); recv(fd, buffer, 3, 0)
  let r1 := recv tr c (calloc 64) 0 3
  if r1.1 < 0 then .exited 1 r1.2.2 else
  -- send(fd, ownTag, 3, 0)
  let r2 := send tr r1.2.2 (ownTag ++ [0]) 0 3
  if r2.1 < 0 then .exited 1 r2.2 else
  -- if (strcmp(buffer, ownTag) != 0) { close(fd); exit(2); }
  if strcmpNe r1.2.1 (ownTag ++ [0]) then .exited 2 (close r2.2) else
  -- memset(buffer, 0, 64); recv(fd, buffer, 10, 0); atoi(buffer)
  let r3 := recv tr r2.2 (calloc 64) 0 10
  if r3.1 < 0 then .exited 1 r3.2.2 else
  let n := atoi r3.2.1
  if n < 0 then .exited 1 r3.2.2 else
  match readFromSocket tr fuel r3.2.2 (calloc n.toNat) n with
  | .exited code c => .exited code c
  | .outOfFuel c => .outOfFuel c
  | .undefined c => .undefined c
  | .returned text c =>
    match readFromSocket tr fuel c (calloc n.toNat) n with
    | .exited code c => .exited code c
    | .outOfFuel c => .outOfFuel c
    | .undefined c => .undefined c
    | .returned key c =>
      let output := transform text key (calloc n.toNat)
      match writeToSocket tr fuel c output n with
      | .exited code c => .exited code c
      | .outOfFuel c => .outOfFuel c
      | .undefined c => .undefined c
      | .returned _ c => .returned () (close c)

/-- Model of `checkAndEncode(establishedConnectionFD)` of otp_enc_d.c. -/
def checkAndEncode (tr : Transport) (fuel : Nat) (c : Conn) : Result Unit :=
  serverSession encTag encode tr fuel c

/-- Model of `checkAndDecode(establishedConnectionFD)` of otp_dec_d.c. -/
def checkAndDecode (tr : Transport) (fuel : Nat) (c : Conn) : Result Unit :=
  serverSession decTag decode tr fuel c

/-- The child branch of `main` in the servers: run the session, then `exit(0)`. -/
def workerExit (r : Result Unit) : Result Unit :=
  match r with
  | .returned _ c => .exited 0 c
  | other => other

/-- The worker process of otp_enc_d. -/
def encWorker (tr : Transport) (fuel : Nat) : Result Unit :=
  workerExit (checkAndEncode tr fuel Conn.init)

/-- The worker process of otp_dec_d. -/
def decWorker (tr : Transport) (fuel : Nat) : Result Unit :=
  workerExit (checkAndDecode tr fuel Conn.init)

/-! ## Client session: `main` of otp_enc.c and otp_dec.c -/

/-- Model of `strcspn(s, "\n")`: the number of leading bytes that are neither NUL nor
a newline. -/
def strcspnNewline (s : List Int) : Nat :=
  (s.takeWhile (fun c => decide (c ≠ 0) && decide (c ≠ 10))).length

/-- The buffer `getline` returns for the line `line` (the line and a terminating
NUL), after `buf[strcspn(buf, "\n")] = 0`. -/
def chomp (line : List Int) : List Int :=
  (line ++ [0]).set (strcspnNewline (line ++ [0])) 0

/-- Model of `socket(...)`: the descriptor (or -1) is the value the environment returns. -/
def socketCall (tr : Transport) (c : Conn) : Int × Conn :=
  let r := tr.ret c.calls.length 0
  (r, { c with calls := c.calls ++ [Call.socket r] })

/-- Model of `connect(...)`. -/
def connectCall (tr : Transport) (c : Conn) : Int × Conn :=
  let r := tr.ret c.calls.length 0
  (r, { c with calls := c.calls ++ [Call.connect r] })

/-- The part of the client `main` after the role check: length field, text,
key, then the reply, which is printed. Returns the bytes written to stdout.
`nplaintext` is the `ssize_t` count `getline` returned; it is converted to
`int` where the code passes it as an `int` argument. When the `sprintf` into
`textLength` does not fit the array the behaviour of the run is undefined. -/
def clientExchange (tr : Transport) (fuel : Nat) (c : Conn)
    (text key : List Int) (nplaintext : Int) : Result (List Int) :=
  -- memset(textLength, 0, 10); sprintf(textLength, "%d", (int)nplaintext)
  match textLengthField nplaintext with
  | none => .undefined c
  | some textLength =>
    -- send(fd, textLength, 10, 0)
    let r := send tr c textLength 0 10
    if r.1 < 0 then .exited 1 r.2 else
    match writeToSocket tr fuel r.2 text (toInt nplaintext) with
    | .exited code c => .exited code c
    | .outOfFuel c => .outOfFuel c
    | .undefined c => .undefined c
    | .returned _ c =>
      match writeToSocket tr fuel c key (toInt nplaintext) with
      | .exited code c => .exited code c
      | .outOfFuel c => .outOfFuel c
      | .undefined c => .undefined c
      | .returned _ c =>
        match readFromSocket tr fuel c (calloc nplaintext.toNat) (toInt nplaintext) with
        | .exited code c => .exited code c
        | .outOfFuel c => .outOfFuel c
        | .undefined c => .undefined c
        | .returned reply c => .returned (cstr reply ++ [10]) (close c)

/-- The client `main` (otp_enc.c with `ownTag = "enc"`, otp_dec.c with
`ownTag = "dec"`) from the two `getline` calls on. `textLine` and `keyLine` are
the first lines of the two files as `getline` reads them (with their newline,
if any; an empty line stands for end of file), `hostFound` tells whether
`gethostbyname("localhost")` succeeds. A run that returns gives the bytes
written to stdout and stands for exit status 0. -/
def clientMain (ownTag : List Int) (tr : Transport) (fuel : Nat) (hostFound : Bool)
    (textLine keyLine : List Int) : Result (List Int) :=
  let c := Conn.init
  -- getline returns -1 when nothing can be read
  if textLine = [] then .exited 1 c else
  let nplaintext : Int := textLine.length
  let text := chomp textLine
  if keyLine = [] then .exited 1 c else
  let key := chomp keyLine
  if checkTexts text key < 0 then .exited 1 c else
  if !hostFound then .exited 0 c else
  let s := socketCall tr c
  if s.1 < 0 then .exited 1 s.2 else
  let k := connectCall tr s.2
  if k.1 < 0 then .exited 1 k.2 else
  -- send(fd, ownTag, 3, 0)
  let w := send tr k.2 (ownTag ++ [0]) 0 3
  if w.1 < 0 then .exited 1 w.2 else
  -- char buffer[1024]; memset(buffer, 0, 1024); recv(fd, buffer, 3, 0)
  let r := recv tr w.2 (calloc 1024) 0 3
  if r.1 < 0 then .exited 1 r.2.2 else
  if strcmpNe (ownTag ++ [0]) r.2.1 then .exited 2 r.2.2 else
  clientExchange tr fuel r.2.2 text key nplaintext

/-- Model of `main` of otp_enc.c. -/
def encClient (tr : Transport) (fuel : Nat) (hostFound : Bool)
    (textLine keyLine : List Int) : Result (List Int) :=
  clientMain encTag tr fuel hostFound textLine keyLine

/-- Model of `main` of otp_dec.c. -/
def decClient (tr : Transport) (fuel : Nat) (hostFound : Bool)
    (textLine keyLine : List Int) : Result (List Int) :=
  clientMain decTag tr fuel hostFound textLine keyLine

/-- The role tag of a server program and of the client that belongs to it. -/
def Server.tag : Server → List Int
  | .encD => encTag
  | .decD => decTag

/-- The worker process of a server program. -/
def Server.worker (prog : Server) (tr : Transport) (fuel : Nat) : Result Unit :=
  match prog with
  | .encD => encWorker tr fuel
  | .decD => decWorker tr fuel

/-- The client program that belongs to a server program (otp_enc for
otp_enc_d, otp_dec for otp_dec_d). -/
def Server.client (prog : Server) (tr : Transport) (fuel : Nat) (hostFound : Bool)
    (textLine keyLine : List Int) : Result (List Int) :=
  match prog with
  | .encD => encClient tr fuel hostFound textLine keyLine
  | .decD => decClient tr fuel hostFound textLine keyLine

/-- The transform a server program applies (`encode` in otp_enc_d, `decode` in
otp_dec_d). -/
def Server.transform : Server → List Int → List Int → List Int → List Int
  | .encD => encode
  | .decD => decode

/-! ## Connection dispatcher: the `while (1)` loop of the servers' `main` -/

/-- Model of `MAXCHILDREN`. -/
def MAXCHILDREN : Int := 5

/-- The statement the dispatcher process is about to execute. -/
inductive Loc where
  /-- At `if (nChildren < MAXCHILDREN)` at the top of the loop body. -/
  | top
  /-- At `sigemptyset(&toBlock)` (otp_enc_d.c only). -/
  | sigEmpty
  /-- At `sigaddset(&toBlock, SIGCHLD)` (otp_enc_d.c only). -/
  | sigAdd
  /-- At `sigprocmask(SIG_BLOCK, ...)`. -/
  | sigBlock
  /-- At `accept(...)`, with SIGCHLD blocked. -/
  | accept
  /-- At `sigprocmask(SIG_UNBLOCK, ...)`. -/
  | sigUnblock
  /-- At `fork()`. -/
  | fork
  /-- At `if (childFinished == 1)`. -/
  | check
  /-- At `waitpid(-1, NULL, WNOHANG)` in the `do ... while (childPid)` loop. -/
  | wait
  /-- At `if (nChildren == 0) childFinished = 0;` after the drain loop. -/
  | afterWait
  /-- The forked child, which runs the session and exits. -/
  | child
  /-- After `exit(code)`. -/
  | exited (code : Int)
  deriving DecidableEq

/-- State of the dispatcher process: where it is, the counter `nChildren`, the
global flag `childFinished`, and whether a SIGCHLD is pending while blocked. -/
structure DState where
  loc : Loc
  nChildren : Int
  childFinished : Int
  pending : Bool
  deriving DecidableEq

/-- What happens next: a SIGCHLD arrives, or the process executes the statement
at its location (`ret` is the value returned when that statement is a system
call, and is ignored otherwise). -/
inductive Input where
  | sigchld
  | ret (v : Int)
  deriving DecidableEq

/-- State of `main` when it enters the loop: `nChildren = 0`, `childFinished = 0`. -/
def DState.init : DState :=
  { loc := .top, nChildren := 0, childFinished := 0, pending := false }

/-- Arrival of SIGCHLD: `catchSIGCHLD` sets `childFinished = 1`, unless the
signal is blocked (between the two `sigprocmask` calls), in which case it stays
pending until it is unblocked. -/
def deliver (s : DState) : DState :=
  match s.loc with
  | .accept => { s with pending := true }
  | .sigUnblock => { s with pending := true }
  | .child => s
  | .exited _ => s
  | _ => { s with childFinished := 1 }

/-- Execution of the statement at the current location, `v` being the value
returned by the system call there. -/
def exec (prog : Server) (s : DState) (v : Int) : DState :=
  match s.loc with
  | .top =>
    if s.nChildren < MAXCHILDREN then
      { s with loc := if prog = Server.encD then .sigEmpty else .sigBlock }
    else { s with loc := .check }
  | .sigEmpty => if v = -1 then { s with loc := .exited 1 } else { s with loc := .sigAdd }
  | .sigAdd => if v = -1 then { s with loc := .exited 1 } else { s with loc := .sigBlock }
  | .sigBlock => if v ≠ 0 then { s with loc := .exited 1 } else { s with loc := .accept }
  | .accept => if v < 0 then { s with loc := .exited 1 } else { s with loc := .sigUnblock }
  | .sigUnblock =>
    if v ≠ 0 then { s with loc := .exited 1 }
    else if s.pending then { s with loc := .fork, childFinished := 1, pending := false }
    else { s with loc := .fork }
  | .fork =>
    if v = -1 then { s with loc := .exited 1 }
    else if v = 0 then { s with loc := .child }
    else { s with loc := .check, nChildren := s.nChildren + 1 }
  | .check =>
    if s.childFinished = 1 then { s with loc := .wait } else { s with loc := .top }
  | .wait =>
    if v ≠ 0 then
      if s.nChildren ≤ 0 then { s with loc := .exited 1 }
      else { s with loc := .wait, nChildren := s.nChildren - 1 }
    else { s with loc := .afterWait }
  | .afterWait =>
    if s.nChildren = 0 then { s with loc := .top, childFinished := 0 }
    else { s with loc := .top }
  | .child => s
  | .exited _ => s

/-- One step of the dispatcher process. -/
def dstep (prog : Server) (s : DState) : Input → DState
  | .sigchld => deliver s
  | .ret v => exec prog s v

/-- The state reached from `s` after the given inputs. -/
def drun (prog : Server) (s : DState) : List Input → DState
  | [] => s
  | i :: is => drun prog (dstep prog s i) is

/-- The locations of the accept path: from the test `nChildren < MAXCHILDREN`
having succeeded up to and including `fork()`. -/
def Loc.onAcceptPath : Loc → Bool
  | .sigEmpty => true
  | .sigAdd => true
  | .sigBlock => true
  | .accept => true
  | .sigUnblock => true
  | .fork => true
  | _ => false

/-- The budget invariant: `0 ≤ nChildren ≤ MAXCHILDREN`, and strictly below
`MAXCHILDREN` while the process is on the accept path. -/
def BudgetInv (s : DState) : Prop :=
  0 ≤ s.nChildren ∧ s.nChildren ≤ MAXCHILDREN
    ∧ (s.loc.onAcceptPath = true → s.nChildren < MAXCHILDREN)

/-- The values returned by the statements executed in a run (the SIGCHLD
arrivals left out), in order. -/
def Input.rets : List Input → List Int
  | [] => []
  | .sigchld :: is => Input.rets is
  | .ret v :: is => v :: Input.rets is

/-! ### Concrete inputs used in examples -/

/-- The text `"HELLO WORLD"` as `char` values. -/
def helloWorld : List Int := [72, 69, 76, 76, 79, 32, 87, 79, 82, 76, 68]

/-- The key `"XMCKLVFQYEIO"` as `char` values (12 characters). -/
def sampleKey : List Int := [88, 77, 67, 75, 76, 86, 70, 81, 89, 69, 73, 79]

/-- A transport on which every call returns the full count asked for (3 for a
call without a length) and the peer delivers the bytes of `stream`. -/
def fullTransport (stream : List Int) : Transport :=
  { ret := fun _ len => if len = 0 then 3 else len, input := fun i => charAt stream i }

/-- The line `"HELLO WORLD\n"` as `getline` reads it. -/
def helloLine : List Int := helloWorld ++ [10]

/-- The line `"XMCKLVFQYEIO\n"` as `getline` reads it. -/
def keyLine12 : List Int := sampleKey ++ [10]

/-- A transport that transfers at most 700 bytes per call and delivers the
bytes of `stream`. -/
def sampleTransport (stream : List Int) : Transport :=
  { ret := fun _ len => min len 700, input := fun i => charAt stream i }

/-- A payload of 5000 characters. -/
def samplePayload : List Int := List.replicate 5000 65

/-- A transport on which every call returns 0 (the peer has closed the
connection). -/
def zeroTransport : Transport := { ret := fun _ _ => 0, input := fun _ => 0 }

/-- A run of the dispatcher of otp_enc_d from its initial state: one connection
is accepted and a worker forked (pid 1234, so `nChildren = 1`), the worker
finishes (SIGCHLD), the drain loop reaps it (`waitpid` returns 1234) and calls
`waitpid` again, which returns -1 because no child is left. -/
def lastWorkerRun : List Input :=
  [.ret 0, .ret 0, .ret 0, .ret 0, .ret 4, .ret 0, .ret 1234, .sigchld, .ret 0,
    .ret 1234, .ret (-1)]

/-- A length field that is not a number: `"abc"` followed by seven NUL bytes. -/
def abcField : List Int := [97, 98, 99, 0, 0, 0, 0, 0, 0, 0]

/-- The 12 bytes otp_enc_d replies for `"HELLO WORLD"` under the sample key:
the ciphertext `"DQNVZUADOPL"` and a NUL byte. -/
def helloCipher : List Int := [68, 81, 78, 86, 90, 85, 65, 68, 79, 80, 76, 0]

/-- A second key that agrees with the sample key on its first 11 characters
only. -/
def sampleKey2 : List Int := [88, 77, 67, 75, 76, 86, 70, 81, 89, 69, 73, 65, 66]

/-- The bytes an otp_enc client sends for `"HELLO WORLD"` under the sample key:
the tag, the length field for 12, the text and a NUL byte, 12 key characters. -/
def helloSession : List Int :=
  encTag ++ [49, 50, 0, 0, 0, 0, 0, 0, 0, 0] ++ (helloWorld ++ [0]) ++ sampleKey

/-- A text of 2147483648 characters `A`, one more than an `int` can count. -/
def hugeText : List Int := List.replicate 2147483648 65

/-! ## Theorems -/

/-! ### C strings -/

theorem cstr_of_nonzero (s : List Int) (h : ∀ c ∈ s, c ≠ 0) : cstr s = s := by
  unfold cstr
  rw [List.takeWhile_eq_self_iff]
  intro x hx
  simpa using h x hx

theorem cstr_append_calloc (s : List Int) (h : ∀ c ∈ s, c ≠ 0) (r : Nat) (hr : 0 < r) :
    cstr (s ++ calloc r) = s := by
  unfold cstr calloc
  rw [List.takeWhile_append_of_pos (by intro x hx; simpa using h x hx)]
  obtain ⟨r, rfl⟩ : ∃ q, r = q + 1 := ⟨r - 1, by omega⟩
  simp [List.replicate_succ]

theorem inAlphabet_ne_zero {c : Int} (h : inAlphabet c) : c ≠ 0 := by
  unfold inAlphabet at h; omega

theorem strlen_of_alphabet (s : List Int) (h : ∀ c ∈ s, inAlphabet c) :
    strlen s = s.length := by
  unfold strlen
  rw [cstr_of_nonzero s (fun c hc => inAlphabet_ne_zero (h c hc))]

/-! ### The per-character transform -/

theorem tmod27_of_nonneg (a : Int) (h : 0 ≤ a) : Int.tmod a 27 = a % 27 :=
  Int.tmod_eq_emod h (by decide)

theorem encodeChar_spec {p k : Int} (hp : inAlphabet p) (hk : inAlphabet k) :
    encodeChar p k
      = specAlphabetChar ((specAlphabetIndex p + specAlphabetIndex k) % 27) := by
  unfold inAlphabet at hp hk
  have h : 0 ≤ (if p - 65 < 0 then 26 else p - 65) + (if k - 65 < 0 then 26 else k - 65) := by
    split_ifs <;> omega
  simp only [encodeChar, specAlphabetChar, specAlphabetIndex, toChar]
  rw [tmod27_of_nonneg _ h]
  split_ifs <;> omega

theorem decodeChar_spec {c k : Int} (hc : inAlphabet c) (hk : inAlphabet k) :
    decodeChar c k
      = specAlphabetChar ((specAlphabetIndex c - specAlphabetIndex k + 27) % 27) := by
  unfold inAlphabet at hc hk
  have h : 0 ≤ (if c - 65 < 0 then 26 else c - 65) - (if k - 65 < 0 then 26 else k - 65) + 27 := by
    split_ifs <;> omega
  simp only [decodeChar, specAlphabetChar, specAlphabetIndex, toChar]
  rw [tmod27_of_nonneg _ h]
  split_ifs <;> omega

theorem encodeChar_inAlphabet {p k : Int} (hp : inAlphabet p) (hk : inAlphabet k) :
    inAlphabet (encodeChar p k) := by
  rw [encodeChar_spec hp hk]
  unfold inAlphabet at *
  simp only [specAlphabetChar, specAlphabetIndex]
  split_ifs <;> omega

theorem decodeChar_inAlphabet {c k : Int} (hc : inAlphabet c) (hk : inAlphabet k) :
    inAlphabet (decodeChar c k) := by
  rw [decodeChar_spec hc hk]
  unfold inAlphabet at *
  simp only [specAlphabetChar, specAlphabetIndex]
  split_ifs <;> omega

theorem decodeChar_encodeChar {p k : Int} (hp : inAlphabet p) (hk : inAlphabet k) :
    decodeChar (encodeChar p k) k = p := by
  rw [decodeChar_spec (encodeChar_inAlphabet hp hk) hk, encodeChar_spec hp hk]
  unfold inAlphabet at *
  simp only [specAlphabetChar, specAlphabetIndex]
  split_ifs <;> omega

/-! ### The loops -/

theorem encodeLoop_length (p k : List Int) :
    ∀ (n i : Nat) (buf : List Int), (encodeLoop p k n i buf).length = buf.length := by
  intro n
  induction n with
  | zero => intro i buf; rfl
  | succ n ih => intro i buf; simp [encodeLoop, ih]

theorem decodeLoop_length (c k : List Int) :
    ∀ (n i : Nat) (buf : List Int), (decodeLoop c k n i buf).length = buf.length := by
  intro n
  induction n with
  | zero => intro i buf; rfl
  | succ n ih => intro i buf; simp [decodeLoop, ih]

theorem encodeLoop_getElem? (p k : List Int) :
    ∀ (n i : Nat) (buf : List Int) (j : Nat),
      (encodeLoop p k n i buf)[j]? =
        if i ≤ j ∧ j < i + n ∧ j < buf.length
        then some (encodeChar (charAt p j) (charAt k j)) else buf[j]? := by
  intro n
  induction n with
  | zero =>
    intro i buf j
    have : ¬ (i ≤ j ∧ j < i + 0 ∧ j < buf.length) := by omega
    rw [if_neg this]; rfl
  | succ n ih =>
    intro i buf j
    simp only [encodeLoop, ih, List.length_set, List.getElem?_set]
    by_cases hij : i = j
    · subst hij
      by_cases hlt : i < buf.length
      · simp [hlt]
      · have h1 : buf[i]? = none := by simp; omega
        simp [hlt, h1]
    · by_cases hc : i + 1 ≤ j ∧ j < i + 1 + n ∧ j < buf.length
      · have hc2 : i ≤ j ∧ j < i + (n + 1) ∧ j < buf.length := by omega
        simp [hc, hc2]
      · have hc2 : ¬ (i ≤ j ∧ j < i + (n + 1) ∧ j < buf.length) := by omega
        simp [hc, hc2, hij]

theorem decodeLoop_getElem? (c k : List Int) :
    ∀ (n i : Nat) (buf : List Int) (j : Nat),
      (decodeLoop c k n i buf)[j]? =
        if i ≤ j ∧ j < i + n ∧ j < buf.length
        then some (decodeChar (charAt c j) (charAt k j)) else buf[j]? := by
  intro n
  induction n with
  | zero =>
    intro i buf j
    have : ¬ (i ≤ j ∧ j < i + 0 ∧ j < buf.length) := by omega
    rw [if_neg this]; rfl
  | succ n ih =>
    intro i buf j
    simp only [decodeLoop, ih, List.length_set, List.getElem?_set]
    by_cases hij : i = j
    · subst hij
      by_cases hlt : i < buf.length
      · simp [hlt]
      · have h1 : buf[i]? = none := by simp; omega
        simp [hlt, h1]
    · by_cases hc : i + 1 ≤ j ∧ j < i + 1 + n ∧ j < buf.length
      · have hc2 : i ≤ j ∧ j < i + (n + 1) ∧ j < buf.length := by omega
        simp [hc, hc2]
      · have hc2 : ¬ (i ≤ j ∧ j < i + (n + 1) ∧ j < buf.length) := by omega
        simp [hc, hc2, hij]

/-- The array left by `encodeLoop` run from index 0 over a zeroed buffer. -/
theorem encodeLoop_calloc (p k : List Int) (n m : Nat) (h : n ≤ m) :
    encodeLoop p k n 0 (calloc m)
      = (List.range n).map (fun j => encodeChar (charAt p j) (charAt k j))
          ++ calloc (m - n) := by
  apply List.ext_getElem?
  intro j
  rw [encodeLoop_getElem?]
  unfold calloc
  by_cases hj : j < n
  · have : 0 ≤ j ∧ j < 0 + n ∧ j < (List.replicate m (0 : Int)).length := by
      simp; omega
    rw [if_pos this, List.getElem?_append_left (by simpa using hj)]
    simp [List.getElem?_map, List.getElem?_range hj]
  · have : ¬ (0 ≤ j ∧ j < 0 + n ∧ j < (List.replicate m (0 : Int)).length) := by omega
    rw [if_neg this, List.getElem?_append_right (by simpa using hj)]
    simp only [List.getElem?_replicate, List.length_map, List.length_range]
    by_cases hm : j < m
    · have : j - n < m - n := by omega
      simp [hm, this]
    · have : ¬ (j - n < m - n) := by omega
      simp [hm, this]

theorem decodeLoop_calloc (c k : List Int) (n m : Nat) (h : n ≤ m) :
    decodeLoop c k n 0 (calloc m)
      = (List.range n).map (fun j => decodeChar (charAt c j) (charAt k j))
          ++ calloc (m - n) := by
  apply List.ext_getElem?
  intro j
  rw [decodeLoop_getElem?]
  unfold calloc
  by_cases hj : j < n
  · have : 0 ≤ j ∧ j < 0 + n ∧ j < (List.replicate m (0 : Int)).length := by
      simp; omega
    rw [if_pos this, List.getElem?_append_left (by simpa using hj)]
    simp [List.getElem?_map, List.getElem?_range hj]
  · have : ¬ (0 ≤ j ∧ j < 0 + n ∧ j < (List.replicate m (0 : Int)).length) := by omega
    rw [if_neg this, List.getElem?_append_right (by simpa using hj)]
    simp only [List.getElem?_replicate, List.length_map, List.length_range]
    by_cases hm : j < m
    · have : j - n < m - n := by omega
      simp [hm, this]
    · have : ¬ (j - n < m - n) := by omega
      simp [hm, this]

/-! ### `encode` and `decode` on valid inputs -/

theorem charAt_mem {s : List Int} {i : Nat} (hi : i < s.length) : charAt s i ∈ s := by
  unfold charAt
  rw [List.getD_eq_getElem s 0 hi]
  exact List.getElem_mem hi

theorem encode_calloc (T K : List Int) (m : Nat)
    (hT : ∀ c ∈ T, inAlphabet c) (hm : T.length ≤ m) :
    encode T K (calloc m)
      = (List.range T.length).map (fun j => encodeChar (charAt T j) (charAt K j))
          ++ calloc (m - T.length) := by
  unfold encode
  rw [strlen_of_alphabet T hT, encodeLoop_calloc T K T.length m hm]

theorem decode_calloc (T K : List Int) (m : Nat)
    (hT : ∀ c ∈ T, inAlphabet c) (hm : T.length ≤ m) :
    decode T K (calloc m)
      = (List.range T.length).map (fun j => decodeChar (charAt T j) (charAt K j))
          ++ calloc (m - T.length) := by
  unfold decode
  rw [strlen_of_alphabet T hT, decodeLoop_calloc T K T.length m hm]

theorem encoded_inAlphabet (T K : List Int)
    (hT : ∀ c ∈ T, inAlphabet c) (hK : ∀ c ∈ K, inAlphabet c)
    (hlen : T.length ≤ K.length) :
    ∀ c ∈ (List.range T.length).map (fun j => encodeChar (charAt T j) (charAt K j)),
      inAlphabet c := by
  intro c hc
  obtain ⟨j, hj, rfl⟩ := List.mem_map.mp hc
  have hj2 : j < T.length := List.mem_range.mp hj
  exact encodeChar_inAlphabet (hT _ (charAt_mem hj2)) (hK _ (charAt_mem (by omega)))

theorem decoded_inAlphabet (T K : List Int)
    (hT : ∀ c ∈ T, inAlphabet c) (hK : ∀ c ∈ K, inAlphabet c)
    (hlen : T.length ≤ K.length) :
    ∀ c ∈ (List.range T.length).map (fun j => decodeChar (charAt T j) (charAt K j)),
      inAlphabet c := by
  intro c hc
  obtain ⟨j, hj, rfl⟩ := List.mem_map.mp hc
  have hj2 : j < T.length := List.mem_range.mp hj
  exact decodeChar_inAlphabet (hT _ (charAt_mem hj2)) (hK _ (charAt_mem (by omega)))

theorem cstr_encode (T K : List Int) (m : Nat)
    (hT : ∀ c ∈ T, inAlphabet c) (hK : ∀ c ∈ K, inAlphabet c)
    (hlen : T.length ≤ K.length) (hm : T.length < m) :
    cstr (encode T K (calloc m))
      = (List.range T.length).map (fun j => encodeChar (charAt T j) (charAt K j)) := by
  rw [encode_calloc T K m hT (by omega)]
  exact cstr_append_calloc _
    (fun c hc => inAlphabet_ne_zero (encoded_inAlphabet T K hT hK hlen c hc)) _ (by omega)

theorem cstr_decode (T K : List Int) (m : Nat)
    (hT : ∀ c ∈ T, inAlphabet c) (hK : ∀ c ∈ K, inAlphabet c)
    (hlen : T.length ≤ K.length) (hm : T.length < m) :
    cstr (decode T K (calloc m))
      = (List.range T.length).map (fun j => decodeChar (charAt T j) (charAt K j)) := by
  rw [decode_calloc T K m hT (by omega)]
  exact cstr_append_calloc _
    (fun c hc => inAlphabet_ne_zero (decoded_inAlphabet T K hT hK hlen c hc)) _ (by omega)

theorem charAt_append_left (a b : List Int) (j : Nat) (hj : j < a.length) :
    charAt (a ++ b) j = charAt a j := by
  unfold charAt
  rw [List.getD_eq_getElem?_getD, List.getD_eq_getElem?_getD,
    List.getElem?_append_left hj]

theorem charAt_map_range (f : Nat → Int) (n j : Nat) (hj : j < n) :
    charAt ((List.range n).map f) j = f j := by
  unfold charAt
  rw [List.getD_eq_getElem?_getD]
  simp [List.getElem?_map, List.getElem?_range hj]

theorem charAt_encode (T K : List Int) (m : Nat)
    (hT : ∀ c ∈ T, inAlphabet c) (hm : T.length ≤ m) (j : Nat) (hj : j < T.length) :
    charAt (encode T K (calloc m)) j = encodeChar (charAt T j) (charAt K j) := by
  rw [encode_calloc T K m hT hm, charAt_append_left _ _ _ (by simpa using hj),
    charAt_map_range _ _ _ hj]

theorem map_range_charAt (T : List Int) (f : Nat → Int)
    (h : ∀ j, j < T.length → f j = charAt T j) :
    (List.range T.length).map f = T := by
  apply List.ext_getElem?
  intro j
  by_cases hj : j < T.length
  · rw [List.getElem?_map, List.getElem?_range hj]
    simp only [Option.map_some']
    rw [h j hj]
    unfold charAt
    rw [List.getD_eq_getElem T 0 hj, List.getElem?_eq_getElem hj]
  · have h1 : T[j]? = none := by simp; omega
    have h2 : ((List.range T.length).map f)[j]? = none := by simp; omega
    rw [h1, h2]

/-- C1 (round trip): for a text `T` and a key `K` over the 27-symbol alphabet
with `len(K) ≥ len(T)`, decoding with `K` the string that `encode` leaves in a
zeroed buffer (with room for the terminator) gives back exactly `T`. -/
theorem roundtrip_decode_encode (T K : List Int) (m n : Nat)
    (hT : ∀ c ∈ T, inAlphabet c) (hK : ∀ c ∈ K, inAlphabet c)
    (hlen : T.length ≤ K.length) (hm : T.length < m) (hn : T.length < n) :
    cstr (decode (encode T K (calloc m)) K (calloc n)) = T := by
  have hlenC : strlen (encode T K (calloc m)) = T.length := by
    unfold strlen
    rw [cstr_encode T K m hT hK hlen hm]
    simp
  have hmap : (List.range T.length).map
      (fun j => decodeChar (charAt (encode T K (calloc m)) j) (charAt K j)) = T := by
    apply map_range_charAt
    intro j hj
    show decodeChar (charAt (encode T K (calloc m)) j) (charAt K j) = charAt T j
    rw [charAt_encode T K m hT (by omega) j hj]
    exact decodeChar_encodeChar (hT _ (charAt_mem hj)) (hK _ (charAt_mem (by omega)))
  unfold decode
  rw [hlenC, decodeLoop_calloc _ K T.length n (by omega), hmap]
  exact cstr_append_calloc T (fun c hc => inAlphabet_ne_zero (hT c hc)) _ (by omega)

/-- Witness of C1: `"HELLO WORLD"` with the 12-character key `"XMCKLVFQYEIO"`. -/
theorem roundtrip_decode_encode_witness :
    cstr (decode (encode helloWorld sampleKey (calloc 12)) sampleKey (calloc 12))
      = helloWorld :=
  roundtrip_decode_encode helloWorld sampleKey 12 12 (by decide) (by decide)
    (by decide) (by decide) (by decide)

theorem getElem?_encode (T K : List Int) (m : Nat)
    (hT : ∀ c ∈ T, inAlphabet c) (hm : T.length ≤ m) (i : Nat) (hi : i < T.length) :
    (encode T K (calloc m))[i]? = some (encodeChar (charAt T i) (charAt K i)) := by
  rw [encode_calloc T K m hT hm, List.getElem?_append_left (by simpa using hi)]
  simp [List.getElem?_map, List.getElem?_range hi]

theorem getElem?_decode (T K : List Int) (m : Nat)
    (hT : ∀ c ∈ T, inAlphabet c) (hm : T.length ≤ m) (i : Nat) (hi : i < T.length) :
    (decode T K (calloc m))[i]? = some (decodeChar (charAt T i) (charAt K i)) := by
  rw [decode_calloc T K m hT hm, List.getElem?_append_left (by simpa using hi)]
  simp [List.getElem?_map, List.getElem?_range hi]

/-- C2 (reference definition): for a text `T` and key `K` over the alphabet with
`len(K) ≥ len(T)` and a position `i < len(T)`, with `t` and `k` the alphabet
indices of `T[i]` and `K[i]`, `encode` writes `alphabetChar((t + k) mod 27)` at
position `i` of the output and `decode` writes `alphabetChar((t - k + 27) mod 27)`;
`alphabetChar` and `alphabetIndex` are inverse to each other on the alphabet and
on 0..26. -/
theorem transform_reference (T K : List Int) (m i : Nat)
    (hT : ∀ c ∈ T, inAlphabet c) (hK : ∀ c ∈ K, inAlphabet c)
    (hlen : T.length ≤ K.length) (hm : T.length < m) (hi : i < T.length) :
    (encode T K (calloc m))[i]?
        = some (specAlphabetChar
            ((specAlphabetIndex (charAt T i) + specAlphabetIndex (charAt K i)) % 27))
    ∧ (decode T K (calloc m))[i]?
        = some (specAlphabetChar
            ((specAlphabetIndex (charAt T i) - specAlphabetIndex (charAt K i) + 27) % 27))
    ∧ (∀ c, inAlphabet c → specAlphabetChar (specAlphabetIndex c) = c)
    ∧ (∀ v : Int, 0 ≤ v → v ≤ 26 → specAlphabetIndex (specAlphabetChar v) = v) := by
  have hTi : inAlphabet (charAt T i) := hT _ (charAt_mem hi)
  have hKi : inAlphabet (charAt K i) := hK _ (charAt_mem (by omega))
  refine ⟨?_, ?_, ?_, ?_⟩
  · rw [getElem?_encode T K m hT (by omega) i hi, encodeChar_spec hTi hKi]
  · rw [getElem?_decode T K m hT (by omega) i hi, decodeChar_spec hTi hKi]
  · intro c hc
    unfold inAlphabet at hc
    simp only [specAlphabetChar, specAlphabetIndex]
    split_ifs <;> omega
  · intro v h0 h26
    simp only [specAlphabetChar, specAlphabetIndex]
    split_ifs <;> omega

/-- Witness of C2: position 5 (the space) of `"HELLO WORLD"` under the sample key. -/
theorem transform_reference_witness :
    (encode helloWorld sampleKey (calloc 12))[5]?
        = some (specAlphabetChar
            ((specAlphabetIndex (charAt helloWorld 5)
              + specAlphabetIndex (charAt sampleKey 5)) % 27))
    ∧ (decode helloWorld sampleKey (calloc 12))[5]?
        = some (specAlphabetChar
            ((specAlphabetIndex (charAt helloWorld 5)
              - specAlphabetIndex (charAt sampleKey 5) + 27) % 27))
    ∧ (∀ c, inAlphabet c → specAlphabetChar (specAlphabetIndex c) = c)
    ∧ (∀ v : Int, 0 ≤ v → v ≤ 26 → specAlphabetIndex (specAlphabetChar v) = v) :=
  transform_reference helloWorld sampleKey 12 5 (by decide) (by decide)
    (by decide) (by decide) (by decide)

/-- C3 (length preservation): for a text `T` and key `K` over the alphabet with
`len(K) ≥ len(T)`, the strings that `encode` and `decode` leave in a zeroed
buffer (with room for the terminator) both have length exactly `len(T)`, and the
buffer keeps its size. -/
theorem transform_length (T K : List Int) (m : Nat)
    (hT : ∀ c ∈ T, inAlphabet c) (hK : ∀ c ∈ K, inAlphabet c)
    (hlen : T.length ≤ K.length) (hm : T.length < m) :
    strlen (encode T K (calloc m)) = T.length
    ∧ strlen (decode T K (calloc m)) = T.length
    ∧ (encode T K (calloc m)).length = m
    ∧ (decode T K (calloc m)).length = m := by
  refine ⟨?_, ?_, ?_, ?_⟩
  · unfold strlen
    rw [cstr_encode T K m hT hK hlen hm]
    simp
  · unfold strlen
    rw [cstr_decode T K m hT hK hlen hm]
    simp
  · simp [encode, encodeLoop_length, calloc]
  · simp [decode, decodeLoop_length, calloc]

/-- Witness of C3: `"HELLO WORLD"` under the sample key, 12-byte buffer. -/
theorem transform_length_witness :
    strlen (encode helloWorld sampleKey (calloc 12)) = helloWorld.length
    ∧ strlen (decode helloWorld sampleKey (calloc 12)) = helloWorld.length
    ∧ (encode helloWorld sampleKey (calloc 12)).length = 12
    ∧ (decode helloWorld sampleKey (calloc 12)).length = 12 :=
  transform_length helloWorld sampleKey 12 (by decide) (by decide) (by decide)
    (by decide)

/-- C4 (alphabet closure): for a text `T` and key `K` over the alphabet with
`len(K) ≥ len(T)`, every character of the string produced by `encode` and every
character of the string produced by `decode` is `A`..`Z` or space. -/
theorem transform_alphabet_closed (T K : List Int) (m : Nat)
    (hT : ∀ c ∈ T, inAlphabet c) (hK : ∀ c ∈ K, inAlphabet c)
    (hlen : T.length ≤ K.length) (hm : T.length < m) :
    (∀ c ∈ cstr (encode T K (calloc m)), inAlphabet c)
    ∧ (∀ c ∈ cstr (decode T K (calloc m)), inAlphabet c) := by
  constructor
  · rw [cstr_encode T K m hT hK hlen hm]
    exact encoded_inAlphabet T K hT hK hlen
  · rw [cstr_decode T K m hT hK hlen hm]
    exact decoded_inAlphabet T K hT hK hlen

/-- Witness of C4: `"HELLO WORLD"` under the sample key, 12-byte buffer. -/
theorem transform_alphabet_closed_witness :
    (∀ c ∈ cstr (encode helloWorld sampleKey (calloc 12)), inAlphabet c)
    ∧ (∀ c ∈ cstr (decode helloWorld sampleKey (calloc 12)), inAlphabet c) :=
  transform_alphabet_closed helloWorld sampleKey 12 (by decide) (by decide)
    (by decide) (by decide)

/-! ### `checkTexts` -/

theorem invalidChar_iff (c : Int) : invalidChar c = true ↔ ¬ inAlphabet c := by
  unfold invalidChar inAlphabet
  simp only [Bool.or_eq_true, Bool.and_eq_true, decide_eq_true_eq]
  omega

theorem scanInvalid_iff (s : List Int) :
    ∀ (n i : Nat), scanInvalid s n i = true
      ↔ ∃ j, i ≤ j ∧ j < i + n ∧ invalidChar (charAt s j) = true := by
  intro n
  induction n with
  | zero =>
    intro i
    simp only [scanInvalid]
    constructor
    · intro h; cases h
    · rintro ⟨j, h1, h2, _⟩; omega
  | succ n ih =>
    intro i
    simp only [scanInvalid]
    by_cases hc : invalidChar (charAt s i) = true
    · simp only [hc, if_true, true_iff]
      exact ⟨i, le_refl i, by omega, hc⟩
    · simp only [hc, if_false, Bool.false_eq_true]
      rw [ih (i + 1)]
      constructor
      · rintro ⟨j, h1, h2, h3⟩
        exact ⟨j, by omega, by omega, h3⟩
      · rintro ⟨j, h1, h2, h3⟩
        have hne : i ≠ j := by
          intro h; subst h; exact hc h3
        exact ⟨j, by omega, by omega, h3⟩

theorem charAt_cstr (s : List Int) (j : Nat) (hj : j < strlen s) :
    charAt (cstr s) j = charAt s j := by
  have h : s = cstr s ++ s.dropWhile (fun c => decide (c ≠ 0)) := by
    unfold cstr
    exact (List.takeWhile_append_dropWhile _ s).symm
  conv_rhs => rw [h]
  rw [charAt_append_left _ _ _ hj]

theorem mem_cstr_iff (s : List Int) (c : Int) :
    c ∈ cstr s ↔ ∃ j, j < strlen s ∧ charAt s j = c := by
  constructor
  · intro hc
    obtain ⟨j, hj, rfl⟩ := List.mem_iff_getElem.mp hc
    refine ⟨j, hj, ?_⟩
    rw [← charAt_cstr s j hj]
    unfold charAt
    rw [List.getD_eq_getElem _ 0 hj]
  · rintro ⟨j, hj, rfl⟩
    rw [← charAt_cstr s j hj]
    exact charAt_mem hj

theorem scanInvalid_cstr (s : List Int) :
    scanInvalid s (strlen s) 0 = true ↔ ∃ c ∈ cstr s, ¬ inAlphabet c := by
  rw [scanInvalid_iff]
  constructor
  · rintro ⟨j, _, h2, h3⟩
    exact ⟨charAt s j, (mem_cstr_iff s _).mpr ⟨j, by omega, rfl⟩, (invalidChar_iff _).mp h3⟩
  · rintro ⟨c, hc, hinv⟩
    obtain ⟨j, hj, rfl⟩ := (mem_cstr_iff s c).mp hc
    exact ⟨j, Nat.zero_le j, by omega, (invalidChar_iff _).mpr hinv⟩

theorem toInt_natCast (n : Nat) (h : n ≤ 2147483647) : toInt (n : Int) = (n : Int) := by
  unfold toInt
  omega

theorem checkTexts_cases (text key : List Int)
    (ht : strlen text ≤ 2147483647) (hk : strlen key ≤ 2147483647) :
    checkTexts text key =
      if strlen text > strlen key then -1
      else if ∃ c ∈ cstr text, ¬ inAlphabet c then -2
      else if ∃ c ∈ cstr key, ¬ inAlphabet c then -3
      else 1 := by
  simp only [checkTexts, toInt_natCast _ ht, toInt_natCast _ hk, Int.toNat_ofNat]
  by_cases h1 : strlen text > strlen key
  · have h1i : ((strlen text : Nat) : Int) > ((strlen key : Nat) : Int) := by omega
    rw [if_pos h1i, if_pos h1]
  · have h1i : ¬ ((strlen text : Nat) : Int) > ((strlen key : Nat) : Int) := by omega
    rw [if_neg h1i, if_neg h1]
    by_cases h2 : ∃ c ∈ cstr text, ¬ inAlphabet c
    · rw [if_pos ((scanInvalid_cstr text).mpr h2), if_pos h2]
    · rw [if_neg (fun h => h2 ((scanInvalid_cstr text).mp h)), if_neg h2]
      by_cases h3 : ∃ c ∈ cstr key, ¬ inAlphabet c
      · rw [if_pos ((scanInvalid_cstr key).mpr h3), if_pos h3]
      · rw [if_neg (fun h => h3 ((scanInvalid_cstr key).mp h)), if_neg h3]

theorem strlen_hugeText : strlen hugeText = 2147483648 := by
  unfold strlen
  rw [cstr_of_nonzero hugeText]
  · exact List.length_replicate _ _
  · intro c hc
    rw [List.eq_of_mem_replicate hc]
    decide

/-- Counterexample to C5 as stated: a text of 2147483648 characters `A` is
longer than the key `"A"`, but its length stored in `int lenText` is
-2147483648, so the test `lenText > lenKey` fails, the loop over the text does
not run, and `checkTexts` returns 1 where the claim has -1. -/
theorem checkTexts_accepts_longer_text :
    strlen hugeText = 2147483648 ∧ strlen [65] = 1
    ∧ strlen hugeText > strlen [65]
    ∧ toInt (strlen hugeText) = -2147483648
    ∧ checkTexts hugeText [65] = 1 := by
  have hk : strlen [65] = 1 := by decide
  have ht : toInt ((2147483648 : Nat) : Int) = -2147483648 := by decide
  refine ⟨strlen_hugeText, hk, by rw [strlen_hugeText, hk]; decide,
    by rw [strlen_hugeText]; exact ht, ?_⟩
  simp only [checkTexts]
  rw [strlen_hugeText, hk, ht]
  decide

/-- C5, as amended (client input validation): for a text and a key of at most
2147483647 characters each (lengths an `int` can hold), `checkTexts` returns -1
when the text is longer than the key, else -2 when the text has a character
outside the alphabet, else -3 when the (whole) key has one, else 1; hence it
returns 1 exactly when `len(text) ≤ len(key)` and every character of the text
and of the key is `A`..`Z` or space, and the three violations have distinct
codes. -/
theorem checkTexts_spec (text key : List Int)
    (ht : strlen text ≤ 2147483647) (hk : strlen key ≤ 2147483647) :
    (checkTexts text key =
      if strlen text > strlen key then -1
      else if ∃ c ∈ cstr text, ¬ inAlphabet c then -2
      else if ∃ c ∈ cstr key, ¬ inAlphabet c then -3
      else 1)
    ∧ (checkTexts text key = 1 ↔
        strlen text ≤ strlen key ∧ (∀ c ∈ cstr text, inAlphabet c)
          ∧ (∀ c ∈ cstr key, inAlphabet c)) := by
  have heq := checkTexts_cases text key ht hk
  refine ⟨heq, ?_⟩
  rw [heq]
  by_cases h1 : strlen text > strlen key
  · simp only [h1, if_true]
    constructor
    · intro h; omega
    · rintro ⟨h, _, _⟩; omega
  · simp only [h1, if_false]
    by_cases h2 : ∃ c ∈ cstr text, ¬ inAlphabet c
    · simp only [h2, if_true]
      constructor
      · intro h; omega
      · rintro ⟨_, h, _⟩
        obtain ⟨c, hc, hn⟩ := h2
        exact absurd (h c hc) hn
    · simp only [h2, if_false]
      by_cases h3 : ∃ c ∈ cstr key, ¬ inAlphabet c
      · simp only [h3, if_true]
        constructor
        · intro h; omega
        · rintro ⟨_, _, h⟩
          obtain ⟨c, hc, hn⟩ := h3
          exact absurd (h c hc) hn
      · simp only [h3, if_false, true_iff]
        refine ⟨by omega, ?_, ?_⟩
        · intro c hc
          by_contra hn
          exact h2 ⟨c, hc, hn⟩
        · intro c hc
          by_contra hn
          exact h3 ⟨c, hc, hn⟩

/-- Witness of C5 (amended): the text `"AB"` with the key `"A"`, which gives -1. -/
theorem checkTexts_spec_witness :
    (checkTexts [65, 66] [65] =
      if strlen [65, 66] > strlen [65] then -1
      else if ∃ c ∈ cstr [65, 66], ¬ inAlphabet c then -2
      else if ∃ c ∈ cstr [65], ¬ inAlphabet c then -3
      else 1)
    ∧ (checkTexts [65, 66] [65] = 1 ↔
        strlen [65, 66] ≤ strlen [65] ∧ (∀ c ∈ cstr [65, 66], inAlphabet c)
          ∧ (∀ c ∈ cstr [65], inAlphabet c)) :=
  checkTexts_spec [65, 66] [65] (by decide) (by decide)

/-! ### Frame codec -/

theorem take_drop_split (t : List Int) (pos a b : Nat) :
    (t.drop pos).take a ++ (t.drop (pos + a)).take b = (t.drop pos).take (a + b) := by
  rw [List.take_add, List.drop_drop]

theorem sendLoop_progress (tr : Transport) (text : List Int) (htr : tr.Progresses) :
    ∀ (fuel l pos : Nat) (c : Conn), 0 < l → l ≤ fuel →
      ∃ c2 new, sendLoop tr text fuel (l : Int) pos c = Result.returned (pos + l) c2
        ∧ c2.sent = c.sent ++ (text.drop pos).take l
        ∧ c2.rcvd = c.rcvd
        ∧ c2.calls = c.calls ++ new
        ∧ ∀ x ∈ new, ∃ len r, x = Call.send len r ∧ 1 ≤ len ∧ len ≤ (l : Int)
            ∧ 1 ≤ r ∧ r ≤ len := by
  intro fuel
  induction fuel with
  | zero => intro l pos c h1 h2; omega
  | succ fuel ih =>
    intro l pos c h1 h2
    obtain ⟨hr1, hr2⟩ := htr c.calls.length (l : Int) (by omega)
    obtain ⟨rn, hrn⟩ := Int.eq_ofNat_of_zero_le (show 0 ≤ tr.ret c.calls.length (l : Int) by omega)
    simp only [sendLoop, send]
    rw [hrn] at hr1 hr2 ⊢
    have hneg : ¬ ((rn : Int) < 0) := by omega
    rw [if_neg hneg]
    simp only [Int.toNat_ofNat]
    by_cases hlt : (l : Int) - (rn : Int) > 0
    · rw [if_pos hlt]
      have hcast : (l : Int) - (rn : Int) = ((l - rn : Nat) : Int) := by omega
      rw [hcast]
      obtain ⟨c2, new, he, hs, hrc, hcalls, hnew⟩ :=
        ih (l - rn) (pos + rn)
          { calls := c.calls ++ [Call.send (l : Int) (rn : Int)],
            sent := c.sent ++ (text.drop pos).take rn, rcvd := c.rcvd } (by omega) (by omega)
      refine ⟨c2, Call.send (l : Int) (rn : Int) :: new, ?_, ?_, hrc, ?_, ?_⟩
      · rw [he]
        congr 1
        omega
      · rw [hs]
        simp only [List.append_assoc]
        rw [take_drop_split]
        congr 3
        omega
      · rw [hcalls]; simp
      · intro x hx
        rcases List.mem_cons.mp hx with rfl | hx
        · exact ⟨l, rn, rfl, by omega, le_refl _, hr1, hr2⟩
        · obtain ⟨len, r, h1, h2, h3, h4, h5⟩ := hnew x hx
          exact ⟨len, r, h1, h2, by omega, h4, h5⟩
    · rw [if_neg hlt]
      have hrl : rn = l := by omega
      subst hrl
      refine ⟨_, [Call.send (rn : Int) (rn : Int)], rfl, rfl, rfl, rfl, ?_⟩
      intro x hx
      rw [List.mem_singleton] at hx
      exact ⟨rn, rn, hx, by omega, le_refl _, hr1, hr2⟩

theorem writeLoop_progress (tr : Transport) (text : List Int) (htr : tr.Progresses)
    (inner : Nat) (hinner : 1024 ≤ inner) :
    ∀ (fuel n pos : Nat) (c : Conn), n < fuel →
      ∃ c2 new, writeLoop tr text inner fuel (n : Int) pos c = Result.returned () c2
        ∧ c2.sent = c.sent ++ (text.drop pos).take n
        ∧ c2.rcvd = c.rcvd
        ∧ c2.calls = c.calls ++ new
        ∧ ∀ x ∈ new, ∃ len r, x = Call.send len r ∧ 1 ≤ len ∧ len ≤ 1024
            ∧ 1 ≤ r ∧ r ≤ len := by
  intro fuel
  induction fuel with
  | zero => intro n pos c h; omega
  | succ fuel ih =>
    intro n pos c hn
    simp only [writeLoop]
    by_cases hpos : (n : Int) > 0
    · rw [if_pos hpos]
      have hl : (if (n : Int) ≥ 1024 then (1024 : Int) else (n : Int)) = ((min n 1024 : Nat) : Int) := by
        split_ifs <;> omega
      rw [hl]
      obtain ⟨c1, new1, he1, hs1, hr1, hc1, hn1⟩ :=
        sendLoop_progress tr text htr inner (min n 1024) pos c (by omega) (by omega)
      rw [he1]
      simp only []
      have hcast : (n : Int) - ((min n 1024 : Nat) : Int) = ((n - min n 1024 : Nat) : Int) := by omega
      rw [hcast]
      obtain ⟨c2, new2, he2, hs2, hr2, hc2, hn2⟩ :=
        ih (n - min n 1024) (pos + min n 1024) c1 (by omega)
      refine ⟨c2, new1 ++ new2, he2, ?_, by rw [hr2, hr1], by rw [hc2, hc1, List.append_assoc], ?_⟩
      · rw [hs2, hs1, List.append_assoc, take_drop_split]
        congr 3
        omega
      · intro x hx
        rcases List.mem_append.mp hx with hx | hx
        · obtain ⟨len, r, h1, h2, h3, h4, h5⟩ := hn1 x hx
          exact ⟨len, r, h1, h2, by omega, h4, h5⟩
        · exact hn2 x hx
    · rw [if_neg hpos]
      have : n = 0 := by omega
      subst this
      exact ⟨c, [], rfl, by simp, rfl, by simp, by simp⟩

theorem writeAt_length : ∀ (data buf : List Int) (pos : Nat),
    (writeAt buf pos data).length = buf.length := by
  intro data
  induction data with
  | nil => intro buf pos; rfl
  | cons x xs ih => intro buf pos; simp [writeAt, ih]

theorem writeAt_getElem? : ∀ (data buf : List Int) (pos j : Nat),
    (writeAt buf pos data)[j]? =
      if pos ≤ j ∧ j < pos + data.length ∧ j < buf.length then data[j - pos]? else buf[j]? := by
  intro data
  induction data with
  | nil =>
    intro buf pos j
    have : ¬ (pos ≤ j ∧ j < pos + ([] : List Int).length ∧ j < buf.length) := by
      simp; omega
    rw [if_neg this]; rfl
  | cons x xs ih =>
    intro buf pos j
    simp only [writeAt, ih, List.length_set, List.getElem?_set, List.length_cons]
    by_cases hij : pos = j
    · subst hij
      by_cases hlt : pos < buf.length
      · have h1 : ¬ (pos + 1 ≤ pos ∧ pos < pos + 1 + xs.length ∧ pos < buf.length) := by omega
        have h2 : pos ≤ pos ∧ pos < pos + (xs.length + 1) ∧ pos < buf.length := by omega
        simp [h1, h2, hlt]
      · have h1 : ¬ (pos + 1 ≤ pos ∧ pos < pos + 1 + xs.length ∧ pos < buf.length) := by omega
        have h2 : ¬ (pos ≤ pos ∧ pos < pos + (xs.length + 1) ∧ pos < buf.length) := by omega
        have h3 : buf[pos]? = none := by simp; omega
        simp [h1, h2, hlt, h3]
    · by_cases hc : pos + 1 ≤ j ∧ j < pos + 1 + xs.length ∧ j < buf.length
      · have hc2 : pos ≤ j ∧ j < pos + (xs.length + 1) ∧ j < buf.length := by omega
        rw [if_pos hc, if_pos hc2]
        have : j - pos = (j - (pos + 1)) + 1 := by omega
        rw [this, List.getElem?_cons_succ]
      · have hc2 : ¬ (pos ≤ j ∧ j < pos + (xs.length + 1) ∧ j < buf.length) := by omega
        rw [if_neg hc, if_neg hc2, if_neg hij]

theorem writeAt_append (a b : List Int) : ∀ (buf : List Int) (pos : Nat),
    writeAt (writeAt buf pos a) (pos + a.length) b = writeAt buf pos (a ++ b) := by
  induction a with
  | nil => intro buf pos; simp [writeAt]
  | cons x xs ih =>
    intro buf pos
    show writeAt (writeAt (buf.set pos x) (pos + 1) xs) (pos + (xs.length + 1)) b
      = writeAt (buf.set pos x) (pos + 1) (xs ++ b)
    rw [← ih (buf.set pos x) (pos + 1)]
    congr 1
    omega

theorem writeAt_zero_take (data buf : List Int) (h : data.length ≤ buf.length) :
    writeAt buf 0 data = data ++ buf.drop data.length := by
  apply List.ext_getElem?
  intro j
  rw [writeAt_getElem?]
  by_cases hj : j < data.length
  · have : 0 ≤ j ∧ j < 0 + data.length ∧ j < buf.length := by omega
    rw [if_pos this, List.getElem?_append_left hj]
    simp
  · have : ¬ (0 ≤ j ∧ j < 0 + data.length ∧ j < buf.length) := by omega
    rw [if_neg this, List.getElem?_append_right (by omega), List.getElem?_drop]
    congr 1
    omega

theorem next_length (tr : Transport) (start len : Nat) : (tr.next start len).length = len := by
  simp [Transport.next]

theorem next_add (tr : Transport) (start a b : Nat) :
    tr.next start (a + b) = tr.next start a ++ tr.next (start + a) b := by
  unfold Transport.next
  rw [List.range_add, List.map_append, List.map_map]
  congr 1
  apply List.map_congr_left
  intro i _
  simp [Nat.add_assoc]

theorem recvLoop_progress (tr : Transport) (htr : tr.Progresses) :
    ∀ (fuel l pos : Nat) (text : List Int) (c : Conn), 0 < l → l ≤ fuel →
      ∃ c2 new, recvLoop tr fuel (l : Int) pos text c
          = Result.returned (pos + l, writeAt text pos (tr.next c.rcvd l)) c2
        ∧ c2.sent = c.sent
        ∧ c2.rcvd = c.rcvd + l
        ∧ c2.calls = c.calls ++ new
        ∧ ∀ x ∈ new, ∃ len r, x = Call.recv len r ∧ 1 ≤ len ∧ len ≤ (l : Int)
            ∧ 1 ≤ r ∧ r ≤ len := by
  intro fuel
  induction fuel with
  | zero => intro l pos text c h1 h2; omega
  | succ fuel ih =>
    intro l pos text c h1 h2
    obtain ⟨hr1, hr2⟩ := htr c.calls.length (l : Int) (by omega)
    obtain ⟨rn, hrn⟩ := Int.eq_ofNat_of_zero_le (show 0 ≤ tr.ret c.calls.length (l : Int) by omega)
    simp only [recvLoop, recv]
    rw [hrn] at hr1 hr2 ⊢
    have hneg : ¬ ((rn : Int) < 0) := by omega
    rw [if_neg hneg]
    simp only [Int.toNat_ofNat]
    by_cases hlt : (l : Int) - (rn : Int) > 0
    · rw [if_pos hlt]
      have hcast : (l : Int) - (rn : Int) = ((l - rn : Nat) : Int) := by omega
      rw [hcast]
      obtain ⟨c2, new, he, hs, hrc, hcalls, hnew⟩ :=
        ih (l - rn) (pos + rn) (writeAt text pos (tr.next c.rcvd rn))
          { calls := c.calls ++ [Call.recv (l : Int) (rn : Int)],
            sent := c.sent, rcvd := c.rcvd + rn } (by omega) (by omega)
      refine ⟨c2, Call.recv (l : Int) (rn : Int) :: new, ?_, hs, ?_, ?_, ?_⟩
      · rw [he]
        have h3 : writeAt (writeAt text pos (tr.next c.rcvd rn)) (pos + rn)
            (tr.next (c.rcvd + rn) (l - rn)) = writeAt text pos (tr.next c.rcvd l) := by
          have := writeAt_append (tr.next c.rcvd rn) (tr.next (c.rcvd + rn) (l - rn)) text pos
          rw [next_length, ← next_add] at this
          rw [this]
          congr 2
          omega
        simp only [h3]
        congr 2
        omega
      · rw [hrc]; simp only []; omega
      · rw [hcalls]; simp
      · intro x hx
        rcases List.mem_cons.mp hx with rfl | hx
        · exact ⟨l, rn, rfl, by omega, le_refl _, hr1, hr2⟩
        · obtain ⟨len, r, h1, h2, h3, h4, h5⟩ := hnew x hx
          exact ⟨len, r, h1, h2, by omega, h4, h5⟩
    · rw [if_neg hlt]
      have hrl : rn = l := by omega
      subst hrl
      refine ⟨_, [Call.recv (rn : Int) (rn : Int)], rfl, rfl, rfl, rfl, ?_⟩
      intro x hx
      rw [List.mem_singleton] at hx
      exact ⟨rn, rn, hx, by omega, le_refl _, hr1, hr2⟩

theorem readLoop_progress (tr : Transport) (htr : tr.Progresses)
    (inner : Nat) (hinner : 1024 ≤ inner) :
    ∀ (fuel n pos : Nat) (text : List Int) (c : Conn), n < fuel →
      ∃ c2 new, readLoop tr inner fuel (n : Int) pos text c
          = Result.returned (writeAt text pos (tr.next c.rcvd n)) c2
        ∧ c2.sent = c.sent
        ∧ c2.rcvd = c.rcvd + n
        ∧ c2.calls = c.calls ++ new
        ∧ ∀ x ∈ new, ∃ len r, x = Call.recv len r ∧ 1 ≤ len ∧ len ≤ 1024
            ∧ 1 ≤ r ∧ r ≤ len := by
  intro fuel
  induction fuel with
  | zero => intro n pos text c h; omega
  | succ fuel ih =>
    intro n pos text c hn
    simp only [readLoop]
    by_cases hpos : (n : Int) > 0
    · rw [if_pos hpos]
      have hl : (if (n : Int) ≥ 1024 then (1024 : Int) else (n : Int)) = ((min n 1024 : Nat) : Int) := by
        split_ifs <;> omega
      rw [hl]
      obtain ⟨c1, new1, he1, hs1, hr1, hc1, hn1⟩ :=
        recvLoop_progress tr htr inner (min n 1024) pos text c (by omega) (by omega)
      rw [he1]
      simp only []
      have hcast : (n : Int) - ((min n 1024 : Nat) : Int) = ((n - min n 1024 : Nat) : Int) := by omega
      rw [hcast]
      obtain ⟨c2, new2, he2, hs2, hr2, hc2, hn2⟩ :=
        ih (n - min n 1024) (pos + min n 1024) (writeAt text pos (tr.next c.rcvd (min n 1024))) c1
          (by omega)
      refine ⟨c2, new1 ++ new2, ?_, by rw [hs2, hs1], by rw [hr2, hr1]; omega,
        by rw [hc2, hc1, List.append_assoc], ?_⟩
      · rw [he2, hr1]
        have := writeAt_append (tr.next c.rcvd (min n 1024))
          (tr.next (c.rcvd + min n 1024) (n - min n 1024)) text pos
        rw [next_length, ← next_add] at this
        rw [this]
        congr 3
        omega
      · intro x hx
        rcases List.mem_append.mp hx with hx | hx
        · obtain ⟨len, r, h1, h2, h3, h4, h5⟩ := hn1 x hx
          exact ⟨len, r, h1, h2, by omega, h4, h5⟩
        · exact hn2 x hx
    · rw [if_neg hpos]
      have : n = 0 := by omega
      subst this
      exact ⟨c, [], rfl, rfl, rfl, by simp, by simp⟩

theorem dictates_nil (tr : Transport) (old : List Call) : tr.Dictates old [] := by
  intro i h
  simp at h

theorem dictates_single (tr : Transport) (old : List Call) (x : Call)
    (h : x.ret = tr.ret old.length x.len) : tr.Dictates old [x] := by
  intro i hi
  have : i = 0 := by simpa using hi
  subst this
  simpa using h

theorem dictates_append (tr : Transport) (old new1 new2 : List Call)
    (h1 : tr.Dictates old new1) (h2 : tr.Dictates (old ++ new1) new2) :
    tr.Dictates old (new1 ++ new2) := by
  intro i hi
  by_cases hlt : i < new1.length
  · have := h1 i hlt
    simpa [List.getElem_append_left hlt] using this
  · have hi2 : i - new1.length < new2.length := by
      simp at hi; omega
    have := h2 (i - new1.length) hi2
    have hidx : (old ++ new1).length + (i - new1.length) = old.length + i := by
      simp; omega
    rw [hidx] at this
    simpa [List.getElem_append_right (not_lt.mp hlt)] using this

theorem failsAtFirstError_compose {α : Type} (tr : Transport) (old new1 : List Call)
    (r : Result α) (hd : tr.Dictates old new1) (hnn : ∀ x ∈ new1, 0 ≤ x.ret)
    (h : FailsAtFirstError tr (old ++ new1) r) : FailsAtFirstError tr old r := by
  obtain ⟨new2, hc, hd2, hcase⟩ := h
  refine ⟨new1 ++ new2, by rw [hc, List.append_assoc], dictates_append tr old new1 new2 hd hd2, ?_⟩
  rcases hcase with ⟨he, hall⟩ | ⟨he, pre, last, hnew, hlast, hpre⟩
  · left
    refine ⟨he, ?_⟩
    intro x hx
    rcases List.mem_append.mp hx with hx | hx
    · exact hnn x hx
    · exact hall x hx
  · right
    refine ⟨he, new1 ++ pre, last, by rw [hnew, List.append_assoc], hlast, ?_⟩
    intro x hx
    rcases List.mem_append.mp hx with hx | hx
    · exact hnn x hx
    · exact hpre x hx

theorem sendLoop_failsAtFirstError (tr : Transport) (text : List Int) :
    ∀ (fuel : Nat) (leftBehind : Int) (pos : Nat) (c : Conn),
      FailsAtFirstError tr c.calls (sendLoop tr text fuel leftBehind pos c) := by
  intro fuel
  induction fuel with
  | zero =>
    intro l pos c
    exact ⟨[], by simp [sendLoop, Result.conn], dictates_nil tr _,
      Or.inl ⟨rfl, by simp⟩⟩
  | succ fuel ih =>
    intro l pos c
    have hd : tr.Dictates c.calls [Call.send l (tr.ret c.calls.length l)] :=
      dictates_single tr _ _ rfl
    simp only [sendLoop, send]
    by_cases hneg : tr.ret c.calls.length l < 0
    · rw [if_pos hneg]
      refine ⟨[Call.send l (tr.ret c.calls.length l)], rfl, hd, Or.inr ⟨rfl, [], _, rfl, hneg, by simp⟩⟩
    · rw [if_neg hneg]
      have hnn : ∀ x ∈ [Call.send l (tr.ret c.calls.length l)], 0 ≤ x.ret := by
        intro x hx
        rw [List.mem_singleton] at hx
        subst hx
        simp only [Call.ret]
        omega
      by_cases hlt : l - tr.ret c.calls.length l > 0
      · rw [if_pos hlt]
        exact failsAtFirstError_compose tr _ _ _ hd hnn (ih _ _ _)
      · rw [if_neg hlt]
        exact ⟨[Call.send l (tr.ret c.calls.length l)], rfl, hd, Or.inl ⟨rfl, hnn⟩⟩

theorem writeLoop_failsAtFirstError (tr : Transport) (text : List Int) (inner : Nat) :
    ∀ (fuel : Nat) (ntext : Int) (pos : Nat) (c : Conn),
      FailsAtFirstError tr c.calls (writeLoop tr text inner fuel ntext pos c) := by
  intro fuel
  induction fuel with
  | zero =>
    intro n pos c
    exact ⟨[], by simp [writeLoop, Result.conn], dictates_nil tr _,
      Or.inl ⟨rfl, by simp⟩⟩
  | succ fuel ih =>
    intro n pos c
    simp only [writeLoop]
    by_cases hpos : n > 0
    · rw [if_pos hpos]
      have h1 := sendLoop_failsAtFirstError tr text inner (if n ≥ 1024 then 1024 else n) pos c
      cases hr : sendLoop tr text inner (if n ≥ 1024 then 1024 else n) pos c with
      | returned p c1 =>
        rw [hr] at h1
        simp only []
        obtain ⟨new1, hc1, hd1, hcase⟩ := h1
        simp only [Result.conn] at hc1
        rcases hcase with ⟨_, hall⟩ | ⟨he, _⟩
        · have := ih (n - (if n ≥ 1024 then 1024 else n)) p c1
          rw [hc1] at this
          exact failsAtFirstError_compose tr _ _ _ hd1 hall this
        · simp [Result.exitCode] at he
      | exited code c1 =>
        rw [hr] at h1
        exact h1
      | outOfFuel c1 =>
        rw [hr] at h1
        exact h1
      | undefined c1 =>
        rw [hr] at h1
        exact h1
    · rw [if_neg hpos]
      exact ⟨[], by simp [Result.conn], dictates_nil tr _, Or.inl ⟨rfl, by simp⟩⟩

theorem recvLoop_failsAtFirstError (tr : Transport) :
    ∀ (fuel : Nat) (leftBehind : Int) (pos : Nat) (text : List Int) (c : Conn),
      FailsAtFirstError tr c.calls (recvLoop tr fuel leftBehind pos text c) := by
  intro fuel
  induction fuel with
  | zero =>
    intro l pos text c
    exact ⟨[], by simp [recvLoop, Result.conn], dictates_nil tr _,
      Or.inl ⟨rfl, by simp⟩⟩
  | succ fuel ih =>
    intro l pos text c
    have hd : tr.Dictates c.calls [Call.recv l (tr.ret c.calls.length l)] :=
      dictates_single tr _ _ rfl
    simp only [recvLoop, recv]
    by_cases hneg : tr.ret c.calls.length l < 0
    · rw [if_pos hneg]
      refine ⟨[Call.recv l (tr.ret c.calls.length l)], rfl, hd, Or.inr ⟨rfl, [], _, rfl, hneg, by simp⟩⟩
    · rw [if_neg hneg]
      have hnn : ∀ x ∈ [Call.recv l (tr.ret c.calls.length l)], 0 ≤ x.ret := by
        intro x hx
        rw [List.mem_singleton] at hx
        subst hx
        simp only [Call.ret]
        omega
      by_cases hlt : l - tr.ret c.calls.length l > 0
      · rw [if_pos hlt]
        exact failsAtFirstError_compose tr _ _ _ hd hnn (ih _ _ _ _)
      · rw [if_neg hlt]
        exact ⟨[Call.recv l (tr.ret c.calls.length l)], rfl, hd, Or.inl ⟨rfl, hnn⟩⟩

theorem readLoop_failsAtFirstError (tr : Transport) (inner : Nat) :
    ∀ (fuel : Nat) (ntext : Int) (pos : Nat) (text : List Int) (c : Conn),
      FailsAtFirstError tr c.calls (readLoop tr inner fuel ntext pos text c) := by
  intro fuel
  induction fuel with
  | zero =>
    intro n pos text c
    exact ⟨[], by simp [readLoop, Result.conn], dictates_nil tr _,
      Or.inl ⟨rfl, by simp⟩⟩
  | succ fuel ih =>
    intro n pos text c
    simp only [readLoop]
    by_cases hpos : n > 0
    · rw [if_pos hpos]
      have h1 := recvLoop_failsAtFirstError tr inner (if n ≥ 1024 then 1024 else n) pos text c
      cases hr : recvLoop tr inner (if n ≥ 1024 then 1024 else n) pos text c with
      | returned p c1 =>
        rw [hr] at h1
        simp only []
        obtain ⟨new1, hc1, hd1, hcase⟩ := h1
        simp only [Result.conn] at hc1
        rcases hcase with ⟨_, hall⟩ | ⟨he, _⟩
        · have := ih (n - (if n ≥ 1024 then 1024 else n)) p.1 p.2 c1
          rw [hc1] at this
          exact failsAtFirstError_compose tr _ _ _ hd1 hall this
        · simp [Result.exitCode] at he
      | exited code c1 =>
        rw [hr] at h1
        exact h1
      | outOfFuel c1 =>
        rw [hr] at h1
        exact h1
      | undefined c1 =>
        rw [hr] at h1
        exact h1
    · rw [if_neg hpos]
      exact ⟨[], by simp [Result.conn], dictates_nil tr _, Or.inl ⟨rfl, by simp⟩⟩

/-- C6 (chunked exact transfer): on a transport where every call transfers at
least one and at most the requested number of bytes, `writeToSocket` of the
first `n` bytes of `text` (any `n ≥ 0`, also above 1024) returns, having handed
the transport exactly these `n` bytes in order, by `send` calls that each ask
for at most 1024 bytes; `readFromSocket` of `n` bytes returns, having stored
exactly the next `n` bytes of the incoming stream in order at the start of the
array, by `recv` calls that each ask for at most 1024 bytes; so when the stream
carries the bytes written, the bytes read are identical to them. -/
theorem chunked_exact_transfer (trW trR : Transport) (text buf : List Int)
    (n fuel : Nat) (cW cR : Conn)
    (hW : trW.Progresses) (hR : trR.Progresses)
    (hn : n ≤ text.length) (hbuf : n ≤ buf.length) (hfuel : n + 1024 ≤ fuel) :
    (∃ cW2 sends, writeToSocket trW fuel cW text (n : Int) = Result.returned () cW2
        ∧ cW2.sent = cW.sent ++ text.take n
        ∧ (text.take n).length = n
        ∧ cW2.rcvd = cW.rcvd
        ∧ cW2.calls = cW.calls ++ sends
        ∧ ∀ x ∈ sends, ∃ len r, x = Call.send len r ∧ 1 ≤ len ∧ len ≤ 1024
            ∧ 1 ≤ r ∧ r ≤ len)
    ∧ (∃ cR2 recvs buf2, readFromSocket trR fuel cR buf (n : Int) = Result.returned buf2 cR2
        ∧ buf2 = trR.next cR.rcvd n ++ buf.drop n
        ∧ cR2.rcvd = cR.rcvd + n
        ∧ cR2.sent = cR.sent
        ∧ cR2.calls = cR.calls ++ recvs
        ∧ (∀ x ∈ recvs, ∃ len r, x = Call.recv len r ∧ 1 ≤ len ∧ len ≤ 1024
            ∧ 1 ≤ r ∧ r ≤ len)
        ∧ (trR.next cR.rcvd n = text.take n → buf2.take n = text.take n)) := by
  constructor
  · obtain ⟨c2, new, he, hs, hr, hc, hnew⟩ :=
      writeLoop_progress trW text hW fuel (by omega) fuel n 0 cW (by omega)
    exact ⟨c2, new, he, by simpa using hs, by simpa using hn, hr, hc, hnew⟩
  · obtain ⟨c2, new, he, hs, hr, hc, hnew⟩ :=
      readLoop_progress trR hR fuel (by omega) fuel n 0 buf cR (by omega)
    have hw : writeAt buf 0 (trR.next cR.rcvd n) = trR.next cR.rcvd n ++ buf.drop n := by
      have := writeAt_zero_take (trR.next cR.rcvd n) buf (by rw [next_length]; exact hbuf)
      rwa [next_length] at this
    refine ⟨c2, new, trR.next cR.rcvd n ++ buf.drop n, ?_, rfl, hr, hs, hc, hnew, ?_⟩
    · rw [← hw]; exact he
    · intro hlink
      rw [List.take_append_of_le_length (by rw [next_length]),
        List.take_of_length_le (by rw [next_length]), hlink]

/-- Witness of C6: a payload of 5000 bytes over a transport that transfers at
most 700 bytes per call. -/
theorem chunked_exact_transfer_witness :
    (∃ cW2 sends, writeToSocket (sampleTransport []) 6024 Conn.init samplePayload
          ((5000 : Nat) : Int) = Result.returned () cW2
        ∧ cW2.sent = Conn.init.sent ++ samplePayload.take 5000
        ∧ (samplePayload.take 5000).length = 5000
        ∧ cW2.rcvd = Conn.init.rcvd
        ∧ cW2.calls = Conn.init.calls ++ sends
        ∧ ∀ x ∈ sends, ∃ len r, x = Call.send len r ∧ 1 ≤ len ∧ len ≤ 1024
            ∧ 1 ≤ r ∧ r ≤ len)
    ∧ (∃ cR2 recvs buf2, readFromSocket (sampleTransport samplePayload) 6024 Conn.init
          (calloc 5000) ((5000 : Nat) : Int) = Result.returned buf2 cR2
        ∧ buf2 = (sampleTransport samplePayload).next Conn.init.rcvd 5000
            ++ (calloc 5000).drop 5000
        ∧ cR2.rcvd = Conn.init.rcvd + 5000
        ∧ cR2.sent = Conn.init.sent
        ∧ cR2.calls = Conn.init.calls ++ recvs
        ∧ (∀ x ∈ recvs, ∃ len r, x = Call.recv len r ∧ 1 ≤ len ∧ len ≤ 1024
            ∧ 1 ≤ r ∧ r ≤ len)
        ∧ ((sampleTransport samplePayload).next Conn.init.rcvd 5000
              = samplePayload.take 5000 → buf2.take 5000 = samplePayload.take 5000)) :=
  chunked_exact_transfer (sampleTransport []) (sampleTransport samplePayload)
    samplePayload (calloc 5000) 5000 6024 Conn.init Conn.init
    (fun _ len h => by simp only [sampleTransport]; omega)
    (fun _ len h => by simp only [sampleTransport]; omega)
    (le_of_eq (by simp only [samplePayload, List.length_replicate]))
    (le_of_eq (by simp only [calloc, List.length_replicate])) (by omega)

/-- C7 (transport failure is immediately fatal): for every transport, payload
and iteration bound, every result recorded in the trace of `writeToSocket` and
of `readFromSocket` is the one the transport returned, and either the run has
not exited and no call returned a negative count, or it exited with status 1
and the call that returned a negative count is the last call of the trace, all
earlier ones having returned non-negative counts (no retry, no further call). -/
theorem transport_failure_fatal (tr : Transport) (fuel : Nat) (c : Conn)
    (text buf : List Int) (ntext : Int) :
    FailsAtFirstError tr c.calls (writeToSocket tr fuel c text ntext)
    ∧ FailsAtFirstError tr c.calls (readFromSocket tr fuel c buf ntext) :=
  ⟨writeLoop_failsAtFirstError tr text fuel fuel ntext 0 c,
    readLoop_failsAtFirstError tr fuel fuel ntext 0 buf c⟩

/-! ### Role tags -/

theorem cstr_append_zeros (rec : List Int) (k : Nat) (hk : 0 < k) :
    cstr (rec ++ calloc k) = cstr rec := by
  obtain ⟨k, rfl⟩ : ∃ q, k = q + 1 := ⟨k - 1, by omega⟩
  unfold cstr calloc
  induction rec with
  | nil => simp [List.replicate_succ]
  | cons x xs ih =>
    by_cases hx : x = 0
    · simp [List.takeWhile_cons, hx]
    · simp only [List.cons_append, List.takeWhile_cons, hx, ne_eq, not_false_eq_true,
        decide_True, if_true]
      rw [ih]

theorem cstr_eq_self_of_length (rec tag : List Int) (h : cstr rec = tag)
    (hlen : rec.length ≤ tag.length) : rec = tag := by
  have hp : cstr rec <+: rec := List.takeWhile_prefix _
  rw [h] at hp
  exact (hp.eq_of_length_le hlen).symm

theorem cstr_recv_buffer (rec : List Int) (m : Nat) (h : rec.length < m) :
    cstr (writeAt (calloc m) 0 rec) = cstr rec := by
  rw [writeAt_zero_take rec (calloc m) (by simp [calloc]; omega)]
  have : List.drop rec.length (calloc m) = calloc (m - rec.length) := by
    simp [calloc]
  rw [this, cstr_append_zeros _ _ (by omega)]

theorem tag_props (prog : Server) :
    prog.tag.length = 3 ∧ cstr (prog.tag ++ [0]) = prog.tag := by
  cases prog <;> decide

theorem strcmpNe_recv (prog : Server) (rec : List Int) (m : Nat) (hm : 3 < m)
    (hlen : rec.length ≤ 3) (hne : rec ≠ prog.tag) :
    strcmpNe (writeAt (calloc m) 0 rec) (prog.tag ++ [0]) = true
    ∧ strcmpNe (prog.tag ++ [0]) (writeAt (calloc m) 0 rec) = true := by
  obtain ⟨h3, hc⟩ := tag_props prog
  have key : cstr (writeAt (calloc m) 0 rec) ≠ cstr (prog.tag ++ [0]) := by
    rw [cstr_recv_buffer rec m (by omega), hc]
    intro h
    exact hne (cstr_eq_self_of_length rec prog.tag h (by omega))
  unfold strcmpNe
  exact ⟨decide_eq_true key, decide_eq_true (fun h => key h.symm)⟩

/-! ### Role isolation -/

theorem serverSession_mismatch (prog : Server)
    (transform : List Int → List Int → List Int → List Int)
    (tr : Transport) (fuel : Nat)
    (hrecv : 0 ≤ tr.ret 0 3) (hrecv3 : tr.ret 0 3 ≤ 3) (hsend : 0 ≤ tr.ret 1 3)
    (htag : tr.next 0 (tr.ret 0 3).toNat ≠ prog.tag) :
    serverSession prog.tag transform tr fuel Conn.init
      = Result.exited 2
          { calls := [Call.recv 3 (tr.ret 0 3), Call.send 3 (tr.ret 1 3), Call.close],
            sent := (prog.tag ++ [0]).take (tr.ret 1 3).toNat,
            rcvd := (tr.ret 0 3).toNat } := by
  have hlen : (tr.next 0 (tr.ret 0 3).toNat).length ≤ 3 := by
    rw [next_length]; omega
  have hne := (strcmpNe_recv prog _ 64 (by omega) hlen htag).1
  simp only [serverSession, recv, send, close, Conn.init, List.length_nil, List.nil_append,
    List.cons_append, List.length_cons, Nat.zero_add, List.drop_zero, zero_add, Nat.reduceAdd]
  rw [if_neg (not_lt.mpr hrecv), if_neg (not_lt.mpr hsend), if_pos hne]

theorem clientMain_mismatch (prog : Server) (tr : Transport) (fuel : Nat)
    (textLine keyLine : List Int)
    (htext : textLine ≠ []) (hkey : keyLine ≠ [])
    (hvalid : 0 ≤ checkTexts (chomp textLine) (chomp keyLine))
    (hsock : 0 ≤ tr.ret 0 0) (hconn : 0 ≤ tr.ret 1 0) (hsend : 0 ≤ tr.ret 2 3)
    (hrecv : 0 ≤ tr.ret 3 3) (hrecv3 : tr.ret 3 3 ≤ 3)
    (htag : tr.next 0 (tr.ret 3 3).toNat ≠ prog.tag) :
    clientMain prog.tag tr fuel true textLine keyLine
      = Result.exited 2
          { calls := [Call.socket (tr.ret 0 0), Call.connect (tr.ret 1 0),
              Call.send 3 (tr.ret 2 3), Call.recv 3 (tr.ret 3 3)],
            sent := (prog.tag ++ [0]).take (tr.ret 2 3).toNat,
            rcvd := (tr.ret 3 3).toNat } := by
  have hlen : (tr.next 0 (tr.ret 3 3).toNat).length ≤ 3 := by
    rw [next_length]; omega
  have hne := (strcmpNe_recv prog _ 1024 (by omega) hlen htag).2
  simp only [clientMain, socketCall, connectCall, recv, send, Conn.init, List.length_nil,
    List.nil_append, List.cons_append, List.length_cons, Nat.zero_add, List.drop_zero,
    zero_add, Nat.reduceAdd, Bool.not_true, Bool.false_eq_true, if_false]
  rw [if_neg htext, if_neg hkey, if_neg (not_lt.mpr hvalid), if_neg (not_lt.mpr hsock),
    if_neg (not_lt.mpr hconn), if_neg (not_lt.mpr hsend), if_neg (not_lt.mpr hrecv), if_pos hne]

theorem serverSession_recv_error (ownTag : List Int)
    (transform : List Int → List Int → List Int → List Int)
    (tr : Transport) (fuel : Nat) (h : tr.ret 0 3 < 0) :
    serverSession ownTag transform tr fuel Conn.init
      = Result.exited 1
          { calls := [Call.recv 3 (tr.ret 0 3)], sent := [], rcvd := (tr.ret 0 3).toNat } := by
  simp only [serverSession, recv, Conn.init, List.length_nil, List.nil_append, Nat.zero_add,
    zero_add]
  rw [if_pos h]

/-- C8 (role isolation): when the tag the server receives (without transport
error) differs from its own tag, the worker sends its own tag, closes the
connection and exits with status 2; its whole trace is the `recv` of the tag,
the `send` of its own tag and `close`, so no length field or payload is read
and no output is sent. When the tag the client receives differs from its own,
the client exits with status 2 after `socket`, `connect`, the `send` of its tag
and the `recv` of the answer, so no length field and no payload is sent. A
transport error on the first `recv` gives exit status 1 instead. -/
theorem role_isolation (prog : Server) (trS trC : Transport) (fuel : Nat)
    (textLine keyLine : List Int)
    (hrecv : 0 ≤ trS.ret 0 3) (hrecv3 : trS.ret 0 3 ≤ 3) (hsend : 0 ≤ trS.ret 1 3)
    (htag : trS.next 0 (trS.ret 0 3).toNat ≠ prog.tag)
    (htext : textLine ≠ []) (hkey : keyLine ≠ [])
    (hvalid : 0 ≤ checkTexts (chomp textLine) (chomp keyLine))
    (hsock : 0 ≤ trC.ret 0 0) (hconn : 0 ≤ trC.ret 1 0) (hcsend : 0 ≤ trC.ret 2 3)
    (hcrecv : 0 ≤ trC.ret 3 3) (hcrecv3 : trC.ret 3 3 ≤ 3)
    (hctag : trC.next 0 (trC.ret 3 3).toNat ≠ prog.tag) :
    prog.worker trS fuel
      = Result.exited 2
          { calls := [Call.recv 3 (trS.ret 0 3), Call.send 3 (trS.ret 1 3), Call.close],
            sent := (prog.tag ++ [0]).take (trS.ret 1 3).toNat,
            rcvd := (trS.ret 0 3).toNat }
    ∧ prog.client trC fuel true textLine keyLine
      = Result.exited 2
          { calls := [Call.socket (trC.ret 0 0), Call.connect (trC.ret 1 0),
              Call.send 3 (trC.ret 2 3), Call.recv 3 (trC.ret 3 3)],
            sent := (prog.tag ++ [0]).take (trC.ret 2 3).toNat,
            rcvd := (trC.ret 3 3).toNat }
    ∧ (∀ tr : Transport, tr.ret 0 3 < 0 →
        (prog.worker tr fuel).exitCode = some 1) := by
  refine ⟨?_, ?_, ?_⟩
  · have h := fun t => serverSession_mismatch prog t trS fuel hrecv hrecv3 hsend htag
    cases prog
    · simp only [Server.worker, encWorker, checkAndEncode, workerExit]
      have := h encode
      simp only [Server.tag] at this
      rw [this]
      rfl
    · simp only [Server.worker, decWorker, checkAndDecode, workerExit]
      have := h decode
      simp only [Server.tag] at this
      rw [this]
      rfl
  · have h := clientMain_mismatch prog trC fuel textLine keyLine htext hkey hvalid hsock hconn
      hcsend hcrecv hcrecv3 hctag
    cases prog
    · exact h
    · exact h
  · intro tr htr
    cases prog
    · simp only [Server.worker, encWorker, checkAndEncode, workerExit]
      rw [serverSession_recv_error encTag encode tr fuel htr]
      rfl
    · simp only [Server.worker, decWorker, checkAndDecode, workerExit]
      rw [serverSession_recv_error decTag decode tr fuel htr]
      rfl

/-- Witness of C8: an otp_dec client (tag `"dec"`) against otp_enc_d, and the
otp_enc client receiving the tag `"dec"`. -/
theorem role_isolation_witness :
    Server.encD.worker (fullTransport decTag) 2000
      = Result.exited 2
          { calls := [Call.recv 3 3, Call.send 3 3, Call.close],
            sent := encTag, rcvd := 3 }
    ∧ Server.encD.client (fullTransport decTag) 2000 true helloLine keyLine12
      = Result.exited 2
          { calls := [Call.socket 3, Call.connect 3, Call.send 3 3, Call.recv 3 3],
            sent := encTag, rcvd := 3 }
    ∧ (∀ tr : Transport, tr.ret 0 3 < 0 →
        (Server.encD.worker tr 2000).exitCode = some 1) :=
  role_isolation Server.encD (fullTransport decTag) (fullTransport decTag) 2000
    helloLine keyLine12 (by decide) (by decide) (by decide) (by decide) (by decide)
    (by decide) (by decide) (by decide) (by decide) (by decide) (by decide) (by decide)
    (by decide)

/-! ### Length field -/

theorem decDigits_spec : ∀ (fuel m : Nat) (acc : List Int), m < fuel →
    ∃ ds : List Int, decDigits fuel m acc = ds ++ acc ∧ 0 < ds.length
      ∧ (∀ d ∈ ds, 48 ≤ d ∧ d ≤ 57)
      ∧ (∀ a : Int, ds.foldl (fun acc d => acc * 10 + (d - 48)) a
            = a * 10 ^ ds.length + (m : Int))
      ∧ m < 10 ^ ds.length
      ∧ (ds.length = 1 ∨ 10 ^ (ds.length - 1) ≤ m) := by
  intro fuel
  induction fuel with
  | zero => intro m acc h; omega
  | succ fuel ih =>
    intro m acc hm
    simp only [decDigits]
    by_cases h10 : m < 10
    · rw [if_pos h10]
      refine ⟨[48 + (m : Int)], rfl, by simp, ?_, ?_, by simpa using h10, Or.inl rfl⟩
      · intro d hd
        rw [List.mem_singleton] at hd
        omega
      · intro a
        simp
    · rw [if_neg h10]
      obtain ⟨ds, he, hpos, hdig, hval, hub, hlb⟩ :=
        ih (m / 10) ((48 + ((m % 10 : Nat) : Int)) :: acc) (by omega)
      refine ⟨ds ++ [48 + ((m % 10 : Nat) : Int)], by rw [he]; simp, by simp, ?_, ?_, ?_, ?_⟩
      · intro d hd
        rcases List.mem_append.mp hd with hd | hd
        · exact hdig d hd
        · rw [List.mem_singleton] at hd
          omega
      · intro a
        rw [List.foldl_append, hval a]
        simp only [List.foldl_cons, List.foldl_nil, List.length_append, List.length_singleton]
        have hm2 : (m : Int) = ((m / 10 : Nat) : Int) * 10 + ((m % 10 : Nat) : Int) := by
          omega
        rw [pow_succ]
        conv_rhs => rw [hm2]
        ring
      · simp only [List.length_append, List.length_singleton]
        rw [pow_succ]
        omega
      · right
        simp only [List.length_append, List.length_singleton, Nat.add_sub_cancel]
        rcases hlb with h1 | h1
        · rw [h1]; omega
        · have : 10 ^ ds.length = 10 ^ (ds.length - 1) * 10 := by
            rw [← pow_succ]
            congr 1
            omega
          rw [this]
          omega

theorem toInt_of_range (n : Int) (h0 : 0 ≤ n) (h1 : n ≤ 2147483647) : toInt n = n := by
  unfold toInt; omega

theorem calloc_drop (m k : Nat) : (calloc m).drop k = calloc (m - k) := by
  simp [calloc]

theorem calloc_append (a b : Nat) : calloc a ++ calloc b = calloc (a + b) := by
  unfold calloc
  rw [List.replicate_add]

theorem writeAt_terminated (ds : List Int) (m : Nat) (h : ds.length ≤ m) :
    writeAt (calloc m) 0 (ds ++ [0]) = ds ++ calloc (m - ds.length) := by
  rw [← writeAt_append, writeAt_zero_take ds (calloc m) (by simpa [calloc] using h),
    calloc_drop]
  simp only [writeAt, Nat.zero_add]
  apply List.ext_getElem?
  intro j
  rw [List.getElem?_set]
  by_cases hj : ds.length = j
  · subst hj
    rw [if_pos rfl]
    simp only [List.length_append, calloc, List.length_replicate]
    rw [List.getElem?_append_right (le_refl _)]
    simp only [Nat.sub_self, List.getElem?_replicate]
    by_cases hm : ds.length < m
    · have h1 : ds.length < ds.length + (m - ds.length) := by omega
      have h2 : 0 < m - ds.length := by omega
      rw [if_pos h1, if_pos h2]
    · have h1 : ¬ ds.length < ds.length + (m - ds.length) := by omega
      have h2 : ¬ 0 < m - ds.length := by omega
      rw [if_neg h1, if_neg h2]
  · rw [if_neg hj]

theorem strtol_digits (ds : List Int) (k : Nat) (hk : 0 < k) (hpos : 0 < ds.length)
    (hdig : ∀ d ∈ ds, 48 ≤ d ∧ d ≤ 57) :
    strtol (ds ++ calloc k)
      = max (-9223372036854775808) (min 9223372036854775807 (digitsValue ds)) := by
  have hc : cstr (ds ++ calloc k) = ds :=
    cstr_append_calloc ds (fun c hc => by have := hdig c hc; omega) k hk
  obtain ⟨d, rest, rfl⟩ : ∃ d rest, ds = d :: rest := by
    cases ds with
    | nil => simp at hpos
    | cons d rest => exact ⟨d, rest, rfl⟩
  have hd := hdig d (List.mem_cons_self _ _)
  have hsp : isspace d = false := by
    unfold isspace
    simp only [Bool.or_eq_false_iff, Bool.and_eq_false_iff, decide_eq_false_iff_not]
    constructor
    · omega
    · right; omega
  have hdw : List.dropWhile isspace (d :: rest) = d :: rest := by
    simp [List.dropWhile_cons, hsp]
  have h45 : ((d :: rest).head? == some 45) = false := by
    have : d ≠ 45 := by omega
    simp [this]
  have h43 : ((d :: rest).head? == some 43) = false := by
    have : d ≠ 43 := by omega
    simp [this]
  have htw : List.takeWhile isdigit (d :: rest) = d :: rest := by
    rw [List.takeWhile_eq_self_iff]
    intro x hx
    have := hdig x hx
    unfold isdigit
    simp only [Bool.and_eq_true, decide_eq_true_eq]
    omega
  simp only [strtol, hc, hdw, h45, h43, Bool.or_self, Bool.false_eq_true, if_false, htw]

theorem sprintfInt_natCast (m : Nat) :
    ∃ ds : List Int, sprintfInt (m : Int) = ds ∧ 0 < ds.length
      ∧ (∀ d ∈ ds, 48 ≤ d ∧ d ≤ 57)
      ∧ digitsValue ds = (m : Int)
      ∧ m < 10 ^ ds.length
      ∧ (ds.length = 1 ∨ 10 ^ (ds.length - 1) ≤ m) := by
  obtain ⟨ds, he, hpos, hdig, hval, hub, hlb⟩ := decDigits_spec (m + 1) m [] (by omega)
  refine ⟨ds, ?_, hpos, hdig, ?_, hub, hlb⟩
  · unfold sprintfInt
    rw [if_neg (by omega)]
    simpa using he
  · unfold digitsValue
    rw [hval 0]
    simp

theorem sprintfInt_length_le (m : Nat) (ds : List Int) (k : Nat) (hk : 0 < k)
    (hm : m < 10 ^ k) (hlb : ds.length = 1 ∨ 10 ^ (ds.length - 1) ≤ m) :
    ds.length ≤ k := by
  by_contra hcon
  have : 10 ^ k ≤ 10 ^ (ds.length - 1) := Nat.pow_le_pow_right (by omega) (by omega)
  rcases hlb with h1 | h1
  · omega
  · omega

theorem textLengthField_large (m : Nat) (h1 : 999999999 < m) (h2 : m ≤ 2147483647) :
    textLengthField (m : Int) = none := by
  obtain ⟨ds, hs, hpos, hdig, hdv, hub, hlb⟩ := sprintfInt_natCast m
  have hlen : 10 ≤ ds.length := by
    by_contra hcon
    have : 10 ^ ds.length ≤ 10 ^ 9 := Nat.pow_le_pow_right (by omega) (by omega)
    have h9 : (10 : Nat) ^ 9 = 1000000000 := by norm_num
    omega
  unfold textLengthField sprintfInBounds
  rw [toInt_natCast m h2, hs]
  have : ¬ (ds.length + 1 ≤ 10) := by omega
  simp [this]

/-- C10, as amended: for every payload length `n` with `0 ≤ n ≤ 999999999`
(the values whose decimal digits and terminating NUL fit the 10-byte array
`textLength`), the 10 bytes the client sends are the ASCII decimal digits of
`n` followed by NUL padding, and `atoi` of the server buffer holding these 10
bytes returns `n`. -/
theorem length_field_roundtrip (n : Int) (h0 : 0 ≤ n) (hmax : n ≤ 999999999) :
    ∃ field, textLengthField n = some field
      ∧ field.length = 10
      ∧ field = sprintfInt n ++ calloc (10 - (sprintfInt n).length)
      ∧ 0 < (sprintfInt n).length
      ∧ (sprintfInt n).length < 10
      ∧ (∀ d ∈ sprintfInt n, isdigit d = true)
      ∧ digitsValue (sprintfInt n) = n
      ∧ atoi (writeAt (calloc 64) 0 field) = n := by
  obtain ⟨m, rfl⟩ := Int.eq_ofNat_of_zero_le h0
  obtain ⟨ds, hs, hpos, hdig, hdv, hub, hlb⟩ := sprintfInt_natCast m
  have h9 : (10 : Nat) ^ 9 = 1000000000 := by norm_num
  have hlen9 : ds.length ≤ 9 :=
    sprintfInt_length_le m ds 9 (by omega) (by rw [h9]; omega) hlb
  have hti : toInt (m : Int) = (m : Int) := toInt_natCast m (by omega)
  have hfield : textLengthField (m : Int) = some (ds ++ calloc (10 - ds.length)) := by
    unfold textLengthField sprintfInBounds
    rw [hti, hs, if_pos (by simpa using (show ds.length + 1 ≤ 10 by omega)),
      writeAt_terminated ds 10 (by omega)]
  have hflen : (ds ++ calloc (10 - ds.length)).length = 10 := by
    simp only [List.length_append, calloc, List.length_replicate]
    omega
  have hbuf : writeAt (calloc 64) 0 (ds ++ calloc (10 - ds.length))
      = ds ++ calloc (64 - ds.length) := by
    rw [writeAt_zero_take _ _
        (by rw [hflen]; simp only [calloc, List.length_replicate]; omega),
      hflen, calloc_drop, List.append_assoc, calloc_append]
    have hk : 10 - ds.length + (64 - 10) = 64 - ds.length := by omega
    rw [hk]
  refine ⟨ds ++ calloc (10 - ds.length), hfield, hflen, by rw [hs], by rw [hs]; exact hpos,
    by rw [hs]; omega, ?_, by rw [hs]; exact hdv, ?_⟩
  · rw [hs]
    intro d hd
    have := hdig d hd
    unfold isdigit
    simp only [Bool.and_eq_true, decide_eq_true_eq]
    omega
  · unfold atoi
    rw [hbuf, strtol_digits ds _ (by omega) hpos hdig, hdv]
    have h1 : min (9223372036854775807 : Int) (m : Int) = m := by omega
    have h2 : max (-9223372036854775808 : Int) (m : Int) = m := by omega
    rw [h1, h2]
    exact hti

/-- Witness of C10 (amended): the length 12 of `"HELLO WORLD\n"`. -/
theorem length_field_roundtrip_witness :
    ∃ field, textLengthField 12 = some field
      ∧ field.length = 10
      ∧ field = sprintfInt 12 ++ calloc (10 - (sprintfInt 12).length)
      ∧ 0 < (sprintfInt 12).length
      ∧ (sprintfInt 12).length < 10
      ∧ (∀ d ∈ sprintfInt 12, isdigit d = true)
      ∧ digitsValue (sprintfInt 12) = 12
      ∧ atoi (writeAt (calloc 64) 0 field) = 12 :=
  length_field_roundtrip 12 (by decide) (by decide)

/-- Counterexample to C10 as stated: the length 4294967301 (below 9999999999)
is converted to the `int` 5, so the field is `"5"` followed by nine NUL bytes
and the server parses 5. -/
theorem length_field_roundtrip_fails :
    (0 : Int) ≤ 4294967301 ∧ (4294967301 : Int) ≤ 9999999999
    ∧ textLengthField 4294967301 = some [53, 0, 0, 0, 0, 0, 0, 0, 0, 0]
    ∧ atoi (writeAt (calloc 64) 0 [53, 0, 0, 0, 0, 0, 0, 0, 0, 0]) = 5
    ∧ atoi (writeAt (calloc 64) 0 [53, 0, 0, 0, 0, 0, 0, 0, 0, 0]) ≠ 4294967301 := by
  decide

/-! ### Dispatcher -/

theorem deliver_inv (s : DState) (h : BudgetInv s) : BudgetInv (deliver s) := by
  unfold BudgetInv at *
  unfold deliver
  cases hl : s.loc <;> simp_all [Loc.onAcceptPath]

theorem exec_inv (prog : Server) (s : DState) (v : Int) (h : BudgetInv s) :
    BudgetInv (exec prog s v) := by
  unfold BudgetInv at *
  obtain ⟨h0, h5, hacc⟩ := h
  unfold exec
  cases hl : s.loc <;> simp only [hl, Loc.onAcceptPath] at hacc ⊢
  case top =>
    by_cases hn : s.nChildren < MAXCHILDREN
    · cases prog <;> simp [hn, h0, h5, Loc.onAcceptPath]
    · simp [hn, h0, h5, Loc.onAcceptPath]
  case fork =>
    have hlt := hacc trivial
    unfold MAXCHILDREN at *
    split_ifs <;> simp [Loc.onAcceptPath] <;> omega
  case wait =>
    unfold MAXCHILDREN at *
    split_ifs <;> simp [Loc.onAcceptPath] <;> omega
  case child => exact ⟨h0, h5, hacc⟩
  case exited => exact ⟨h0, h5, hacc⟩
  all_goals (split_ifs <;> simp_all [Loc.onAcceptPath])

theorem dstep_inv (prog : Server) (s : DState) (i : Input) (h : BudgetInv s) :
    BudgetInv (dstep prog s i) := by
  cases i with
  | sigchld => exact deliver_inv s h
  | ret v => exact exec_inv prog s v h

theorem drun_inv (prog : Server) (inputs : List Input) :
    ∀ s, BudgetInv s → BudgetInv (drun prog s inputs) := by
  induction inputs with
  | nil => intro s h; exact h
  | cons i is ih => intro s h; exact ih _ (dstep_inv prog s i h)

theorem init_inv : BudgetInv DState.init := by
  unfold BudgetInv DState.init MAXCHILDREN
  simp [Loc.onAcceptPath]

theorem dstep_increment (prog : Server) (s : DState) (i : Input) :
    (dstep prog s i).nChildren ≤ s.nChildren
      ∨ (s.loc = Loc.fork ∧ (dstep prog s i).nChildren = s.nChildren + 1) := by
  cases i with
  | sigchld =>
    left
    simp only [dstep, deliver]
    cases hl : s.loc <;> simp
  | ret v =>
    simp only [dstep, exec]
    cases hl : s.loc <;> simp only [] <;> (try split_ifs) <;> simp

/-- C9 (budget invariant): in every state of the dispatcher loop reached from
the initial state (`nChildren = 0`) by any sequence of statement executions,
system call results (accept, fork, waitpid, ...) and SIGCHLD arrivals,
`0 ≤ nChildren ≤ MAXCHILDREN = 5`; the process is on the accept path (about to
block the signal, accept, unblock or fork) only with `nChildren < MAXCHILDREN`,
so with 5 workers in flight it is not there; and the counter is only ever
incremented by the `fork` step, taken from such a state. -/
theorem budget_invariant (prog : Server) (inputs : List Input) :
    0 ≤ (drun prog DState.init inputs).nChildren
    ∧ (drun prog DState.init inputs).nChildren ≤ 5
    ∧ ((drun prog DState.init inputs).loc.onAcceptPath = true →
        (drun prog DState.init inputs).nChildren < 5)
    ∧ ((drun prog DState.init inputs).nChildren = 5 →
        (drun prog DState.init inputs).loc.onAcceptPath = false)
    ∧ (∀ i : Input,
        (dstep prog (drun prog DState.init inputs) i).nChildren
            ≤ (drun prog DState.init inputs).nChildren
        ∨ ((drun prog DState.init inputs).loc = Loc.fork
            ∧ (drun prog DState.init inputs).nChildren < 5
            ∧ (dstep prog (drun prog DState.init inputs) i).nChildren
                = (drun prog DState.init inputs).nChildren + 1)) := by
  have h := drun_inv prog inputs DState.init init_inv
  unfold BudgetInv MAXCHILDREN at h
  obtain ⟨h0, h5, hacc⟩ := h
  refine ⟨h0, h5, hacc, ?_, ?_⟩
  · intro h
    cases hp : (drun prog DState.init inputs).loc.onAcceptPath
    · rfl
    · have := hacc hp
      omega
  · intro i
    rcases dstep_increment prog (drun prog DState.init inputs) i with h | ⟨h1, h2⟩
    · exact Or.inl h
    · refine Or.inr ⟨h1, hacc ?_, h2⟩
      rw [h1]; rfl

/-! ### Client validation, continued -/

/-- C12 (invalid input is rejected before any network activity): whenever
`checkTexts` returns a negative value for the two lines read, the client ends
with `exit(1)` and its trace is empty: no `socket`, `connect`, `send` or `recv`
has been called and nothing has been sent or received. -/
theorem invalid_input_no_network (prog : Server) (tr : Transport) (fuel : Nat)
    (hostFound : Bool) (textLine keyLine : List Int)
    (h : checkTexts (chomp textLine) (chomp keyLine) < 0) :
    prog.client tr fuel hostFound textLine keyLine = Result.exited 1 Conn.init
    ∧ (prog.client tr fuel hostFound textLine keyLine).conn.calls = []
    ∧ (prog.client tr fuel hostFound textLine keyLine).conn.sent = []
    ∧ (prog.client tr fuel hostFound textLine keyLine).conn.rcvd = 0 := by
  have key : ∀ tag, clientMain tag tr fuel hostFound textLine keyLine
      = Result.exited 1 Conn.init := by
    intro tag
    simp only [clientMain]
    by_cases h1 : textLine = []
    · rw [if_pos h1]
    · rw [if_neg h1]
      by_cases h2 : keyLine = []
      · rw [if_pos h2]
      · rw [if_neg h2, if_pos h]
  have hres : prog.client tr fuel hostFound textLine keyLine = Result.exited 1 Conn.init := by
    cases prog
    · exact key encTag
    · exact key decTag
  rw [hres]
  exact ⟨rfl, rfl, rfl, rfl⟩

/-- Witness of C12: the text `"AB"` with the key `"A"`. -/
theorem invalid_input_no_network_witness :
    Server.encD.client (fullTransport []) 10 true [65, 66, 10] [65, 10]
        = Result.exited 1 Conn.init
    ∧ (Server.encD.client (fullTransport []) 10 true [65, 66, 10] [65, 10]).conn.calls = []
    ∧ (Server.encD.client (fullTransport []) 10 true [65, 66, 10] [65, 10]).conn.sent = []
    ∧ (Server.encD.client (fullTransport []) 10 true [65, 66, 10] [65, 10]).conn.rcvd = 0 :=
  invalid_input_no_network Server.encD (fullTransport []) 10 true [65, 66, 10] [65, 10]
    (by decide)

/-- Counterexample to C13 as stated: for a text longer than the key and for a
text with a lowercase letter `checkTexts` returns -1 and -2, not 0. -/
theorem checkTexts_returns_zero_fails :
    checkTexts [65, 66] [65] = -1 ∧ checkTexts [65, 66] [65] ≠ 0
    ∧ checkTexts [104] [65] = -2 ∧ checkTexts [104] [65] ≠ 0
    ∧ checkTexts [65] [104] = -3 ∧ checkTexts [65] [104] ≠ 0 := by
  decide

theorem checkTexts_ne_zero (text key : List Int) : checkTexts text key ≠ 0 := by
  simp only [checkTexts]
  split_ifs <;> omega

/-- C13, as amended: `checkTexts` never returns 0; for a text and a key of at
most 2147483647 characters each (lengths an `int` can hold) it returns -1 if
the text is longer than the key, otherwise -2 if the text has a character other
than `A`..`Z` and space, otherwise -3 if the key has one, and 1 otherwise. -/
theorem checkTexts_codes (text key : List Int)
    (ht : strlen text ≤ 2147483647) (hk : strlen key ≤ 2147483647) :
    (∀ t k : List Int, checkTexts t k ≠ 0)
    ∧ (strlen text > strlen key → checkTexts text key = -1)
    ∧ (strlen text ≤ strlen key → (∃ c ∈ cstr text, ¬ inAlphabet c) →
        checkTexts text key = -2)
    ∧ (strlen text ≤ strlen key → (∀ c ∈ cstr text, inAlphabet c) →
        (∃ c ∈ cstr key, ¬ inAlphabet c) → checkTexts text key = -3)
    ∧ (strlen text ≤ strlen key → (∀ c ∈ cstr text, inAlphabet c) →
        (∀ c ∈ cstr key, inAlphabet c) → checkTexts text key = 1) := by
  refine ⟨checkTexts_ne_zero, ?_⟩
  rw [checkTexts_cases text key ht hk]
  refine ⟨?_, ?_, ?_, ?_⟩
  · intro h
    rw [if_pos h]
  · intro h1 h2
    rw [if_neg (by omega), if_pos h2]
  · intro h1 h2 h3
    rw [if_neg (by omega), if_neg (by rintro ⟨c, hc, hn⟩; exact hn (h2 c hc)), if_pos h3]
  · intro h1 h2 h3
    rw [if_neg (by omega), if_neg (by rintro ⟨c, hc, hn⟩; exact hn (h2 c hc)),
      if_neg (by rintro ⟨c, hc, hn⟩; exact hn (h3 c hc))]

/-- Witness of C13 (amended): the text `"Ah"` with the key `"AB"`, which gives -2. -/
theorem checkTexts_codes_witness :
    (∀ t k : List Int, checkTexts t k ≠ 0)
    ∧ (strlen [65, 104] > strlen [65, 66] → checkTexts [65, 104] [65, 66] = -1)
    ∧ (strlen [65, 104] ≤ strlen [65, 66] → (∃ c ∈ cstr [65, 104], ¬ inAlphabet c) →
        checkTexts [65, 104] [65, 66] = -2)
    ∧ (strlen [65, 104] ≤ strlen [65, 66] → (∀ c ∈ cstr [65, 104], inAlphabet c) →
        (∃ c ∈ cstr [65, 66], ¬ inAlphabet c) → checkTexts [65, 104] [65, 66] = -3)
    ∧ (strlen [65, 104] ≤ strlen [65, 66] → (∀ c ∈ cstr [65, 104], inAlphabet c) →
        (∀ c ∈ cstr [65, 66], inAlphabet c) → checkTexts [65, 104] [65, 66] = 1) :=
  checkTexts_codes [65, 104] [65, 66] (by decide) (by decide)

/-! ### `encode` on arbitrary characters -/

theorem encodeChar_closed (pc kc : Int) : inAlphabet (encodeChar pc kc) := by
  have h : 0 ≤ (if pc - 65 < 0 then 26 else pc - 65) + (if kc - 65 < 0 then 26 else kc - 65) := by
    split_ifs <;> omega
  unfold inAlphabet
  simp only [encodeChar, toChar]
  rw [tmod27_of_nonneg _ h]
  split_ifs <;> omega

/-- C19 (encode is alphabet-closed without precondition): for arbitrary
character values of text and key, a character below `A` is treated like a
space, the character `encode` computes is always `A`..`Z` or space, so every
position `encode` writes holds an alphabet character; positions from
`strlen(plaintext)` on are left as they were. -/
theorem encode_closed_unconditionally (T K buf : List Int) :
    (∀ pc kc : Int, pc < 65 → encodeChar pc kc = encodeChar 32 kc)
    ∧ (∀ pc kc : Int, kc < 65 → encodeChar pc kc = encodeChar pc 32)
    ∧ (∀ pc kc : Int, inAlphabet (encodeChar pc kc))
    ∧ (∀ j, j < strlen T → j < buf.length →
        (encode T K buf)[j]? = some (encodeChar (charAt T j) (charAt K j))
          ∧ inAlphabet (encodeChar (charAt T j) (charAt K j)))
    ∧ (∀ j, strlen T ≤ j → (encode T K buf)[j]? = buf[j]?) := by
  refine ⟨?_, ?_, encodeChar_closed, ?_, ?_⟩
  · intro pc kc h
    simp only [encodeChar]
    rw [if_pos (show pc - 65 < 0 by omega), if_pos (show (32 : Int) - 65 < 0 by omega)]
  · intro pc kc h
    simp only [encodeChar]
    rw [if_pos (show kc - 65 < 0 by omega), if_pos (show (32 : Int) - 65 < 0 by omega)]
  · intro j h1 h2
    refine ⟨?_, encodeChar_closed _ _⟩
    unfold encode
    rw [encodeLoop_getElem?, if_pos ⟨Nat.zero_le j, by omega, h2⟩]
  · intro j h
    unfold encode
    rw [encodeLoop_getElem?, if_neg (by omega)]

/-! ### Zero-byte transfers -/

theorem sendLoop_zero (tr : Transport) (text : List Int) (hz : ∀ k len, tr.ret k len = 0) :
    ∀ (fuel : Nat) (l : Int) (pos : Nat) (c : Conn), 0 < l →
      ∃ c2, sendLoop tr text fuel l pos c = Result.outOfFuel c2
        ∧ c2.sent = c.sent ∧ c2.rcvd = c.rcvd ∧ c2.calls.length = c.calls.length + fuel := by
  intro fuel
  induction fuel with
  | zero => intro l pos c _; exact ⟨c, rfl, rfl, rfl, rfl⟩
  | succ fuel ih =>
    intro l pos c hl
    simp only [sendLoop, send, hz, lt_self_iff_false, if_false, sub_zero, Int.toNat_zero,
      Nat.add_zero, List.take_zero, List.append_nil]
    rw [if_pos hl]
    obtain ⟨c2, he, hs, hr, hc⟩ := ih l pos
      { calls := c.calls ++ [Call.send l 0], sent := c.sent, rcvd := c.rcvd } hl
    refine ⟨c2, he, hs, hr, ?_⟩
    rw [hc]
    simp only [List.length_append, List.length_singleton]
    omega

theorem recvLoop_zero (tr : Transport) (hz : ∀ k len, tr.ret k len = 0) :
    ∀ (fuel : Nat) (l : Int) (pos : Nat) (text : List Int) (c : Conn), 0 < l →
      ∃ c2, recvLoop tr fuel l pos text c = Result.outOfFuel c2
        ∧ c2.sent = c.sent ∧ c2.rcvd = c.rcvd ∧ c2.calls.length = c.calls.length + fuel := by
  intro fuel
  induction fuel with
  | zero => intro l pos text c _; exact ⟨c, rfl, rfl, rfl, rfl⟩
  | succ fuel ih =>
    intro l pos text c hl
    simp only [recvLoop, recv, hz, lt_self_iff_false, if_false, sub_zero, Int.toNat_zero,
      Nat.add_zero]
    rw [if_pos hl]
    have hw : writeAt text pos (tr.next c.rcvd 0) = text := rfl
    rw [hw]
    obtain ⟨c2, he, hs, hr, hc⟩ := ih l pos text
      { calls := c.calls ++ [Call.recv l 0], sent := c.sent, rcvd := c.rcvd } hl
    refine ⟨c2, he, hs, hr, ?_⟩
    rw [hc]
    simp only [List.length_append, List.length_singleton]
    omega

theorem sendLoop_ends_nonzero (tr : Transport) (text : List Int) :
    ∀ (fuel : Nat) (l : Int) (pos : Nat) (c : Conn), 0 < l →
      ∃ new, (sendLoop tr text fuel l pos c).conn.calls = c.calls ++ new
        ∧ ((∃ c2, sendLoop tr text fuel l pos c = Result.outOfFuel c2)
            ∨ ∃ x ∈ new, x.ret ≠ 0) := by
  intro fuel
  induction fuel with
  | zero => intro l pos c _; exact ⟨[], by simp [sendLoop, Result.conn], Or.inl ⟨c, rfl⟩⟩
  | succ fuel ih =>
    intro l pos c hl
    simp only [sendLoop, send]
    by_cases hneg : tr.ret c.calls.length l < 0
    · rw [if_pos hneg]
      exact ⟨[Call.send l (tr.ret c.calls.length l)], rfl,
        Or.inr ⟨_, List.mem_singleton.mpr rfl, by simp only [Call.ret]; omega⟩⟩
    · rw [if_neg hneg]
      by_cases hlt : l - tr.ret c.calls.length l > 0
      · rw [if_pos hlt]
        obtain ⟨new, hc, hcase⟩ := ih (l - tr.ret c.calls.length l)
          (pos + (tr.ret c.calls.length l).toNat)
          { calls := c.calls ++ [Call.send l (tr.ret c.calls.length l)],
            sent := c.sent ++ List.take (tr.ret c.calls.length l).toNat (List.drop pos text),
            rcvd := c.rcvd } hlt
        refine ⟨Call.send l (tr.ret c.calls.length l) :: new, by rw [hc]; simp, ?_⟩
        rcases hcase with h | ⟨x, hx, hne⟩
        · exact Or.inl h
        · exact Or.inr ⟨x, List.mem_cons_of_mem _ hx, hne⟩
      · rw [if_neg hlt]
        exact ⟨[Call.send l (tr.ret c.calls.length l)], rfl,
          Or.inr ⟨_, List.mem_singleton.mpr rfl, by simp only [Call.ret]; omega⟩⟩

theorem recvLoop_ends_nonzero (tr : Transport) :
    ∀ (fuel : Nat) (l : Int) (pos : Nat) (text : List Int) (c : Conn), 0 < l →
      ∃ new, (recvLoop tr fuel l pos text c).conn.calls = c.calls ++ new
        ∧ ((∃ c2, recvLoop tr fuel l pos text c = Result.outOfFuel c2)
            ∨ ∃ x ∈ new, x.ret ≠ 0) := by
  intro fuel
  induction fuel with
  | zero => intro l pos text c _; exact ⟨[], by simp [recvLoop, Result.conn], Or.inl ⟨c, rfl⟩⟩
  | succ fuel ih =>
    intro l pos text c hl
    simp only [recvLoop, recv]
    by_cases hneg : tr.ret c.calls.length l < 0
    · rw [if_pos hneg]
      exact ⟨[Call.recv l (tr.ret c.calls.length l)], rfl,
        Or.inr ⟨_, List.mem_singleton.mpr rfl, by simp only [Call.ret]; omega⟩⟩
    · rw [if_neg hneg]
      by_cases hlt : l - tr.ret c.calls.length l > 0
      · rw [if_pos hlt]
        obtain ⟨new, hc, hcase⟩ := ih (l - tr.ret c.calls.length l)
          (pos + (tr.ret c.calls.length l).toNat)
          (writeAt text pos (tr.next c.rcvd (tr.ret c.calls.length l).toNat))
          { calls := c.calls ++ [Call.recv l (tr.ret c.calls.length l)],
            sent := c.sent,
            rcvd := c.rcvd + (tr.ret c.calls.length l).toNat } hlt
        refine ⟨Call.recv l (tr.ret c.calls.length l) :: new, by rw [hc]; simp, ?_⟩
        rcases hcase with h | ⟨x, hx, hne⟩
        · exact Or.inl h
        · exact Or.inr ⟨x, List.mem_cons_of_mem _ hx, hne⟩
      · rw [if_neg hlt]
        exact ⟨[Call.recv l (tr.ret c.calls.length l)], rfl,
          Or.inr ⟨_, List.mem_singleton.mpr rfl, by simp only [Call.ret]; omega⟩⟩

theorem writeToSocket_ends_nonzero (tr : Transport) (text : List Int) (fuel : Nat)
    (c : Conn) (ntext : Int) (hn : 0 < ntext) :
    ∃ new, (writeToSocket tr fuel c text ntext).conn.calls = c.calls ++ new
      ∧ ((∃ c2, writeToSocket tr fuel c text ntext = Result.outOfFuel c2)
          ∨ ∃ x ∈ new, x.ret ≠ 0) := by
  cases fuel with
  | zero => exact ⟨[], by simp [writeToSocket, writeLoop, Result.conn], Or.inl ⟨c, rfl⟩⟩
  | succ fuel =>
    have hchunk : 0 < (if ntext ≥ 1024 then (1024 : Int) else ntext) := by
      split_ifs <;> omega
    obtain ⟨new1, hc1, hcase⟩ := sendLoop_ends_nonzero tr text (fuel + 1) _ 0 c hchunk
    simp only [writeToSocket, writeLoop]
    rw [if_pos hn]
    cases hr : sendLoop tr text (fuel + 1) (if ntext ≥ 1024 then 1024 else ntext) 0 c with
    | returned p c1 =>
      rw [hr] at hc1 hcase
      simp only [Result.conn] at hc1
      obtain ⟨new2, hc2, _⟩ := writeLoop_failsAtFirstError tr text (fuel + 1) fuel
        (ntext - (if ntext ≥ 1024 then 1024 else ntext)) p c1
      refine ⟨new1 ++ new2, by simp only []; rw [hc2, hc1, List.append_assoc], ?_⟩
      rcases hcase with ⟨c2, h⟩ | ⟨x, hx, hne⟩
      · cases h
      · exact Or.inr ⟨x, List.mem_append_left _ hx, hne⟩
    | exited code c1 =>
      rw [hr] at hc1 hcase
      refine ⟨new1, hc1, ?_⟩
      rcases hcase with ⟨c2, h⟩ | h
      · cases h
      · exact Or.inr h
    | outOfFuel c1 =>
      rw [hr] at hc1
      exact ⟨new1, hc1, Or.inl ⟨c1, rfl⟩⟩
    | undefined c1 =>
      rw [hr] at hc1 hcase
      refine ⟨new1, hc1, ?_⟩
      rcases hcase with ⟨c2, h⟩ | h
      · cases h
      · exact Or.inr h

theorem readFromSocket_ends_nonzero (tr : Transport) (buf : List Int) (fuel : Nat)
    (c : Conn) (ntext : Int) (hn : 0 < ntext) :
    ∃ new, (readFromSocket tr fuel c buf ntext).conn.calls = c.calls ++ new
      ∧ ((∃ c2, readFromSocket tr fuel c buf ntext = Result.outOfFuel c2)
          ∨ ∃ x ∈ new, x.ret ≠ 0) := by
  cases fuel with
  | zero => exact ⟨[], by simp [readFromSocket, readLoop, Result.conn], Or.inl ⟨c, rfl⟩⟩
  | succ fuel =>
    have hchunk : 0 < (if ntext ≥ 1024 then (1024 : Int) else ntext) := by
      split_ifs <;> omega
    obtain ⟨new1, hc1, hcase⟩ := recvLoop_ends_nonzero tr (fuel + 1) _ 0 buf c hchunk
    simp only [readFromSocket, readLoop]
    rw [if_pos hn]
    cases hr : recvLoop tr (fuel + 1) (if ntext ≥ 1024 then 1024 else ntext) 0 buf c with
    | returned p c1 =>
      rw [hr] at hc1 hcase
      simp only [Result.conn] at hc1
      obtain ⟨new2, hc2, _⟩ := readLoop_failsAtFirstError tr (fuel + 1) fuel
        (ntext - (if ntext ≥ 1024 then 1024 else ntext)) p.1 p.2 c1
      refine ⟨new1 ++ new2, by simp only []; rw [hc2, hc1, List.append_assoc], ?_⟩
      rcases hcase with ⟨c2, h⟩ | ⟨x, hx, hne⟩
      · cases h
      · exact Or.inr ⟨x, List.mem_append_left _ hx, hne⟩
    | exited code c1 =>
      rw [hr] at hc1 hcase
      refine ⟨new1, hc1, ?_⟩
      rcases hcase with ⟨c2, h⟩ | h
      · cases h
      · exact Or.inr h
    | outOfFuel c1 =>
      rw [hr] at hc1
      exact ⟨new1, hc1, Or.inl ⟨c1, rfl⟩⟩
    | undefined c1 =>
      rw [hr] at hc1 hcase
      refine ⟨new1, hc1, ?_⟩
      rcases hcase with ⟨c2, h⟩ | h
      · cases h
      · exact Or.inr h

/-- C20 (a zero-byte transfer is neither an error nor progress): on a transport
whose calls all return 0, one more iteration of the inner loop of
`writeToSocket` or `readFromSocket` with `leftBehind > 0` only adds the call to
the trace and leaves `leftBehind`, the position and the array unchanged; so for
`ntext > 0` and every bound on the iterations the run of either function is
still inside its loop when the bound is reached: it has neither returned nor
exited, nothing has been sent or received, and the inner loop has made as many
calls as the bound allows. Conversely, on any transport, a run with `ntext > 0`
that has returned or exited has made a call that returned a non-zero count. -/
theorem zero_transfer_no_progress (tr : Transport) (text buf : List Int) (c : Conn)
    (ntext : Int) (fuel : Nat) (hz : ∀ k len, tr.ret k len = 0) (hn : 0 < ntext) :
    (∀ (l : Int) (pos : Nat), 0 < l →
        sendLoop tr text (fuel + 1) l pos c
          = sendLoop tr text fuel l pos
              { calls := c.calls ++ [Call.send l 0], sent := c.sent, rcvd := c.rcvd })
    ∧ (∀ (l : Int) (pos : Nat), 0 < l →
        recvLoop tr (fuel + 1) l pos buf c
          = recvLoop tr fuel l pos buf
              { calls := c.calls ++ [Call.recv l 0], sent := c.sent, rcvd := c.rcvd })
    ∧ (∃ c2, writeToSocket tr (fuel + 1) c text ntext = Result.outOfFuel c2
        ∧ c2.sent = c.sent ∧ c2.rcvd = c.rcvd
        ∧ c2.calls.length = c.calls.length + (fuel + 1))
    ∧ (∃ c2, readFromSocket tr (fuel + 1) c buf ntext = Result.outOfFuel c2
        ∧ c2.sent = c.sent ∧ c2.rcvd = c.rcvd
        ∧ c2.calls.length = c.calls.length + (fuel + 1))
    ∧ writeToSocket tr 0 c text ntext = Result.outOfFuel c
    ∧ readFromSocket tr 0 c buf ntext = Result.outOfFuel c
    ∧ (∀ (tr2 : Transport) (f : Nat),
        ∃ new, (writeToSocket tr2 f c text ntext).conn.calls = c.calls ++ new
          ∧ ((∃ c2, writeToSocket tr2 f c text ntext = Result.outOfFuel c2)
              ∨ ∃ x ∈ new, x.ret ≠ 0))
    ∧ (∀ (tr2 : Transport) (f : Nat),
        ∃ new, (readFromSocket tr2 f c buf ntext).conn.calls = c.calls ++ new
          ∧ ((∃ c2, readFromSocket tr2 f c buf ntext = Result.outOfFuel c2)
              ∨ ∃ x ∈ new, x.ret ≠ 0)) := by
  have hchunk : 0 < (if ntext ≥ 1024 then (1024 : Int) else ntext) := by
    split_ifs <;> omega
  refine ⟨?_, ?_, ?_, ?_, rfl, rfl,
    fun tr2 f => writeToSocket_ends_nonzero tr2 text f c ntext hn,
    fun tr2 f => readFromSocket_ends_nonzero tr2 buf f c ntext hn⟩
  · intro l pos hl
    simp only [sendLoop, send, hz, lt_self_iff_false, if_false, sub_zero, Int.toNat_zero,
      Nat.add_zero, List.take_zero, List.append_nil]
    rw [if_pos hl]
  · intro l pos hl
    simp only [recvLoop, recv, hz, lt_self_iff_false, if_false, sub_zero, Int.toNat_zero,
      Nat.add_zero]
    rw [if_pos hl]
    rfl
  · obtain ⟨c2, he, hs, hr, hc⟩ := sendLoop_zero tr text hz (fuel + 1) _ 0 c hchunk
    refine ⟨c2, ?_, hs, hr, hc⟩
    simp only [writeToSocket, writeLoop]
    rw [if_pos hn, he]
  · obtain ⟨c2, he, hs, hr, hc⟩ := recvLoop_zero tr hz (fuel + 1) _ 0 buf c hchunk
    refine ⟨c2, ?_, hs, hr, hc⟩
    simp only [readFromSocket, readLoop]
    rw [if_pos hn, he]

/-- Witness of C20: 11 bytes over a transport whose calls all return 0, with a
bound of 21 iterations. -/
theorem zero_transfer_no_progress_witness :
    (∃ c2, writeToSocket zeroTransport (20 + 1) Conn.init helloWorld 11 = Result.outOfFuel c2
        ∧ c2.sent = Conn.init.sent ∧ c2.rcvd = Conn.init.rcvd
        ∧ c2.calls.length = Conn.init.calls.length + (20 + 1))
    ∧ (∃ c2, readFromSocket zeroTransport (20 + 1) Conn.init (calloc 11) 11
          = Result.outOfFuel c2
        ∧ c2.sent = Conn.init.sent ∧ c2.rcvd = Conn.init.rcvd
        ∧ c2.calls.length = Conn.init.calls.length + (20 + 1)) :=
  ⟨(zero_transfer_no_progress zeroTransport helloWorld (calloc 11) Conn.init 11 20
      (fun _ _ => rfl) (by decide)).2.2.1,
    (zero_transfer_no_progress zeroTransport helloWorld (calloc 11) Conn.init 11 20
      (fun _ _ => rfl) (by decide)).2.2.2.1⟩

/-! ### Drain loop -/

theorem drun_exited (prog : Server) (inputs : List Input) :
    ∀ (s : DState) (code : Int), s.loc = Loc.exited code →
      drun prog s inputs = s := by
  induction inputs with
  | nil => intro s code _; rfl
  | cons i is ih =>
    intro s code h
    have hstep : dstep prog s i = s := by
      cases i with
      | sigchld => simp only [dstep, deliver, h]
      | ret v => simp only [dstep, exec, h]
    simp only [drun, hstep]
    exact ih s code h

theorem exec_wait_nonzero (prog : Server) (s : DState) (v : Int) (hl : s.loc = Loc.wait)
    (hv : v ≠ 0) :
    exec prog s v =
      if s.nChildren ≤ 0 then { s with loc := Loc.exited 1 }
      else { s with loc := Loc.wait, nChildren := s.nChildren - 1 } := by
  simp only [exec, hl]
  rw [if_pos hv]

theorem drain_then_error (prog : Server) (inputs : List Input) :
    ∀ (s : DState) (pids : List Int), s.loc = Loc.wait →
      Input.rets inputs = pids ++ [-1] → (∀ p ∈ pids, p ≠ 0) →
      s.nChildren = pids.length →
      (drun prog s inputs).loc = Loc.exited 1 ∧ (drun prog s inputs).nChildren = 0 := by
  induction inputs with
  | nil =>
    intro s pids _ h
    simp [Input.rets] at h
  | cons i is ih =>
    intro s pids hl hr hp hn
    cases i with
    | sigchld =>
      simp only [Input.rets] at hr
      simp only [drun, dstep, deliver, hl]
      exact ih _ pids rfl hr hp hn
    | ret v =>
      simp only [Input.rets] at hr
      cases pids with
      | nil =>
        simp only [List.nil_append, List.cons.injEq] at hr
        obtain ⟨hv, _⟩ := hr
        simp only [List.length_nil, Nat.cast_zero] at hn
        have hstep : dstep prog s (Input.ret v) = { s with loc := Loc.exited 1 } := by
          simp only [dstep]
          rw [exec_wait_nonzero prog s v hl (by omega), if_pos (by omega)]
        simp only [drun, hstep]
        rw [drun_exited prog is _ 1 rfl]
        exact ⟨rfl, hn⟩
      | cons p ps =>
        simp only [List.cons_append, List.cons.injEq] at hr
        obtain ⟨hv, hrest⟩ := hr
        subst hv
        have hv0 : v ≠ 0 := hp v (List.mem_cons_self _ _)
        simp only [List.length_cons, Nat.cast_add, Nat.cast_one] at hn
        have hstep : dstep prog s (Input.ret v)
            = { s with loc := Loc.wait, nChildren := s.nChildren - 1 } := by
          simp only [dstep]
          rw [exec_wait_nonzero prog s v hl hv0, if_neg (by omega)]
        simp only [drun, hstep]
        exact ih _ ps rfl hrest (fun q hq => hp q (List.mem_cons_of_mem _ hq))
          (by simp only []; omega)

/-- C18 (the error result of `waitpid` counts as a reaped child): in the drain
loop every non-zero result of `waitpid`, whether a child pid or the error -1,
has the same effect (`exit(1)` if `nChildren ≤ 0`, otherwise one decrement and
another `waitpid`); so in every drain pass, with SIGCHLD arriving at any point,
in which as many non-zero results as `nChildren` are followed by the result
-1, the dispatcher process ends in `exit(1)` with `nChildren = 0`, instead of
going back to the top of the loop. -/
theorem drain_error_result_is_fatal (prog : Server) (s : DState) (inputs : List Input)
    (pids : List Int) (hl : s.loc = Loc.wait)
    (hr : Input.rets inputs = pids ++ [-1]) (hp : ∀ p ∈ pids, p ≠ 0)
    (hn : s.nChildren = pids.length) :
    (∀ v : Int, v ≠ 0 → exec prog s v = exec prog s (-1))
    ∧ (∀ v : Int, v ≠ 0 → 0 < s.nChildren →
        exec prog s v = { s with loc := Loc.wait, nChildren := s.nChildren - 1 })
    ∧ (∀ v : Int, v ≠ 0 → s.nChildren ≤ 0 →
        exec prog s v = { s with loc := Loc.exited 1 })
    ∧ (drun prog s inputs).loc = Loc.exited 1
    ∧ (drun prog s inputs).nChildren = 0 := by
  refine ⟨?_, ?_, ?_, (drain_then_error prog inputs s pids hl hr hp hn).1,
    (drain_then_error prog inputs s pids hl hr hp hn).2⟩
  · intro v hv
    rw [exec_wait_nonzero prog s v hl hv, exec_wait_nonzero prog s (-1) hl (by omega)]
  · intro v hv h0
    rw [exec_wait_nonzero prog s v hl hv, if_neg (by omega)]
  · intro v hv h0
    rw [exec_wait_nonzero prog s v hl hv, if_pos h0]

/-- Witness of C18: one worker in flight, `waitpid` returns its pid, a SIGCHLD
arrives, `waitpid` returns -1. -/
theorem drain_error_result_is_fatal_witness :
    (drun Server.encD
        { loc := Loc.wait, nChildren := 1, childFinished := 1, pending := false }
        [Input.ret 1234, Input.sigchld, Input.ret (-1)]).loc = Loc.exited 1
    ∧ (drun Server.encD
        { loc := Loc.wait, nChildren := 1, childFinished := 1, pending := false }
        [Input.ret 1234, Input.sigchld, Input.ret (-1)]).nChildren = 0 :=
  (drain_error_result_is_fatal Server.encD
    { loc := Loc.wait, nChildren := 1, childFinished := 1, pending := false }
    [Input.ret 1234, Input.sigchld, Input.ret (-1)] [1234] rfl (by decide) (by decide)
    (by decide)).2.2.2

/-- C15, the code at the failing input: from the initial state otp_enc_d accepts
one connection and forks one worker; the worker finishes; the drain loop reaps
it (the only positive `waitpid` result, taken with `nChildren = 1`), then
`waitpid` returns -1 and the process takes the `ERROR COUNTING CHILDREN` exit. -/
theorem drain_exit_without_reaped_worker :
    (drun Server.encD DState.init (lastWorkerRun.take 9)).loc = Loc.wait
    ∧ (drun Server.encD DState.init (lastWorkerRun.take 9)).nChildren = 1
    ∧ (drun Server.encD DState.init (lastWorkerRun.take 10)).loc = Loc.wait
    ∧ (drun Server.encD DState.init (lastWorkerRun.take 10)).nChildren = 0
    ∧ drun Server.encD DState.init lastWorkerRun
        = { loc := Loc.exited 1, nChildren := 0, childFinished := 1, pending := false } := by
  decide

/-! ### Length field that is not a number -/

theorem strtol_no_digits (s : List Int)
    (h : ∀ c, (cstr s).head? = some c →
      isspace c = false ∧ c ≠ 45 ∧ c ≠ 43 ∧ isdigit c = false) :
    strtol s = 0 := by
  unfold strtol
  cases hs : cstr s with
  | nil => simp [digitsValue]
  | cons c rest =>
    rw [hs] at h
    obtain ⟨h1, h2, h3, h4⟩ := h c rfl
    have hdw : List.dropWhile isspace (c :: rest) = c :: rest := by
      simp [List.dropWhile_cons, h1]
    have h45 : ((c :: rest).head? == some 45) = false := by simp [h2]
    have h43 : ((c :: rest).head? == some 43) = false := by simp [h3]
    have htw : List.takeWhile isdigit (c :: rest) = [] := by
      simp [List.takeWhile_cons, h4]
    simp only [hdw, h45, h43, Bool.or_self, Bool.false_eq_true, if_false, htw, digitsValue,
      List.foldl_nil]
    decide

theorem cstr_head (s : List Int) (c : Int) (h : (cstr s).head? = some c) :
    s.head? = some c ∧ c ≠ 0 := by
  unfold cstr at h
  cases s with
  | nil => simp at h
  | cons x xs =>
    by_cases hx : x = 0
    · simp [List.takeWhile_cons, hx] at h
    · simp [List.takeWhile_cons, hx] at h
      subst h
      exact ⟨rfl, hx⟩

theorem writeAt_head (field : List Int) (m : Nat) (c : Int)
    (h : (writeAt (calloc m) 0 field).head? = some c) (hc : c ≠ 0) :
    field.head? = some c := by
  cases field with
  | nil =>
    simp only [writeAt] at h
    cases m with
    | zero => simp [calloc] at h
    | succ m =>
      simp [calloc, List.replicate_succ] at h
      exact absurd h.symm hc
  | cons x xs =>
    have h0 := writeAt_getElem? (x :: xs) (calloc m) 0 0
    rw [List.head?_eq_getElem?] at h ⊢
    rw [h] at h0
    by_cases hm : 0 < m
    · rw [if_pos ⟨le_refl _, by simp, by simpa [calloc] using hm⟩] at h0
      simpa using h0.symm
    · rw [if_neg (by simp [calloc]; omega)] at h0
      have : m = 0 := by omega
      subst this
      simp [calloc] at h0

theorem atoi_not_a_number (field : List Int) (m : Nat)
    (h : ∀ c, field.head? = some c →
      isspace c = false ∧ c ≠ 45 ∧ c ≠ 43 ∧ isdigit c = false) :
    atoi (writeAt (calloc m) 0 field) = 0 := by
  unfold atoi
  rw [strtol_no_digits]
  · decide
  · intro c hc
    obtain ⟨h1, hne⟩ := cstr_head _ c hc
    exact h c (writeAt_head field m c h1 hne)

theorem tag_cstr (prog : Server) : cstr prog.tag = prog.tag := by
  cases prog <;> decide

theorem recv_tag_count (prog : Server) (tr : Transport) (k : Nat) (r : Int)
    (h : tr.next k r.toNat = prog.tag) : r = 3 := by
  have h1 : (tr.next k r.toNat).length = 3 := by rw [h, (tag_props prog).1]
  rw [next_length] at h1
  omega

theorem strcmpNe_tag (prog : Server) (m : Nat) (hm : 3 < m) :
    strcmpNe (writeAt (calloc m) 0 prog.tag) (prog.tag ++ [0]) = false
    ∧ strcmpNe (prog.tag ++ [0]) (writeAt (calloc m) 0 prog.tag) = false := by
  have h1 : cstr (writeAt (calloc m) 0 prog.tag) = prog.tag := by
    rw [cstr_recv_buffer _ m (by rw [(tag_props prog).1]; exact hm), tag_cstr]
  unfold strcmpNe
  rw [h1, (tag_props prog).2]
  simp

theorem serverSession_zero_length (prog : Server)
    (transform : List Int → List Int → List Int → List Int)
    (htrans : transform [] [] [] = [])
    (tr : Transport) (fuel : Nat) (hfuel : 0 < fuel)
    (htag : tr.next 0 (tr.ret 0 3).toNat = prog.tag)
    (hsend : 0 ≤ tr.ret 1 3) (hrecv : 0 ≤ tr.ret 2 10)
    (hzero : atoi (writeAt (calloc 64) 0 (tr.next 3 (tr.ret 2 10).toNat)) = 0) :
    serverSession prog.tag transform tr fuel Conn.init
      = Result.returned ()
          { calls := [Call.recv 3 (tr.ret 0 3), Call.send 3 (tr.ret 1 3),
              Call.recv 10 (tr.ret 2 10), Call.close],
            sent := (prog.tag ++ [0]).take (tr.ret 1 3).toNat,
            rcvd := 3 + (tr.ret 2 10).toNat } := by
  have hr3 : tr.ret 0 3 = 3 := recv_tag_count prog tr 0 _ htag
  have htag3 : tr.next 0 3 = prog.tag := by
    rw [hr3] at htag
    exact htag
  obtain ⟨f, rfl⟩ : ∃ f, fuel = f + 1 := ⟨fuel - 1, by omega⟩
  simp only [serverSession, recv, send, close, Conn.init, List.length_nil, List.nil_append,
    List.cons_append, List.length_cons, Nat.zero_add, List.drop_zero, zero_add, Nat.reduceAdd]
  rw [hr3]
  have h3 : (3 : Int).toNat = 3 := rfl
  simp only [h3, htag3]
  rw [if_neg (by omega), if_neg (not_lt.mpr hsend), (strcmpNe_tag prog 64 (by omega)).1]
  simp only [Bool.false_eq_true, if_false]
  rw [if_neg (not_lt.mpr hrecv), hzero]
  simp only [lt_self_iff_false, if_false, Int.toNat_zero, readFromSocket, readLoop,
    writeToSocket, writeLoop, gt_iff_lt, calloc, List.replicate_zero, htrans]
  rfl

/-- Counterexample to C17 as stated: otp_enc_d receives the tag `"enc"` and then
the length field `"abc"` followed by NUL bytes; the worker reads no payload,
closes the connection and ends with exit status 0. -/
theorem unparsable_length_exits_zero :
    atoi (writeAt (calloc 64) 0 abcField) = 0
    ∧ Server.encD.worker (fullTransport (encTag ++ abcField)) 5
      = Result.exited 0
          { calls := [Call.recv 3 3, Call.send 3 3, Call.recv 10 10, Call.close],
            sent := encTag, rcvd := 13 } := by
  decide

/-- C17, as amended: after a successful role exchange, a length field whose
first byte is neither white space, a sign nor a digit (such as `"abc"`) is
parsed by `atoi` as 0; the session then goes on with length 0: it reads no
payload and sends no reply, closes the connection, and the worker ends with
exit status 0. -/
theorem nonnumeric_length_completes (prog : Server) (tr : Transport) (fuel : Nat)
    (hfuel : 0 < fuel)
    (htag : tr.next 0 (tr.ret 0 3).toNat = prog.tag)
    (hsend : 0 ≤ tr.ret 1 3) (hrecv : 0 ≤ tr.ret 2 10)
    (hfield : ∀ c, (tr.next 3 (tr.ret 2 10).toNat).head? = some c →
      isspace c = false ∧ c ≠ 45 ∧ c ≠ 43 ∧ isdigit c = false) :
    atoi (writeAt (calloc 64) 0 (tr.next 3 (tr.ret 2 10).toNat)) = 0
    ∧ prog.worker tr fuel
      = Result.exited 0
          { calls := [Call.recv 3 (tr.ret 0 3), Call.send 3 (tr.ret 1 3),
              Call.recv 10 (tr.ret 2 10), Call.close],
            sent := (prog.tag ++ [0]).take (tr.ret 1 3).toNat,
            rcvd := 3 + (tr.ret 2 10).toNat } := by
  have hzero := atoi_not_a_number (tr.next 3 (tr.ret 2 10).toNat) 64 hfield
  refine ⟨hzero, ?_⟩
  cases prog
  · have h := serverSession_zero_length Server.encD encode rfl tr fuel hfuel htag hsend hrecv
      hzero
    simp only [Server.tag] at h
    simp only [Server.worker, encWorker, checkAndEncode, Server.tag, h, workerExit]
  · have h := serverSession_zero_length Server.decD decode rfl tr fuel hfuel htag hsend hrecv
      hzero
    simp only [Server.tag] at h
    simp only [Server.worker, decWorker, checkAndDecode, Server.tag, h, workerExit]

/-- Witness of C17 (amended): otp_enc_d receiving `"enc"` and then `"abc"`
followed by NUL bytes. -/
theorem nonnumeric_length_completes_witness :
    atoi (writeAt (calloc 64) 0
        ((fullTransport (encTag ++ abcField)).next 3
          ((fullTransport (encTag ++ abcField)).ret 2 10).toNat)) = 0
    ∧ Server.encD.worker (fullTransport (encTag ++ abcField)) 5
      = Result.exited 0
          { calls := [Call.recv 3 3, Call.send 3 3, Call.recv 10 10, Call.close],
            sent := encTag, rcvd := 13 } :=
  nonnumeric_length_completes Server.encD (fullTransport (encTag ++ abcField)) 5
    (by decide) (by decide) (by decide) (by decide) (by decide)

/-! ### Only the prefix of the key is used -/

theorem charAt_take (K : List Int) (n j : Nat) (hj : j < n) :
    charAt (K.take n) j = charAt K j := by
  unfold charAt
  rw [List.getD_eq_getElem?_getD, List.getD_eq_getElem?_getD, List.getElem?_take_of_lt hj]

theorem encodeLoop_congr (T K K2 : List Int) (n i : Nat) (buf : List Int)
    (h : ∀ j, i ≤ j → j < i + n → charAt K j = charAt K2 j) :
    encodeLoop T K n i buf = encodeLoop T K2 n i buf := by
  apply List.ext_getElem?
  intro j
  rw [encodeLoop_getElem?, encodeLoop_getElem?]
  by_cases hc : i ≤ j ∧ j < i + n ∧ j < buf.length
  · rw [if_pos hc, if_pos hc, h j hc.1 hc.2.1]
  · rw [if_neg hc, if_neg hc]

theorem decodeLoop_congr (T K K2 : List Int) (n i : Nat) (buf : List Int)
    (h : ∀ j, i ≤ j → j < i + n → charAt K j = charAt K2 j) :
    decodeLoop T K n i buf = decodeLoop T K2 n i buf := by
  apply List.ext_getElem?
  intro j
  rw [decodeLoop_getElem?, decodeLoop_getElem?]
  by_cases hc : i ≤ j ∧ j < i + n ∧ j < buf.length
  · rw [if_pos hc, if_pos hc, h j hc.1 hc.2.1]
  · rw [if_neg hc, if_neg hc]

theorem encode_key_take (T K : List Int) (buf : List Int) :
    encode T K buf = encode T (K.take (strlen T)) buf := by
  unfold encode
  apply encodeLoop_congr
  intro j _ hj
  rw [charAt_take K (strlen T) j (by omega)]

theorem decode_key_take (T K : List Int) (buf : List Int) :
    decode T K buf = decode T (K.take (strlen T)) buf := by
  unfold decode
  apply decodeLoop_congr
  intro j _ hj
  rw [charAt_take K (strlen T) j (by omega)]

/-! ### A complete client session -/

theorem textLengthField_small (n : Nat) (hn : n ≤ 999999999) :
    ∃ field, textLengthField (n : Int) = some field ∧ field.length = 10
      ∧ atoi (writeAt (calloc 64) 0 field) = (n : Int) := by
  obtain ⟨ds, hs, hpos, hdig, hdv, hub, hlb⟩ := sprintfInt_natCast n
  have h9 : (10 : Nat) ^ 9 = 1000000000 := by norm_num
  have hlen9 : ds.length ≤ 9 :=
    sprintfInt_length_le n ds 9 (by omega) (by rw [h9]; omega) hlb
  have hti : toInt (n : Int) = (n : Int) := toInt_natCast n (by omega)
  have hflen : (ds ++ calloc (10 - ds.length)).length = 10 := by
    simp only [List.length_append, calloc, List.length_replicate]
    omega
  refine ⟨ds ++ calloc (10 - ds.length), ?_, hflen, ?_⟩
  · unfold textLengthField sprintfInBounds
    rw [hti, hs, if_pos (by simpa using (show ds.length + 1 ≤ 10 by omega)),
      writeAt_terminated ds 10 (by omega)]
  · have hbuf : writeAt (calloc 64) 0 (ds ++ calloc (10 - ds.length))
        = ds ++ calloc (64 - ds.length) := by
      rw [writeAt_zero_take _ _
          (by rw [hflen]; simp only [calloc, List.length_replicate]; omega),
        hflen, calloc_drop, List.append_assoc, calloc_append]
      have hk : 10 - ds.length + (64 - 10) = 64 - ds.length := by omega
      rw [hk]
    unfold atoi
    rw [hbuf, strtol_digits ds _ (by omega) hpos hdig, hdv]
    have h1 : min (9223372036854775807 : Int) (n : Int) = n := by omega
    have h2 : max (-9223372036854775808 : Int) (n : Int) = n := by omega
    rw [h1, h2]
    exact hti

theorem clientExchange_success (tr : Transport) (hP : tr.Progresses) (fuel n : Nat)
    (c : Conn) (text key field : List Int) (nplaintext : Int) (hnp : nplaintext = (n : Int))
    (hn : (n : Int) ≤ 2147483647) (hfuel : n + 1024 ≤ fuel)
    (hf : textLengthField nplaintext = some field) (hfl : field.length = 10)
    (hw : tr.ret c.calls.length 10 = 10) :
    ∃ c2 sendsT sendsK recvs,
      clientExchange tr fuel c text key nplaintext
        = Result.returned (cstr (tr.next c.rcvd n) ++ [10]) (close c2)
      ∧ c2.sent = c.sent ++ field ++ text.take n ++ key.take n
      ∧ c2.rcvd = c.rcvd + n
      ∧ c2.calls = c.calls ++ [Call.send 10 10] ++ sendsT ++ sendsK ++ recvs
      ∧ (∀ x ∈ sendsT ++ sendsK, ∃ len r, x = Call.send len r ∧ 1 ≤ len ∧ len ≤ 1024
            ∧ 1 ≤ r ∧ r ≤ len)
      ∧ (∀ x ∈ recvs, ∃ len r, x = Call.recv len r ∧ 1 ≤ len ∧ len ≤ 1024
            ∧ 1 ≤ r ∧ r ≤ len) := by
  have hti : toInt (n : Int) = (n : Int) := toInt_of_range _ (by omega) hn
  obtain ⟨c1, new1, he1, hs1, hr1, hc1, hn1⟩ :=
    writeLoop_progress tr text hP fuel (by omega) fuel n 0
      { calls := c.calls ++ [Call.send 10 10],
        sent := c.sent ++ field, rcvd := c.rcvd } (by omega)
  obtain ⟨c2, new2, he2, hs2, hr2, hc2, hn2⟩ :=
    writeLoop_progress tr key hP fuel (by omega) fuel n 0 c1 (by omega)
  obtain ⟨c3, new3, he3, hs3, hr3, hc3, hn3⟩ :=
    readLoop_progress tr hP fuel (by omega) fuel n 0 (calloc n) c2 (by omega)
  have hfield : List.take (10 : Int).toNat (List.drop 0 field) = field := by
    have h10 : (10 : Int).toNat = 10 := rfl
    rw [h10, List.drop_zero, List.take_of_length_le (le_of_eq hfl)]
  have hreply : writeAt (calloc n) 0 (tr.next c2.rcvd n) = tr.next c2.rcvd n := by
    rw [writeAt_zero_take _ _ (by rw [next_length]; simp [calloc]), next_length, calloc_drop]
    simp [calloc]
  refine ⟨c3, new1, new2, new3, ?_, ?_, ?_, ?_, ?_, hn3⟩
  · simp only [clientExchange, hf]
    subst hnp
    simp only [send, hw, hti, writeToSocket, readFromSocket, Int.toNat_ofNat, hfield]
    rw [if_neg (by omega), he1]
    simp only []
    rw [he2]
    simp only []
    rw [he3]
    simp only [hreply]
    rw [hr2, hr1]
  · rw [hs3, hs2, hs1]
    simp
  · rw [hr3, hr2, hr1]
  · rw [hc3, hc2, hc1]
  · intro x hx
    rcases List.mem_append.mp hx with hx | hx
    · exact hn1 x hx
    · exact hn2 x hx

theorem chomp_line (T : List Int) (hT : ∀ c ∈ T, inAlphabet c) :
    chomp (T ++ [10]) = T ++ [0, 0] := by
  have hcs : strcspnNewline ((T ++ [10]) ++ [0]) = T.length := by
    unfold strcspnNewline
    rw [List.append_assoc, List.takeWhile_append_of_pos]
    · simp [List.takeWhile_cons]
    · intro c hc
      have := hT c hc
      unfold inAlphabet at this
      simp only [Bool.and_eq_true, decide_eq_true_eq]
      omega
  unfold chomp
  rw [hcs, List.append_assoc, List.set_append_right _ _ (le_refl _)]
  simp

theorem cstr_line (T : List Int) (hT : ∀ c ∈ T, inAlphabet c) :
    cstr (T ++ [0, 0]) = T := by
  have := cstr_append_calloc T (fun c hc => inAlphabet_ne_zero (hT c hc)) 2 (by omega)
  simpa [calloc, List.replicate_succ] using this

theorem checkTexts_lines (T K : List Int) (hT : ∀ c ∈ T, inAlphabet c)
    (hK : ∀ c ∈ K, inAlphabet c) (hlen : T.length ≤ K.length)
    (hKmax : K.length ≤ 2147483647) :
    checkTexts (chomp (T ++ [10])) (chomp (K ++ [10])) = 1 := by
  have hsT : strlen (T ++ [0, 0]) = T.length := by
    unfold strlen
    rw [cstr_line T hT]
  have hsK : strlen (K ++ [0, 0]) = K.length := by
    unfold strlen
    rw [cstr_line K hK]
  rw [chomp_line T hT, chomp_line K hK,
    checkTexts_cases _ _ (by rw [hsT]; omega) (by rw [hsK]; omega)]
  unfold strlen
  rw [cstr_line T hT, cstr_line K hK]
  rw [if_neg (by omega), if_neg (by rintro ⟨c, hc, hn⟩; exact hn (hT c hc)),
    if_neg (by rintro ⟨c, hc, hn⟩; exact hn (hK c hc))]

theorem clientMain_success (prog : Server) (tr : Transport) (hP : tr.Progresses)
    (fuel : Nat) (textLine keyLine : List Int)
    (htext : textLine ≠ []) (hkey : keyLine ≠ [])
    (hvalid : 0 ≤ checkTexts (chomp textLine) (chomp keyLine))
    (hsock : 0 ≤ tr.ret 0 0) (hconn : 0 ≤ tr.ret 1 0)
    (htag : tr.next 0 (tr.ret 3 3).toNat = prog.tag)
    (hfield : tr.ret 4 10 = 10)
    (hn : textLine.length ≤ 999999999) (hfuel : textLine.length + 1024 ≤ fuel) :
    ∃ c2 sendsT sendsK recvs field,
      clientMain prog.tag tr fuel true textLine keyLine
        = Result.returned (cstr (tr.next 3 textLine.length) ++ [10]) (close c2)
      ∧ textLengthField (textLine.length : Int) = some field
      ∧ atoi (writeAt (calloc 64) 0 field) = (textLine.length : Int)
      ∧ c2.sent = (prog.tag ++ [0]).take (tr.ret 2 3).toNat
          ++ field
          ++ (chomp textLine).take textLine.length ++ (chomp keyLine).take textLine.length
      ∧ c2.rcvd = 3 + textLine.length
      ∧ c2.calls = [Call.socket (tr.ret 0 0), Call.connect (tr.ret 1 0),
            Call.send 3 (tr.ret 2 3), Call.recv 3 3, Call.send 10 10]
          ++ sendsT ++ sendsK ++ recvs
      ∧ (∀ x ∈ sendsT ++ sendsK, ∃ len r, x = Call.send len r ∧ 1 ≤ len ∧ len ≤ 1024
            ∧ 1 ≤ r ∧ r ≤ len)
      ∧ (∀ x ∈ recvs, ∃ len r, x = Call.recv len r ∧ 1 ≤ len ∧ len ≤ 1024
            ∧ 1 ≤ r ∧ r ≤ len) := by
  have hr3 : tr.ret 3 3 = 3 := recv_tag_count prog tr 0 _ htag
  have htag3 : tr.next 0 3 = prog.tag := by
    rw [hr3] at htag
    exact htag
  have hsend := (hP 2 3 (by omega)).1
  obtain ⟨field, hf, hfl, hatoi⟩ := textLengthField_small textLine.length hn
  obtain ⟨c2, sendsT, sendsK, recvs, he, hs, hr, hc, h1, h2⟩ :=
    clientExchange_success tr hP fuel textLine.length
      { calls := [Call.socket (tr.ret 0 0), Call.connect (tr.ret 1 0),
          Call.send 3 (tr.ret 2 3), Call.recv 3 3],
        sent := (prog.tag ++ [0]).take (tr.ret 2 3).toNat, rcvd := 3 }
      (chomp textLine) (chomp keyLine) field (textLine.length : Int) rfl (by omega) hfuel hf hfl
      hfield
  refine ⟨c2, sendsT, sendsK, recvs, field, ?_, hf, hatoi, hs, hr, by rw [hc]; simp, h1, h2⟩
  have h3 : (3 : Int).toNat = 3 := rfl
  simp only [clientMain, socketCall, connectCall, recv, send, Conn.init, List.length_nil,
    List.nil_append, List.cons_append, List.length_cons, Nat.zero_add, List.drop_zero,
    zero_add, Nat.reduceAdd, Bool.not_true, Bool.false_eq_true, if_false]
  rw [hr3]
  simp only [h3, htag3]
  rw [if_neg htext, if_neg hkey, if_neg (not_lt.mpr hvalid), if_neg (not_lt.mpr hsock),
    if_neg (not_lt.mpr hconn), if_neg (by omega), if_neg (by omega),
    (strcmpNe_tag prog 1024 (by omega)).2]
  simp only [Bool.false_eq_true, if_false]
  exact he

theorem fullTransport_progresses (stream : List Int) : (fullTransport stream).Progresses := by
  intro k len h
  simp only [fullTransport]
  rw [if_neg (by omega)]
  omega

theorem chomp_length (line : List Int) : (chomp line).length = line.length + 1 := by
  simp [chomp]

/-- C11 (only the key's prefix matters): two keys that agree on their first
`len(T)` characters give the same `encode` and the same `decode` of `T`; and in
a complete client session (a text line of at most 999999999 bytes, whose length
fits the array `textLength`) the key bytes handed to the transport are exactly
the first `n` bytes of the key buffer, `n` being the length the client declares
in the length field (they follow the tag, the length field and the `n` text
bytes). -/
theorem key_prefix_only (T K K2 buf : List Int) (prog : Server) (tr : Transport)
    (fuel : Nat) (textLine keyLine : List Int)
    (hagree : K.take (strlen T) = K2.take (strlen T))
    (hP : tr.Progresses)
    (htext : textLine ≠ []) (hkey : keyLine ≠ [])
    (hvalid : 0 ≤ checkTexts (chomp textLine) (chomp keyLine))
    (hkeylen : textLine.length ≤ keyLine.length + 1)
    (hsock : 0 ≤ tr.ret 0 0) (hconn : 0 ≤ tr.ret 1 0)
    (htag : tr.next 0 (tr.ret 3 3).toNat = prog.tag)
    (hfield : tr.ret 4 10 = 10)
    (hn : textLine.length ≤ 999999999) (hfuel : textLine.length + 1024 ≤ fuel) :
    encode T K buf = encode T K2 buf
    ∧ decode T K buf = decode T K2 buf
    ∧ ∃ out c field,
        prog.client tr fuel true textLine keyLine = Result.returned out c
        ∧ textLengthField (textLine.length : Int) = some field
        ∧ atoi (writeAt (calloc 64) 0 field) = (textLine.length : Int)
        ∧ c.sent = (prog.tag ++ [0]).take (tr.ret 2 3).toNat
            ++ field
            ++ (chomp textLine).take textLine.length
            ++ (chomp keyLine).take textLine.length
        ∧ ((chomp keyLine).take textLine.length).length = textLine.length := by
  refine ⟨?_, ?_, ?_⟩
  · rw [encode_key_take T K, encode_key_take T K2, hagree]
  · rw [decode_key_take T K, decode_key_take T K2, hagree]
  · obtain ⟨c2, _, _, _, field, he, hf, hatoi, hs, _⟩ :=
      clientMain_success prog tr hP fuel textLine keyLine htext hkey hvalid hsock hconn htag
        hfield hn hfuel
    refine ⟨cstr (tr.next 3 textLine.length) ++ [10], close c2, field, ?_, hf, hatoi, hs, ?_⟩
    · cases prog
      · exact he
      · exact he
    · rw [List.length_take, chomp_length]
      omega

/-- Witness of C11: `"HELLO WORLD"` with two keys that differ from their 12th
character on, and the client session for `"HELLO WORLD"` under the sample key. -/
theorem key_prefix_only_witness :
    encode helloWorld sampleKey (calloc 12) = encode helloWorld sampleKey2 (calloc 12)
    ∧ decode helloWorld sampleKey (calloc 12) = decode helloWorld sampleKey2 (calloc 12)
    ∧ ∃ out c field,
        Server.encD.client (fullTransport (encTag ++ helloCipher)) 1100 true helloLine
            keyLine12 = Result.returned out c
        ∧ textLengthField (helloLine.length : Int) = some field
        ∧ atoi (writeAt (calloc 64) 0 field) = (helloLine.length : Int)
        ∧ c.sent = (Server.encD.tag ++ [0]).take
              ((fullTransport (encTag ++ helloCipher)).ret 2 3).toNat
            ++ field
            ++ (chomp helloLine).take helloLine.length
            ++ (chomp keyLine12).take helloLine.length
        ∧ ((chomp keyLine12).take helloLine.length).length = helloLine.length :=
  key_prefix_only helloWorld sampleKey sampleKey2 (calloc 12) Server.encD
    (fullTransport (encTag ++ helloCipher)) 1100 helloLine keyLine12
    (by decide) (fullTransport_progresses _) (by decide) (by decide) (by decide)
    (by decide) (by decide) (by decide) (by decide) (by decide) (by decide) (by decide)

/-! ### The length the client declares -/

/-- Counterexample to C16 as stated: for the text line `"HELLO WORLD\n"` (11
characters and the newline) the client declares the length 12, not 11, and the
text payload is the 12 bytes `"HELLO WORLD"` and a NUL byte; the key payload is
the 12 first characters of the key. -/
theorem declared_length_is_not_text_length :
    (Server.encD.client (fullTransport (encTag ++ helloCipher)) 5 true helloLine
        keyLine12).conn.sent
      = encTag ++ [49, 50, 0, 0, 0, 0, 0, 0, 0, 0] ++ (helloWorld ++ [0]) ++ sampleKey
    ∧ textLengthField 12 = some [49, 50, 0, 0, 0, 0, 0, 0, 0, 0]
    ∧ atoi (writeAt (calloc 64) 0 [49, 50, 0, 0, 0, 0, 0, 0, 0, 0]) = 12
    ∧ helloWorld.length = 11
    ∧ ¬ (∀ c ∈ helloWorld ++ [0], inAlphabet c) := by
  decide

/-- C16, as amended: for a text line made of the alphabet characters `T` and a
newline, with `len(T) + 1 ≤ 999999999`, and a key line made of the alphabet
characters `K` and a newline, with `len(T) ≤ len(K) ≤ 2147483647`, validation
passes and a complete client session declares the length `n = len(T) + 1` (the
count of `getline`, newline included), which is what `atoi` reads back from the
field; the text payload is the `n` bytes `T` followed by a NUL byte, and the key
payload is the first `n` bytes of the key buffer, that is the first
`len(T) + 1` characters of `K` when `K` is longer than `T` and `K` followed by a
NUL byte when it has the length of `T`. -/
theorem declared_length_counts_newline (prog : Server) (tr : Transport) (fuel : Nat)
    (T K : List Int)
    (hP : tr.Progresses)
    (hT : ∀ c ∈ T, inAlphabet c) (hK : ∀ c ∈ K, inAlphabet c)
    (hlen : T.length ≤ K.length) (hKmax : K.length ≤ 2147483647)
    (hsock : 0 ≤ tr.ret 0 0) (hconn : 0 ≤ tr.ret 1 0)
    (htag : tr.next 0 (tr.ret 3 3).toNat = prog.tag)
    (hfield : tr.ret 4 10 = 10)
    (hn : T.length + 1 ≤ 999999999) (hfuel : T.length + 1 + 1024 ≤ fuel) :
    checkTexts (chomp (T ++ [10])) (chomp (K ++ [10])) = 1
    ∧ (∃ out c field,
        prog.client tr fuel true (T ++ [10]) (K ++ [10]) = Result.returned out c
        ∧ textLengthField ((T.length + 1 : Nat) : Int) = some field
        ∧ atoi (writeAt (calloc 64) 0 field) = ((T.length + 1 : Nat) : Int)
        ∧ c.sent = (prog.tag ++ [0]).take (tr.ret 2 3).toNat
            ++ field ++ (T ++ [0]) ++ (K ++ [0]).take (T.length + 1))
    ∧ (T ++ [0]).length = T.length + 1
    ∧ ((K ++ [0]).take (T.length + 1)).length = T.length + 1
    ∧ (T.length < K.length → (K ++ [0]).take (T.length + 1) = K.take (T.length + 1))
    ∧ (T.length = K.length → (K ++ [0]).take (T.length + 1) = K ++ [0]) := by
  have hlines : (T ++ [10]).length = T.length + 1 := by simp
  have hcheck := checkTexts_lines T K hT hK hlen hKmax
  have hvalid : 0 ≤ checkTexts (chomp (T ++ [10])) (chomp (K ++ [10])) := by
    rw [hcheck]
    omega
  obtain ⟨c2, _, _, _, field, he, hf, hatoi, hs, _⟩ :=
    clientMain_success prog tr hP fuel (T ++ [10]) (K ++ [10]) (by simp) (by simp) hvalid
      hsock hconn htag hfield (by rw [hlines]; omega) (by rw [hlines]; omega)
  have htT : (chomp (T ++ [10])).take (T.length + 1) = T ++ [0] := by
    rw [chomp_line T hT]
    have : T ++ [0, 0] = (T ++ [0]) ++ [0] := by simp
    rw [this, List.take_append_of_le_length (by simp), List.take_of_length_le (by simp)]
  have htK : (chomp (K ++ [10])).take (T.length + 1) = (K ++ [0]).take (T.length + 1) := by
    rw [chomp_line K hK]
    have : K ++ [0, 0] = (K ++ [0]) ++ [0] := by simp
    rw [this, List.take_append_of_le_length (by simp; omega)]
  rw [hlines] at hf hatoi hs
  refine ⟨hcheck, ⟨cstr (tr.next 3 (T ++ [10]).length) ++ [10], close c2, field, ?_, hf,
    hatoi, ?_⟩, by simp, ?_, ?_, ?_⟩
  · cases prog
    · exact he
    · exact he
  · rw [htT, htK] at hs
    exact hs
  · rw [List.length_take]
    simp
    omega
  · intro h
    rw [List.take_append_of_le_length (by omega)]
  · intro h
    rw [List.take_of_length_le (by simp; omega)]

/-- Witness of C16 (amended): `"HELLO WORLD"` under the sample key. -/
theorem declared_length_counts_newline_witness :
    checkTexts (chomp (helloWorld ++ [10])) (chomp (sampleKey ++ [10])) = 1
    ∧ (∃ out c field,
        Server.encD.client (fullTransport (encTag ++ helloCipher)) 1100 true
          (helloWorld ++ [10]) (sampleKey ++ [10]) = Result.returned out c
        ∧ textLengthField ((helloWorld.length + 1 : Nat) : Int) = some field
        ∧ atoi (writeAt (calloc 64) 0 field) = ((helloWorld.length + 1 : Nat) : Int)
        ∧ c.sent = (Server.encD.tag ++ [0]).take
              ((fullTransport (encTag ++ helloCipher)).ret 2 3).toNat
            ++ field ++ (helloWorld ++ [0])
            ++ (sampleKey ++ [0]).take (helloWorld.length + 1))
    ∧ (helloWorld ++ [0]).length = helloWorld.length + 1
    ∧ ((sampleKey ++ [0]).take (helloWorld.length + 1)).length = helloWorld.length + 1
    ∧ (helloWorld.length < sampleKey.length →
        (sampleKey ++ [0]).take (helloWorld.length + 1)
          = sampleKey.take (helloWorld.length + 1))
    ∧ (helloWorld.length = sampleKey.length →
        (sampleKey ++ [0]).take (helloWorld.length + 1) = sampleKey ++ [0]) :=
  declared_length_counts_newline Server.encD (fullTransport (encTag ++ helloCipher)) 1100
    helloWorld sampleKey (fullTransport_progresses _) (by decide) (by decide) (by decide)
    (by decide) (by decide) (by decide) (by decide) (by decide) (by decide) (by decide)

/-! ### A complete server session -/

theorem writeAt_full (data : List Int) (n : Nat) (h : data.length = n) :
    writeAt (calloc n) 0 data = data := by
  rw [writeAt_zero_take _ _ (by simp [calloc, h]), h, calloc_drop]
  simp [calloc]

theorem serverSession_success (prog : Server)
    (transform : List Int → List Int → List Int → List Int)
    (tr : Transport) (fuel n : Nat) (hP : tr.Progresses)
    (htag : tr.next 0 (tr.ret 0 3).toNat = prog.tag)
    (hlen : atoi (writeAt (calloc 64) 0 (tr.next 3 (tr.ret 2 10).toNat)) = (n : Int))
    (hfuel : n + 1024 ≤ fuel)
    (hout : (transform (tr.next (3 + (tr.ret 2 10).toNat) n)
        (tr.next (3 + (tr.ret 2 10).toNat + n) n) (calloc n)).length = n) :
    ∃ c recvsT recvsK sends,
      serverSession prog.tag transform tr fuel Conn.init = Result.returned () (close c)
      ∧ c.sent = (prog.tag ++ [0]).take (tr.ret 1 3).toNat
          ++ transform (tr.next (3 + (tr.ret 2 10).toNat) n)
              (tr.next (3 + (tr.ret 2 10).toNat + n) n) (calloc n)
      ∧ c.rcvd = 3 + (tr.ret 2 10).toNat + n + n
      ∧ c.calls = [Call.recv 3 (tr.ret 0 3), Call.send 3 (tr.ret 1 3),
            Call.recv 10 (tr.ret 2 10)] ++ recvsT ++ recvsK ++ sends
      ∧ (∀ x ∈ recvsT ++ recvsK, ∃ len r, x = Call.recv len r ∧ 1 ≤ len ∧ len ≤ 1024
            ∧ 1 ≤ r ∧ r ≤ len)
      ∧ (∀ x ∈ sends, ∃ len r, x = Call.send len r ∧ 1 ≤ len ∧ len ≤ 1024
            ∧ 1 ≤ r ∧ r ≤ len) := by
  have hr3 : tr.ret 0 3 = 3 := recv_tag_count prog tr 0 _ htag
  have htag3 : tr.next 0 3 = prog.tag := by
    rw [hr3] at htag
    exact htag
  have hsend := (hP 1 3 (by omega)).1
  have hrecv := (hP 2 10 (by omega)).1
  obtain ⟨c1, new1, he1, hs1, hr1, hc1, hn1⟩ :=
    readLoop_progress tr hP fuel (by omega) fuel n 0 (calloc n)
      { calls := [Call.recv 3 3, Call.send 3 (tr.ret 1 3), Call.recv 10 (tr.ret 2 10)],
        sent := (prog.tag ++ [0]).take (tr.ret 1 3).toNat,
        rcvd := 3 + (tr.ret 2 10).toNat } (by omega)
  obtain ⟨c2, new2, he2, hs2, hr2, hc2, hn2⟩ :=
    readLoop_progress tr hP fuel (by omega) fuel n 0 (calloc n) c1 (by omega)
  simp only [] at hr1
  rw [writeAt_full _ n (next_length _ _ _)] at he1
  rw [writeAt_full _ n (next_length _ _ _), hr1] at he2
  obtain ⟨c3, new3, he3, hs3, hr3', hc3, hn3⟩ :=
    writeLoop_progress tr
      (transform (tr.next (3 + (tr.ret 2 10).toNat) n)
        (tr.next (3 + (tr.ret 2 10).toNat + n) n) (calloc n))
      hP fuel (by omega) fuel n 0 c2 (by omega)
  refine ⟨c3, new1, new2, new3, ?_, ?_, ?_, ?_, ?_, hn3⟩
  · have h3 : (3 : Int).toNat = 3 := rfl
    simp only [serverSession, recv, send, Conn.init, List.length_nil, List.nil_append,
      List.cons_append, List.length_cons, Nat.zero_add, List.drop_zero, zero_add,
      Nat.reduceAdd]
    rw [hr3]
    simp only [h3, htag3]
    rw [if_neg (by omega), if_neg (by omega), (strcmpNe_tag prog 64 (by omega)).1]
    simp only [Bool.false_eq_true, if_false]
    rw [if_neg (by omega), hlen, if_neg (by omega)]
    simp only [Int.toNat_ofNat, readFromSocket, writeToSocket]
    rw [he1]
    simp only []
    rw [he2]
    simp only []
    rw [he3]
  · rw [hs3, hs2, hs1, List.drop_zero, List.take_of_length_le (le_of_eq hout)]
  · rw [hr3', hr2, hr1]
  · rw [hc3, hc2, hc1, hr3]
  · intro x hx
    rcases List.mem_append.mp hx with hx | hx
    · exact hn1 x hx
    · exact hn2 x hx

theorem encodeLoop_congr_text (T T2 K : List Int) (n i : Nat) (buf : List Int)
    (h : ∀ j, i ≤ j → j < i + n → charAt T j = charAt T2 j) :
    encodeLoop T K n i buf = encodeLoop T2 K n i buf := by
  apply List.ext_getElem?
  intro j
  rw [encodeLoop_getElem?, encodeLoop_getElem?]
  by_cases hc : i ≤ j ∧ j < i + n ∧ j < buf.length
  · rw [if_pos hc, if_pos hc, h j hc.1 hc.2.1]
  · rw [if_neg hc, if_neg hc]

theorem decodeLoop_congr_text (T T2 K : List Int) (n i : Nat) (buf : List Int)
    (h : ∀ j, i ≤ j → j < i + n → charAt T j = charAt T2 j) :
    decodeLoop T K n i buf = decodeLoop T2 K n i buf := by
  apply List.ext_getElem?
  intro j
  rw [decodeLoop_getElem?, decodeLoop_getElem?]
  by_cases hc : i ≤ j ∧ j < i + n ∧ j < buf.length
  · rw [if_pos hc, if_pos hc, h j hc.1 hc.2.1]
  · rw [if_neg hc, if_neg hc]

theorem strlen_terminated (T : List Int) (hT : ∀ c ∈ T, inAlphabet c) :
    strlen (T ++ [0]) = T.length := by
  unfold strlen
  have := cstr_append_calloc T (fun c hc => inAlphabet_ne_zero (hT c hc)) 1 (by omega)
  simp only [calloc, List.replicate_one] at this
  rw [this]

theorem transform_terminated (prog : Server) (T K : List Int) (n : Nat)
    (hT : ∀ c ∈ T, inAlphabet c) (hn : T.length + 1 = n) (hKlen : K.length = n)
    (hK : ∀ c ∈ K.take (n - 1), inAlphabet c) :
    prog.transform (T ++ [0]) K (calloc n) = cstr (prog.transform T K (calloc n)) ++ [0]
    ∧ (cstr (prog.transform T K (calloc n))).length = T.length
    ∧ (∀ c ∈ cstr (prog.transform T K (calloc n)), inAlphabet c)
    ∧ (prog.transform (T ++ [0]) K (calloc n)).length = n := by
  have hsl : strlen T = T.length := strlen_of_alphabet T hT
  have hn1 : n - 1 = T.length := by omega
  rw [hn1] at hK
  have hKtl : T.length ≤ (K.take T.length).length := by
    rw [List.length_take]; omega
  have hone : calloc (n - T.length) = [0] := by
    have : n - T.length = 1 := by omega
    rw [this]; rfl
  cases prog
  · have h1 : encode (T ++ [0]) K (calloc n) = encode T K (calloc n) := by
      unfold encode
      rw [strlen_terminated T hT, hsl]
      apply encodeLoop_congr_text
      intro j _ hj
      exact charAt_append_left T [0] j (by omega)
    have h2 : encode T K (calloc n) = encode T (K.take T.length) (calloc n) := by
      rw [encode_key_take T K, hsl]
    have h3 := cstr_encode T (K.take T.length) n hT hK hKtl (by omega)
    have h4 := encode_calloc T (K.take T.length) n hT (by omega)
    simp only [Server.transform]
    refine ⟨?_, ?_, ?_, ?_⟩
    · rw [h1, h2, h3, h4, hone]
    · rw [h2, h3]; simp
    · rw [h2, h3]; exact encoded_inAlphabet T (K.take T.length) hT hK hKtl
    · simp [encode, encodeLoop_length, calloc]
  · have h1 : decode (T ++ [0]) K (calloc n) = decode T K (calloc n) := by
      unfold decode
      rw [strlen_terminated T hT, hsl]
      apply decodeLoop_congr_text
      intro j _ hj
      exact charAt_append_left T [0] j (by omega)
    have h2 : decode T K (calloc n) = decode T (K.take T.length) (calloc n) := by
      rw [decode_key_take T K, hsl]
    have h3 := cstr_decode T (K.take T.length) n hT hK hKtl (by omega)
    have h4 := decode_calloc T (K.take T.length) n hT (by omega)
    simp only [Server.transform]
    refine ⟨?_, ?_, ?_, ?_⟩
    · rw [h1, h2, h3, h4, hone]
    · rw [h2, h3]; simp
    · rw [h2, h3]; exact decoded_inAlphabet T (K.take T.length) hT hK hKtl
    · simp [decode, decodeLoop_length, calloc]

theorem worker_eq (prog : Server) (tr : Transport) (fuel : Nat) :
    prog.worker tr fuel = workerExit (serverSession prog.tag prog.transform tr fuel Conn.init) := by
  cases prog <;> rfl

/-- C14 (successful server session): when the worker receives its own role tag,
a length field that `atoi` reads as `n` (`n ≥ 1`), then `n` text bytes made of the
`n - 1` alphabet characters `T` and a NUL byte, then the `n` key bytes `K` whose
first `n - 1` are alphabet characters, over a transport without error on which
every call transfers at least one byte, it replies with exactly `n` bytes: the
string `encode(T, K)` (`decode(T, K)` in otp_dec_d), of `n - 1` alphabet
characters, followed by a NUL byte. In its trace the `send` calls of the reply
come after all `recv` calls of the text and then of the key, nothing else is
sent after the tag, and the worker ends with `close` and exit status 0. -/
theorem successful_server_session (prog : Server) (tr : Transport) (fuel n : Nat)
    (T K : List Int) (hP : tr.Progresses)
    (htag : tr.next 0 (tr.ret 0 3).toNat = prog.tag)
    (hlen : atoi (writeAt (calloc 64) 0 (tr.next 3 (tr.ret 2 10).toNat)) = (n : Int))
    (hT : tr.next (3 + (tr.ret 2 10).toNat) n = T ++ [0])
    (hTa : ∀ c ∈ T, inAlphabet c)
    (hK : tr.next (3 + (tr.ret 2 10).toNat + n) n = K)
    (hKa : ∀ c ∈ K.take (n - 1), inAlphabet c)
    (hfuel : n + 1024 ≤ fuel) :
    ∃ c recvsT recvsK sends,
      prog.worker tr fuel = Result.exited 0 c
      ∧ c.sent = (prog.tag ++ [0]).take (tr.ret 1 3).toNat
          ++ (cstr (prog.transform T K (calloc n)) ++ [0])
      ∧ (cstr (prog.transform T K (calloc n)) ++ [0]).length = n
      ∧ (∀ ch ∈ cstr (prog.transform T K (calloc n)), inAlphabet ch)
      ∧ c.rcvd = 3 + (tr.ret 2 10).toNat + n + n
      ∧ c.calls = [Call.recv 3 (tr.ret 0 3), Call.send 3 (tr.ret 1 3),
            Call.recv 10 (tr.ret 2 10)] ++ recvsT ++ recvsK ++ sends ++ [Call.close]
      ∧ (∀ x ∈ recvsT ++ recvsK, ∃ len r, x = Call.recv len r ∧ 1 ≤ len ∧ len ≤ 1024
            ∧ 1 ≤ r ∧ r ≤ len)
      ∧ (∀ x ∈ sends, ∃ len r, x = Call.send len r ∧ 1 ≤ len ∧ len ≤ 1024
            ∧ 1 ≤ r ∧ r ≤ len) := by
  have hTlen : T.length + 1 = n := by
    have := congrArg List.length hT
    rw [next_length] at this
    simp at this
    omega
  have hKlen : K.length = n := by
    rw [← hK, next_length]
  obtain ⟨ht1, ht2, ht3, ht4⟩ := transform_terminated prog T K n hTa hTlen hKlen hKa
  obtain ⟨c, recvsT, recvsK, sends, he, hs, hr, hc, h1, h2⟩ :=
    serverSession_success prog prog.transform tr fuel n hP htag hlen hfuel
      (by rw [hT, hK]; exact ht4)
  rw [hT, hK, ht1] at hs
  refine ⟨close c, recvsT, recvsK, sends, ?_, hs, ?_, ht3, hr, ?_, h1, h2⟩
  · rw [worker_eq, he]
    rfl
  · rw [List.length_append, ht2]
    simpa using hTlen
  · simp only [close]
    rw [hc]

/-- Witness of C14: otp_enc_d receiving the session of `"HELLO WORLD"` under
the sample key (declared length 12). -/
theorem successful_server_session_witness :
    ∃ c recvsT recvsK sends,
      Server.encD.worker (fullTransport helloSession) 1100 = Result.exited 0 c
      ∧ c.sent = (Server.encD.tag ++ [0]).take ((fullTransport helloSession).ret 1 3).toNat
          ++ (cstr (Server.encD.transform helloWorld sampleKey (calloc 12)) ++ [0])
      ∧ (cstr (Server.encD.transform helloWorld sampleKey (calloc 12)) ++ [0]).length = 12
      ∧ (∀ ch ∈ cstr (Server.encD.transform helloWorld sampleKey (calloc 12)),
          inAlphabet ch)
      ∧ c.rcvd = 3 + ((fullTransport helloSession).ret 2 10).toNat + 12 + 12
      ∧ c.calls = [Call.recv 3 ((fullTransport helloSession).ret 0 3),
            Call.send 3 ((fullTransport helloSession).ret 1 3),
            Call.recv 10 ((fullTransport helloSession).ret 2 10)]
          ++ recvsT ++ recvsK ++ sends ++ [Call.close]
      ∧ (∀ x ∈ recvsT ++ recvsK, ∃ len r, x = Call.recv len r ∧ 1 ≤ len ∧ len ≤ 1024
            ∧ 1 ≤ r ∧ r ≤ len)
      ∧ (∀ x ∈ sends, ∃ len r, x = Call.send len r ∧ 1 ≤ len ∧ len ≤ 1024
            ∧ 1 ≤ r ∧ r ≤ len) :=
  successful_server_session Server.encD (fullTransport helloSession) 1100 12 helloWorld
    sampleKey (fullTransport_progresses _) (by decide) (by decide) (by decide) (by decide)
    (by decide) (by decide) (by decide)

/-- The session of `"HELLO WORLD"` evaluated: otp_enc_d replies `"DQNVZUADOPL"`
and a NUL byte after the text and the key have been read, and exits with 0. -/
theorem hello_session_reply :
    Server.encD.worker (fullTransport helloSession) 5
      = Result.exited 0
          { calls := [Call.recv 3 3, Call.send 3 3, Call.recv 10 10, Call.recv 12 12,
              Call.recv 12 12, Call.send 12 12, Call.close],
            sent := encTag ++ helloCipher, rcvd := 37 } := by
  decide

end Otp
